import Mathlib

/-!
# Conv + activation fusion (`onnxruntime/core/optimizer/conv_activation_fusion.cc`)

A shallow embedding of `ConvActivationFusion::ApplyImpl` and of the graph
operations it calls, followed by theorems about the pass.

* The graph is an index-stable arena: slot `i` of `Graph.nodes` holds the node
  whose `Node::Index()` is `i`, or `none` once that node has been removed.
* C++ references into the graph (`Node&`) are node indices here.
* `Outcome.fault` stands for undefined behaviour of the C++ code: dereferencing
  a null pointer or indexing a vector out of range; `Fault` names the access.
* `Refs.fusions` is a ghost log: one record per call of
  `graph_utils::FinalizeNodeFusion`, holding the arguments of the call.
-/

set_option autoImplicit false

namespace onnxruntime

/-! ## Results of running the code -/

/-- The unchecked accesses of the pass that are undefined behaviour when they
fail. -/
inductive Fault where
  /-- `*(node.OutputNodesBegin())` on a node without consumer edges. -/
  | no_consumer
  /-- `*(node.OutputNodesBegin())` where the edge end references no live node. -/
  | dangling_edge
  /-- `*graph.GetNode(index)` where the lookup returned the null pointer. -/
  | null_node
  /-- `node->InputDefs()[0]` on a node without inputs. -/
  | no_input
  /-- `TypeAsProto()->tensor_type()` where the type is unknown (null). -/
  | null_type
  /-- `conv_outputs[0]` on a node without outputs. -/
  | no_output
  /-- `GetNodeAttribute(node, name)->f()` where the attribute is absent (null). -/
  | null_attribute
deriving DecidableEq

/-- Result of a `Status`-returning function that mutates state through references.
`ok s`: returned `Status::OK()`, the referenced state is `s`.
`error s msg`: returned a non-OK `Status`, the referenced state is `s`.
`fault what`: undefined behaviour, at the unchecked access `what`. -/
inductive Outcome (σ : Type) where
  | ok (s : σ)
  | error (s : σ) (msg : String)
  | fault (what : Fault)
deriving DecidableEq

/-! ## Data model -/

abbrev NodeIndex := Nat

/-- A C++ `float`, kept as its IEEE-754 single-precision bit pattern. The pass
only moves floats around; it never computes with them. -/
abbrev float := Nat

/-- The literal `0.2f`. -/
def float_0_2 : float := 0x3E4CCCCD

/-- The literal `0.5f`. -/
def float_0_5 : float := 0x3F000000

/-- `ONNX_NAMESPACE::TensorProto_DataType_FLOAT`. -/
def TensorProto_DataType_FLOAT : Nat := 1

/-- `onnxruntime::kCudaExecutionProvider`. -/
def kCudaExecutionProvider : String := "CUDAExecutionProvider"

/-- `onnxruntime::kCpuExecutionProvider`. -/
def kCpuExecutionProvider : String := "CPUExecutionProvider"

/-- `onnxruntime::kMSDomain`. -/
def kMSDomain : String := "com.microsoft"

/-- `onnxruntime::kOnnxDomain`, the default ONNX operator domain. -/
def kOnnxDomain : String := ""

/-- `ONNX_NAMESPACE::TypeProto`, as far as the pass reads it. -/
inductive TypeProto where
  | tensor_type (elem_type : Nat)
  | other
deriving DecidableEq

/-- `type.tensor_type().elem_type()`; protobuf answers the default value `0`
(`UNDEFINED`) when the type is not a tensor type. -/
def TypeProto.elem_type : TypeProto → Nat
  | .tensor_type t => t
  | .other => 0

/-- `NodeArg`: a named value. `TypeAsProto` is `none` for the null pointer the
accessor returns when the type is unknown. -/
structure NodeArg where
  Name : String
  TypeAsProto : Option TypeProto
deriving DecidableEq

/-- `ONNX_NAMESPACE::AttributeProto`, as far as the pass reads and writes it. -/
inductive AttributeProto where
  | f (v : float)
  | floats (vs : List float)
  | s (v : String)
  | other (tag : Nat)
deriving DecidableEq

/-- `attr.f()`; protobuf answers the default value `0.0f` when the float field
is not set. -/
def AttributeProto.get_f : AttributeProto → float
  | .f v => v
  | _ => 0

/-- `NodeAttributes` (`unordered_map<string, AttributeProto>`) as an association
list with at most the first entry of a key being visible. -/
abbrev NodeAttributes := List (String × AttributeProto)

/-- `Node::EdgeEnd`: one consumer edge, with the index of the consuming node. -/
structure EdgeEnd where
  node : NodeIndex
  src_arg_index : Nat
  dst_arg_index : Nat
deriving DecidableEq

/-- `Node`, over the type `G` of the subgraphs it owns. -/
structure Node (G : Type) where
  Name : String
  OpType : String
  Description : String
  Domain : String
  SinceVersion : Int
  InputDefs : List NodeArg
  OutputDefs : List NodeArg
  Attributes : NodeAttributes
  ExecutionProviderType : String
  OutputEdges : List EdgeEnd
  Subgraphs : List (String × G)
deriving DecidableEq

/-- `Graph`: the node arena and the names of the graph-level outputs. -/
structure Graph (G : Type) where
  nodes : List (Option (Node G))
  graph_outputs : List String
deriving DecidableEq

/-- One call `FinalizeNodeFusion(graph, nodes, replacement)` (ghost record). -/
structure Fusion where
  nodes : List NodeIndex
  replacement : NodeIndex
deriving DecidableEq

/-- State shared by all nesting levels of one pass invocation: the `modified`
reference and the ghost log of committed fusions. -/
structure Refs where
  modified : Bool
  fusions : List Fusion
deriving DecidableEq

/-- External collaborators of the pass whose code is not part of the sources. -/
structure Env where
  /-- `GraphTransformer::GetCompatibleExecutionProviders()`. -/
  GetCompatibleExecutionProviders : List String
  /-- `graph_utils::IsSupportedProvider`, on the node's provider type. -/
  IsSupportedProvider : String → List String → Bool
  /-- `GraphViewer::GetNodesInTopologicalOrder()`. -/
  GetNodesInTopologicalOrder : {G : Type} → Graph G → List NodeIndex
  /-- `Graph::GenerateNodeName`. -/
  GenerateNodeName : {G : Type} → Graph G → String → String
  /-- `optimizer_utils::GetClipConstantMinMax`; `none` for `false`. -/
  GetClipConstantMinMax : {G : Type} → Graph G → Node G → Option (float × float)

variable {G : Type}

/-! ## Graph collaborators -/

/-- `Node::GetOutputEdgesCount()`. -/
def Node.GetOutputEdgesCount (node : Node G) : Nat :=
  node.OutputEdges.length

/-- `Graph::GetNode(index)`: `none` is the null pointer. -/
def Graph.GetNode (graph : Graph G) (index : NodeIndex) : Option (Node G) :=
  graph.nodes.getD index none

/-- `Graph::NumberOfNodes()`: the number of live nodes. -/
def Graph.NumberOfNodes (graph : Graph G) : Nat :=
  (graph.nodes.filter Option.isSome).length

/-- Write through a `Node&` obtained for `index`. -/
def Graph.UpdateNode (graph : Graph G) (index : NodeIndex) (f : Node G → Node G) : Graph G :=
  match graph.GetNode index with
  | none => graph
  | some node => { graph with nodes := graph.nodes.set index (some (f node)) }

/-- `Graph::NodeProducesGraphOutput(node)`. -/
def Graph.NodeProducesGraphOutput (graph : Graph G) (node : Node G) : Bool :=
  node.OutputDefs.any (fun output_def => decide (output_def.Name ∈ graph.graph_outputs))

/-- `graph_utils::GetNodeAttribute(node, name)`: `none` is the null pointer. -/
def GetNodeAttribute (node : Node G) (name : String) : Option AttributeProto :=
  node.Attributes.lookup name

/-- `Node::AddAttribute(name, value)` on an attribute map: the entry of `name`
is created or overwritten. -/
def SetNodeAttribute (attributes : NodeAttributes) (name : String) (value : AttributeProto) :
    NodeAttributes :=
  (name, value) :: attributes.filter (fun entry => decide (entry.1 ≠ name))

/-- Modelled from the spec: `graph_utils::IsSupportedOptypeVersionAndDomain`
(graph_utils.cc is not among the sources), called with its default domain
argument: the op type is the given one, the op version is one of the listed
versions and the domain is the default ONNX domain. -/
def IsSupportedOptypeVersionAndDomain (node : Node G) (op_type : String)
    (versions : List Int) : Bool :=
  decide (node.OpType = op_type ∧ node.SinceVersion ∈ versions ∧ node.Domain = kOnnxDomain)

/-- Modelled from the spec: `Graph::AddNode(name, op_type, description,
input_args, output_args, attributes, domain)` (graph.cc is not among the
sources): node construction in a fresh arena slot. The new node has no provider
assigned, no edges, no subgraphs and no resolved op version. Returns the graph
and the index of the new node. -/
def Graph.AddNode (graph : Graph G) (name op_type description : String)
    (input_args output_args : List NodeArg) (attributes : NodeAttributes)
    (domain : String) : Graph G × NodeIndex :=
  ({ graph with
      nodes := graph.nodes ++ [some
        { Name := name
          OpType := op_type
          Description := description
          Domain := domain
          SinceVersion := -1
          InputDefs := input_args
          OutputDefs := output_args
          Attributes := attributes
          ExecutionProviderType := ""
          OutputEdges := []
          Subgraphs := [] }] },
   graph.nodes.length)

/-- Modelled from the spec: `graph_utils::MoveAllNodeInputEdges` (graph_utils.cc is
not among the sources): the fused node consumes the anchor's inputs and no edge
may be left dangling, so every edge that entered `src` now enters `target`. -/
def MoveAllNodeInputEdges (graph : Graph G) (src target : NodeIndex) : Graph G :=
  { graph with
    nodes := graph.nodes.map (Option.map fun n =>
      { n with OutputEdges := n.OutputEdges.map fun e =>
          if e.node = src then { e with node := target } else e }) }

/-- Modelled from the spec: `graph_utils::MoveAllNodeOutputs` (graph_utils.cc is not
among the sources): the output definitions and the outgoing consumer edges of
`src` become those of `target`. -/
def MoveAllNodeOutputs (graph : Graph G) (src target : NodeIndex) : Graph G :=
  match graph.GetNode src with
  | none => graph
  | some s =>
    (graph.UpdateNode target fun t =>
        { t with OutputDefs := s.OutputDefs, OutputEdges := t.OutputEdges ++ s.OutputEdges }).UpdateNode
      src fun n => { n with OutputEdges := [] }

/-- Modelled from the spec: `graph_utils::RemoveNodeOutputEdges` (graph_utils.cc is
not among the sources): the node keeps no outgoing consumer edge. -/
def RemoveNodeOutputEdges (graph : Graph G) (index : NodeIndex) : Graph G :=
  graph.UpdateNode index fun n => { n with OutputEdges := [] }

/-- Modelled from the spec: `Graph::RemoveNode(index)` (graph.cc is not among the
sources): the slot becomes absent, so that later lookups of the index report
"not present", and the edges that entered the node disappear with it. -/
def Graph.RemoveNode (graph : Graph G) (index : NodeIndex) : Graph G :=
  { graph with
    nodes := (graph.nodes.set index none).map (Option.map fun n =>
      { n with OutputEdges := n.OutputEdges.filter fun e => decide (e.node ≠ index) }) }

/-- Modelled from the spec: `graph_utils::FinalizeNodeFusion(graph, nodes,
replacement)` (graph_utils.cc is not among the sources): rewires the terminal
node's outgoing edges (and its output definitions, as the comment at the call
site says) onto the replacement, lets the replacement take over the edges that
entered the first node, and deletes every node of the matched set, leaving no
edge that points at a deleted node. -/
def FinalizeNodeFusion (graph : Graph G) (nodes : List NodeIndex) (replacement : NodeIndex) :
    Graph G :=
  let graph1 :=
    match nodes.head? with
    | none => graph
    | some first => MoveAllNodeInputEdges graph first replacement
  let graph2 :=
    match nodes.getLast? with
    | none => graph1
    | some last => MoveAllNodeOutputs graph1 last replacement
  nodes.foldl (fun g index => (RemoveNodeOutputEdges g index).RemoveNode index) graph2

/-- `Node::SetExecutionProviderType` through the reference `fused_conv`. -/
def Graph.SetExecutionProviderType (graph : Graph G) (index : NodeIndex) (provider : String) :
    Graph G :=
  graph.UpdateNode index fun n => { n with ExecutionProviderType := provider }

/-- `Node::AddAttribute` through the reference `fused_conv`. -/
def Graph.AddAttribute (graph : Graph G) (index : NodeIndex) (name : String)
    (value : AttributeProto) : Graph G :=
  graph.UpdateNode index fun n => { n with Attributes := SetNodeAttribute n.Attributes name value }

/-- Write the subgraphs of the node at `index` back after `Recurse` mutated them. -/
def Graph.SetSubgraphs (graph : Graph G) (index : NodeIndex) (subgraphs : List (String × G)) :
    Graph G :=
  graph.UpdateNode index fun n => { n with Subgraphs := subgraphs }

/-- Modelled from the spec: `GraphTransformer::Recurse` (graph_transformer.h is
not among the sources): runs the pass, given as `apply`, on every subgraph the
node owns, in order, stopping at the first one that does not return OK. -/
def Recurse (apply : G → Refs → Outcome (G × Refs)) :
    List (String × G) → Refs → Outcome (List (String × G) × Refs)
  | [], r => .ok ([], r)
  | (key, subgraph) :: rest, r =>
    match apply subgraph r with
    | .fault what => .fault what
    | .error (subgraph1, r1) msg => .error ((key, subgraph1) :: rest, r1) msg
    | .ok (subgraph1, r1) =>
      match Recurse apply rest r1 with
      | .fault what => .fault what
      | .error (rest1, r2) msg => .error ((key, subgraph1) :: rest1, r2) msg
      | .ok (rest1, r2) => .ok ((key, subgraph1) :: rest1, r2)

/-! ## The pass -/

/-- Lines 78-85: the loop over `add_inputs`. The accumulator is the local copy
`conv_inputs` and the counters `dependent` and `independent`; `none` is the
out-of-range access `conv_outputs[0]` (`Fault.no_output`). (The counters are `int32_t`; a node has
far fewer than `2^31` inputs.) -/
def ApplyImpl.add_inputs_loop (conv_outputs : List NodeArg) :
    List NodeArg → List NodeArg × Nat × Nat → Option (List NodeArg × Nat × Nat)
  | [], acc => some acc
  | add_input :: rest, (conv_inputs, dependent, independent) =>
    match conv_outputs.head? with
    | none => none
    | some conv_output0 =>
      if add_input.Name = conv_output0.Name then
        ApplyImpl.add_inputs_loop conv_outputs rest (conv_inputs, dependent + 1, independent)
      else
        ApplyImpl.add_inputs_loop conv_outputs rest
          (conv_inputs ++ [add_input], dependent, independent + 1)

/-- Lines 134-156: the commit of the generic path, once `activation_params` is
known. The consumer `next_node` is kept together with its index `next_index`
(`next_node.Index()`). -/
def ApplyImpl.fuseGeneric (env : Env) (graph : Graph G) (r : Refs) (index : NodeIndex)
    (node : Node G) (next_index : NodeIndex) (next_node : Node G)
    (activation_params : List float) : Outcome (Graph G × Refs) :=
  let conv_node := node
  match graph.GetNode next_index with
  | none => .fault .null_node
  | some act_node =>
    let added := graph.AddNode (env.GenerateNodeName graph ("fused " ++ conv_node.Name))
      "FusedConv"
      ("fused Conv " ++ conv_node.Name ++ "with activation " ++ act_node.OpType)
      conv_node.InputDefs [] conv_node.Attributes "com.microsoft"
    let fused_conv := added.2
    let graph1 := added.1.SetExecutionProviderType fused_conv conv_node.ExecutionProviderType
    let graph2 := graph1.AddAttribute fused_conv "activation" (.s next_node.OpType)
    let graph3 :=
      if activation_params ≠ [] then
        graph2.AddAttribute fused_conv "activation_params" (.floats activation_params)
      else graph2
    let graph4 := FinalizeNodeFusion graph3 [index, next_index] fused_conv
    .ok (graph4,
      { modified := true, fusions := r.fusions ++ [⟨[index, next_index], fused_conv⟩] })

/-- Lines 63-102: the fast path when the consumer `next_node` is an `Add`. -/
def ApplyImpl.fuseCudaAdd (env : Env) (graph : Graph G) (r : Refs) (index : NodeIndex)
    (node : Node G) (next_index : NodeIndex) (next_node : Node G) : Outcome (Graph G × Refs) :=
  if next_node.GetOutputEdgesCount ≠ 1 then
    .ok (graph, r)
  else
  match next_node.OutputEdges.head? with
  | none => .fault .no_consumer
  | some last_edge =>
  match graph.GetNode last_edge.node with
  | none => .fault .dangling_edge
  | some last_node =>
  if last_node.ExecutionProviderType ≠ node.ExecutionProviderType then
    .ok (graph, r)
  else if IsSupportedOptypeVersionAndDomain last_node "Relu" [6, 13, 14] = true then
    let conv_node := node
    match graph.GetNode next_index with
    | none => .fault .null_node
    | some add_node =>
    match graph.GetNode last_edge.node with
    | none => .fault .null_node
    | some act_node =>
    let conv_outputs := conv_node.OutputDefs
    let add_inputs := add_node.InputDefs
    match ApplyImpl.add_inputs_loop conv_outputs add_inputs (conv_node.InputDefs, 0, 0) with
    | none => .fault .no_output
    | some (conv_inputs, dependent, independent) =>
    if dependent ≠ 1 ∨ independent ≠ 1 then
      .ok (graph, r)
    else
      let node_name := env.GenerateNodeName graph
        (conv_node.Name ++ "_" ++ add_node.Name ++ "_" ++ act_node.Name)
      let added := graph.AddNode node_name "FusedConv" node_name conv_inputs []
        conv_node.Attributes kMSDomain
      let fused_conv := added.2
      let graph1 :=
        added.1.SetExecutionProviderType fused_conv conv_node.ExecutionProviderType
      let graph2 := graph1.AddAttribute fused_conv "activation" (.s "Relu")
      let graph3 :=
        FinalizeNodeFusion graph2 [index, next_index, last_edge.node] fused_conv
      .ok (graph3,
        { modified := true
          fusions := r.fusions ++ [⟨[index, next_index, last_edge.node], fused_conv⟩] })
  else
    .ok (graph, r)

/-- Lines 43-103: the fast path, taken when the anchor is on the CUDA provider. -/
def ApplyImpl.fuseCuda (env : Env) (graph : Graph G) (r : Refs) (index : NodeIndex)
    (node : Node G) (next_index : NodeIndex) (next_node : Node G) : Outcome (Graph G × Refs) :=
  match node.InputDefs.head? with
  | none => .fault .no_input
  | some input0 =>
  match input0.TypeAsProto with
  | none => .fault .null_type
  | some type_proto =>
  if type_proto.elem_type ≠ TensorProto_DataType_FLOAT then
    .ok (graph, r)
  else if IsSupportedOptypeVersionAndDomain next_node "Relu" [6, 13, 14] = true then
    let conv_node := node
    match graph.GetNode next_index with
    | none => .fault .null_node
    | some act_node =>
      let node_name := env.GenerateNodeName graph (conv_node.Name ++ "_" ++ act_node.Name)
      let added := graph.AddNode node_name "FusedConv" node_name conv_node.InputDefs []
        conv_node.Attributes kMSDomain
      let fused_conv := added.2
      let graph1 := added.1.SetExecutionProviderType fused_conv conv_node.ExecutionProviderType
      let graph2 := graph1.AddAttribute fused_conv "activation" (.s "Relu")
      let graph3 := FinalizeNodeFusion graph2 [index, next_index] fused_conv
      .ok (graph3,
        { modified := true, fusions := r.fusions ++ [⟨[index, next_index], fused_conv⟩] })
  else if IsSupportedOptypeVersionAndDomain next_node "Add" [6, 7, 13, 14] = true then
    ApplyImpl.fuseCudaAdd env graph r index node next_index next_node
  else
    .ok (graph, r)

/-- Lines 105-157: the generic path, taken on every other provider. -/
def ApplyImpl.fuseOther (env : Env) (graph : Graph G) (r : Refs) (index : NodeIndex)
    (node : Node G) (next_index : NodeIndex) (next_node : Node G) : Outcome (Graph G × Refs) :=
  if IsSupportedOptypeVersionAndDomain next_node "Relu" [6, 13, 14] = false ∧
      IsSupportedOptypeVersionAndDomain next_node "Sigmoid" [6, 13] = false ∧
      IsSupportedOptypeVersionAndDomain next_node "Tanh" [6, 13] = false then
    if IsSupportedOptypeVersionAndDomain next_node "LeakyRelu" [6] = true then
      match GetNodeAttribute next_node "alpha" with
      | none => .fault .null_attribute
      | some alpha_attr =>
        ApplyImpl.fuseGeneric env graph r index node next_index next_node [alpha_attr.get_f]
    else if IsSupportedOptypeVersionAndDomain next_node "Clip" [6, 11, 12, 13] = true then
      match env.GetClipConstantMinMax graph next_node with
      | some (min, max) =>
        ApplyImpl.fuseGeneric env graph r index node next_index next_node [min, max]
      | none => .ok (graph, r)
    else if (node.ExecutionProviderType = "" ∨
          node.ExecutionProviderType = kCpuExecutionProvider) ∧
        IsSupportedOptypeVersionAndDomain next_node "HardSigmoid" [6] = true then
      let alpha :=
        match GetNodeAttribute next_node "alpha" with
        | none => float_0_2
        | some alpha_attr => alpha_attr.get_f
      let beta :=
        match GetNodeAttribute next_node "beta" with
        | none => float_0_5
        | some beta_attr => beta_attr.get_f
      ApplyImpl.fuseGeneric env graph r index node next_index next_node [alpha, beta]
    else
      .ok (graph, r)
  else
    ApplyImpl.fuseGeneric env graph r index node next_index next_node []

/-- Lines 26-157: the body of the loop after `Recurse`, for the live node `node`
at `index`. Every `continue` is `.ok (graph, r)`. The consumer `next_node` is
kept together with its index `next_index` (`next_node.Index()`). -/
def ApplyImpl.fuseAt (env : Env) (graph : Graph G) (r : Refs) (index : NodeIndex)
    (node : Node G) : Outcome (Graph G × Refs) :=
  if IsSupportedOptypeVersionAndDomain node "Conv" [1, 11] = false ∨
      env.IsSupportedProvider node.ExecutionProviderType
        env.GetCompatibleExecutionProviders = false ∨
      node.GetOutputEdgesCount ≠ 1 then
    .ok (graph, r)
  else
  match node.OutputEdges.head? with
  | none => .fault .no_consumer
  | some edge =>
  match graph.GetNode edge.node with
  | none => .fault .dangling_edge
  | some next_node =>
  if next_node.ExecutionProviderType ≠ node.ExecutionProviderType then
    .ok (graph, r)
  else if graph.NodeProducesGraphOutput node = true then
    .ok (graph, r)
  else if node.ExecutionProviderType = kCudaExecutionProvider then
    ApplyImpl.fuseCuda env graph r index node edge.node next_node
  else
    ApplyImpl.fuseOther env graph r index node edge.node next_node

/-- Lines 19-157: one iteration of the loop over the topological order. -/
def ApplyImpl.body (env : Env) (apply : G → Refs → Outcome (G × Refs))
    (state : Graph G × Refs) (index : NodeIndex) : Outcome (Graph G × Refs) :=
  match state.1.GetNode index with
  | none => .ok state
  | some node =>
    match Recurse apply node.Subgraphs state.2 with
    | .fault what => .fault what
    | .error (subgraphs, r) msg => .error (state.1.SetSubgraphs index subgraphs, r) msg
    | .ok (subgraphs, r) =>
      ApplyImpl.fuseAt env (state.1.SetSubgraphs index subgraphs) r index
        { node with Subgraphs := subgraphs }

/-- Lines 18-158: the loop over the snapshot `order`. -/
def ApplyImpl.loop (env : Env) (apply : G → Refs → Outcome (G × Refs)) :
    List NodeIndex → Graph G × Refs → Outcome (Graph G × Refs)
  | [], state => .ok state
  | index :: rest, state =>
    match ApplyImpl.body env apply state index with
    | .fault what => .fault what
    | .error state1 msg => .error state1 msg
    | .ok state1 => ApplyImpl.loop env apply rest state1

/-- `ConvActivationFusion::ApplyImpl(graph, modified, graph_level, logger)`, with
the pass on subgraphs given as `apply`. The level and the logger do not
influence the result and are left out. -/
def ApplyImpl (env : Env) (apply : G → Refs → Outcome (G × Refs)) (graph : Graph G)
    (r : Refs) : Outcome (Graph G × Refs) :=
  let order := env.GetNodesInTopologicalOrder graph
  ApplyImpl.loop env apply order (graph, r)

/-- Graphs by nesting depth: `Subgraph 0` is empty (a node of a `Graph (Subgraph 0)`
owns no subgraph) and a `Subgraph (d + 1)` is a graph whose nodes own subgraphs
of depth `d`. -/
def Subgraph : Nat → Type
  | 0 => Empty
  | d + 1 => Graph (Subgraph d)

/-- The pass on nested subgraphs: the virtual call of `ApplyImpl` inside
`Recurse`. -/
def ApplyImplNested (env : Env) : (d : Nat) → Subgraph d → Refs → Outcome (Subgraph d × Refs)
  | 0, subgraph, _ => nomatch subgraph
  | d + 1, subgraph, r => ApplyImpl env (ApplyImplNested env d) subgraph r

/-- The pass on a graph whose subgraphs nest at most `d` deep. -/
def ConvActivationFusion.ApplyImpl (env : Env) (d : Nat) (graph : Graph (Subgraph d))
    (r : Refs) : Outcome (Graph (Subgraph d) × Refs) :=
  onnxruntime.ApplyImpl env (ApplyImplNested env d) graph r

/-- Equality of nested graphs is decidable at every depth. -/
def Subgraph.decEq : (d : Nat) → DecidableEq (Subgraph d)
  | 0 => fun a _ => nomatch a
  | d + 1 =>
    have : DecidableEq (Subgraph d) := Subgraph.decEq d
    (inferInstance : DecidableEq (Graph (Subgraph d)))

instance (d : Nat) : DecidableEq (Subgraph d) := Subgraph.decEq d

/-! ## Notions used to state and prove the properties -/

/-- The node without its output definitions and consumer edges. -/
def Node.erase (n : Node G) : Node G :=
  { n with OutputDefs := [], OutputEdges := [] }

/-- The graph with every node erased. -/
def Graph.erase (graph : Graph G) : Graph G :=
  { graph with nodes := graph.nodes.map (Option.map Node.erase) }

/-- Arena slots after deleting the listed nodes. -/
def removeAll {α : Type} (l : List (Option α)) (ks : List Nat) : List (Option α) :=
  ks.foldl (fun acc k => acc.set k none) l

/-- The graph after a commit: the new node `fused` takes the next arena slot and
the matched `nodes` are finalized into it. -/
def Graph.commit (graph : Graph G) (fused : Node G) (nodes : List NodeIndex) : Graph G :=
  FinalizeNodeFusion ⟨graph.nodes ++ [some fused], graph.graph_outputs⟩ nodes graph.nodes.length

/-- The node the pass creates, after `AddNode`, `SetExecutionProviderType` and the
`AddAttribute` calls, before its outputs are moved in. -/
def fusedNode (name description : String) (inputs : List NodeArg) (attributes : NodeAttributes)
    (provider : String) : Node G :=
  { Name := name
    OpType := "FusedConv"
    Description := description
    Domain := "com.microsoft"
    SinceVersion := -1
    InputDefs := inputs
    OutputDefs := []
    Attributes := attributes
    ExecutionProviderType := provider
    OutputEdges := []
    Subgraphs := [] }

/-- The parameter list the generic path extracts for the consumer `next_node`. -/
def ApplyImpl.ParamsFor (env : Env) (graph : Graph G) (node next_node : Node G)
    (params : List float) : Prop :=
  ((IsSupportedOptypeVersionAndDomain next_node "Relu" [6, 13, 14] = true ∨
      IsSupportedOptypeVersionAndDomain next_node "Sigmoid" [6, 13] = true ∨
      IsSupportedOptypeVersionAndDomain next_node "Tanh" [6, 13] = true) ∧ params = []) ∨
  (IsSupportedOptypeVersionAndDomain next_node "LeakyRelu" [6] = true ∧
    ∃ alpha_attr, GetNodeAttribute next_node "alpha" = some alpha_attr ∧
      params = [alpha_attr.get_f]) ∨
  (IsSupportedOptypeVersionAndDomain next_node "Clip" [6, 11, 12, 13] = true ∧
    ∃ min max, env.GetClipConstantMinMax graph next_node = some (min, max) ∧
      params = [min, max]) ∨
  (IsSupportedOptypeVersionAndDomain next_node "HardSigmoid" [6] = true ∧
    (node.ExecutionProviderType = "" ∨ node.ExecutionProviderType = kCpuExecutionProvider) ∧
    params =
      [(match GetNodeAttribute next_node "alpha" with
        | none => float_0_2
        | some alpha_attr => alpha_attr.get_f),
       (match GetNodeAttribute next_node "beta" with
        | none => float_0_5
        | some beta_attr => beta_attr.get_f)])

/-- The attributes of the node the generic path creates. -/
def genericAttributes (attributes : NodeAttributes) (activation : String) (params : List float) :
    NodeAttributes :=
  if params ≠ [] then
    SetNodeAttribute (SetNodeAttribute attributes "activation" (.s activation))
      "activation_params" (.floats params)
  else SetNodeAttribute attributes "activation" (.s activation)

/-- The checks every anchor passes before either path is tried (lines 26-40). -/
def ApplyImpl.Anchor (env : Env) (graph : Graph G) (node : Node G) (edge : EdgeEnd)
    (next_node : Node G) : Prop :=
  IsSupportedOptypeVersionAndDomain node "Conv" [1, 11] = true ∧
  env.IsSupportedProvider node.ExecutionProviderType env.GetCompatibleExecutionProviders = true ∧
  node.OutputEdges = [edge] ∧
  graph.GetNode edge.node = some next_node ∧
  next_node.ExecutionProviderType = node.ExecutionProviderType ∧
  graph.NodeProducesGraphOutput node = false

/-- A transition of the pass from `(s, r)` to `(s', r')` that accounts for what it
did: the fusion log only grows, `modified` is never reset, nothing changes
unless a fusion is logged, and a logged fusion sets `modified`. -/
def Accounted {σ : Type} (s : σ) (r : Refs) (s' : σ) (r' : Refs) : Prop :=
  (∃ added, r'.fusions = r.fusions ++ added) ∧
  (r.modified = true → r'.modified = true) ∧
  (r'.fusions = r.fusions → s' = s ∧ r'.modified = r.modified) ∧
  (r'.fusions ≠ r.fusions → r'.modified = true)

/-- Every successful run of `run` is an accounted transition. -/
def AccountedRun {σ : Type} (run : σ → Refs → Outcome (σ × Refs)) : Prop :=
  ∀ s r s' r', run s r = .ok (s', r') → Accounted s r s' r'

/-- A run that never returns a non-OK `Status`. -/
def NeverFails {σ : Type} (run : σ → Refs → Outcome (σ × Refs)) : Prop :=
  ∀ s r s' msg, run s r ≠ .error s' msg

/-! ## Example graphs -/

/-- Collaborators for the examples: every provider is compatible, the nodes are
visited in arena order, names are taken as given, no Clip bound is constant. -/
def Example.env : Env where
  GetCompatibleExecutionProviders := []
  IsSupportedProvider := fun _ _ => true
  GetNodesInTopologicalOrder := fun graph => List.range graph.nodes.length
  GenerateNodeName := fun _ base => base
  GetClipConstantMinMax := fun _ _ => none

/-- The pass on the subgraphs of a graph that has none. -/
def Example.noSubgraphs : Empty → Refs → Outcome (Empty × Refs) :=
  fun subgraph _ => nomatch subgraph

/-- A float tensor value. -/
def Example.arg (name : String) : NodeArg :=
  ⟨name, some (.tensor_type TensorProto_DataType_FLOAT)⟩

/-- A version-11 Conv `(X, W) -> Y` with one attribute. -/
def Example.conv (provider : String) (edges : List EdgeEnd) : Node Empty :=
  { Name := "conv"
    OpType := "Conv"
    Description := ""
    Domain := ""
    SinceVersion := 11
    InputDefs := [Example.arg "X", Example.arg "W"]
    OutputDefs := [Example.arg "Y"]
    Attributes := [("group", .other 1)]
    ExecutionProviderType := provider
    OutputEdges := edges
    Subgraphs := [] }

/-- A node of the default domain with the given inputs and the output `output`. -/
def Example.op (name op_type : String) (version : Int) (provider : String)
    (inputs : List String) (output : String) (attributes : NodeAttributes)
    (edges : List EdgeEnd) : Node Empty :=
  { Name := name
    OpType := op_type
    Description := ""
    Domain := ""
    SinceVersion := version
    InputDefs := inputs.map Example.arg
    OutputDefs := [Example.arg output]
    Attributes := attributes
    ExecutionProviderType := provider
    OutputEdges := edges
    Subgraphs := [] }

/-- `Conv -> activation`, the activation producing the graph output `Z`. -/
def Example.convAct (provider op_type : String) (version : Int)
    (attributes : NodeAttributes) : Graph Empty :=
  { nodes :=
      [some (Example.conv provider [⟨1, 0, 0⟩]),
       some (Example.op "act" op_type version provider ["Y"] "Z" attributes [])]
    graph_outputs := ["Z"] }

/-- `Conv -> Add(add_inputs) -> Relu` on the CUDA provider. -/
def Example.convAddRelu (add_inputs : List String) : Graph Empty :=
  { nodes :=
      [some (Example.conv kCudaExecutionProvider [⟨1, 0, 1⟩]),
       some (Example.op "add" "Add" 14 kCudaExecutionProvider add_inputs "S" [] [⟨2, 0, 0⟩]),
       some (Example.op "relu" "Relu" 14 kCudaExecutionProvider ["S"] "Z" [] [])]
    graph_outputs := ["Z"] }

/-- `Conv -> Relu` where the Conv output `Y` is itself a graph output. -/
def Example.convGraphOutput : Graph Empty :=
  { nodes :=
      [some (Example.conv kCpuExecutionProvider [⟨1, 0, 0⟩]),
       some (Example.op "relu" "Relu" 14 kCpuExecutionProvider ["Y"] "Z" [] [])]
    graph_outputs := ["Y", "Z"] }

/-- A fusable `Conv -> Relu` followed by `Conv -> LeakyRelu` where the LeakyRelu
has no `alpha` attribute (ONNX gives `alpha` the default 0.01, so the attribute
is optional in a model). -/
def Example.reluThenLeakyNoAlpha : Graph Empty :=
  { nodes :=
      [some (Example.conv kCpuExecutionProvider [⟨1, 0, 0⟩]),
       some (Example.op "relu" "Relu" 14 kCpuExecutionProvider ["Y"] "Z" [] []),
       some (Example.op "conv2" "Conv" 11 kCpuExecutionProvider ["Z", "W"] "Y2" [] [⟨3, 0, 0⟩]),
       some (Example.op "leaky" "LeakyRelu" 6 kCpuExecutionProvider ["Y2"] "Z2" [] [])]
    graph_outputs := ["Z2"] }

/-- The graph `Example.convAct kCpuExecutionProvider op_type ..` after the generic
path fused its two nodes, the parameters being `params`. -/
def Example.convActFused (op_type : String) (params : List float) : Graph Empty :=
  { nodes :=
      [none, none,
       some
        { Name := "fused conv"
          OpType := "FusedConv"
          Description := "fused Conv convwith activation " ++ op_type
          Domain := "com.microsoft"
          SinceVersion := -1
          InputDefs := [Example.arg "X", Example.arg "W"]
          OutputDefs := [Example.arg "Z"]
          Attributes := genericAttributes [("group", .other 1)] op_type params
          ExecutionProviderType := kCpuExecutionProvider
          OutputEdges := []
          Subgraphs := [] }]
    graph_outputs := ["Z"] }

/-- An `If` node that owns `then_branch` as its only subgraph, alone in a graph. -/
def Example.ifNode (then_branch : Graph Empty) : Graph (Subgraph 1) :=
  { nodes :=
      [some
        { Name := "if"
          OpType := "If"
          Description := ""
          Domain := ""
          SinceVersion := 13
          InputDefs := [Example.arg "cond"]
          OutputDefs := [Example.arg "out"]
          Attributes := [("then_branch", .other 5)]
          ExecutionProviderType := kCpuExecutionProvider
          OutputEdges := []
          Subgraphs := [("then_branch", then_branch)] }]
    graph_outputs := ["out"] }

/-- `Conv -> Add(B, Y) -> Relu` on the CUDA provider where the output `S` of the
Add is itself a graph output. -/
def Example.convAddOutputRelu : Graph Empty :=
  { Example.convAddRelu ["B", "Y"] with graph_outputs := ["S", "Z"] }

/-- The graph `Example.convAddOutputRelu` after the fast path fused its three
nodes. -/
def Example.convAddOutputReluFused : Graph Empty :=
  { nodes :=
      [none, none, none,
       some
        { Name := "conv_add_relu"
          OpType := "FusedConv"
          Description := "conv_add_relu"
          Domain := "com.microsoft"
          SinceVersion := -1
          InputDefs := [Example.arg "X", Example.arg "W", Example.arg "B"]
          OutputDefs := [Example.arg "Z"]
          Attributes := [("activation", .s "Relu"), ("group", .other 1)]
          ExecutionProviderType := kCudaExecutionProvider
          OutputEdges := []
          Subgraphs := [] }]
    graph_outputs := ["S", "Z"] }

/-- Whether some live node of the graph has an output definition named `name`. -/
def Graph.Produces (graph : Graph G) (name : String) : Bool :=
  graph.nodes.any fun slot =>
    match slot with
    | none => false
    | some node => node.OutputDefs.any fun output_def => decide (output_def.Name = name)

/-- The nodes a node stands for: itself and the nodes of the subgraphs it owns,
`size` being the node count of a subgraph. -/
def Node.weight (size : G → Nat) (node : Node G) : Nat :=
  1 + (node.Subgraphs.map fun entry => size entry.2).sum

/-- The nodes an arena slot stands for. -/
def slotWeight (size : G → Nat) : Option (Node G) → Nat
  | none => 0
  | some node => node.weight size

/-- The number of nodes of a graph, the nodes of nested subgraphs included. -/
def Graph.TotalNodes (size : G → Nat) (graph : Graph G) : Nat :=
  (graph.nodes.map (slotWeight size)).sum

/-- The number of nodes of a nested graph, at every depth. -/
def Subgraph.size : (d : Nat) → Subgraph d → Nat
  | 0, subgraph => nomatch subgraph
  | d + 1, subgraph => Graph.TotalNodes (Subgraph.size d) subgraph

/-- A run under which node count plus number of logged fusions never grows: each
fusion it logs costs at least one node. -/
def Shrinks {σ : Type} (size : σ → Nat) (run : σ → Refs → Outcome (σ × Refs)) : Prop :=
  ∀ s r s' r', run s r = .ok (s', r') →
    size s' + r'.fusions.length ≤ size s + r.fusions.length

/-- The node count of the subgraphs a node owns. -/
def subgraphsSize (size : G → Nat) (subgraphs : List (String × G)) : Nat :=
  (subgraphs.map fun entry => size entry.2).sum

/-- One invocation of the pass by the outer optimizer that reports a
modification: entered with `modified = false`, it returns OK with
`modified = true` and the graph `graph'`. -/
def ModifyingInvocation (env : Env) (d : Nat) (graph graph' : Graph (Subgraph d)) : Prop :=
  ∃ r r', r.modified = false ∧
    ConvActivationFusion.ApplyImpl env d graph r = .ok (graph', r') ∧ r'.modified = true

/-- Every live node in a slot from `snapshot` on, that is every node created since
the arena had `snapshot` slots, is a `FusedConv` of the `com.microsoft` domain. -/
def Graph.CreatedAreFused (graph : Graph G) (snapshot : Nat) : Prop :=
  ∀ k n, snapshot ≤ k → graph.GetNode k = some n →
    n.OpType = "FusedConv" ∧ n.Domain = kMSDomain

/-- The op types the pass matches. -/
def matchedOpTypes : List String :=
  ["Conv", "Relu", "Add", "Sigmoid", "Tanh", "LeakyRelu", "Clip", "HardSigmoid"]

/-- What the unchecked lookups rely on at one node `node` of `graph`: every
consumer edge of the node targets a live node; if the node is a Conv it has an
input of known type and at least one output; and the subgraphs it owns are
well-formed in the sense of `sub`. -/
def Node.SafeIn (sub : G → Prop) (graph : Graph G) (node : Node G) : Prop :=
  (∀ edge ∈ node.OutputEdges, (graph.GetNode edge.node).isSome = true) ∧
  (node.OpType = "Conv" →
    (∃ input ∈ node.InputDefs, input.TypeAsProto.isSome = true) ∧ node.OutputDefs ≠ []) ∧
  (∀ entry ∈ node.Subgraphs, sub entry.2)

/-- A graph on which the unchecked lookups are safe: every live node is. -/
def Graph.LookupsSafe (sub : G → Prop) (graph : Graph G) : Prop :=
  ∀ k node, graph.GetNode k = some node → node.SafeIn sub graph

/-- Well-formedness of nested graphs, at every depth. -/
def Subgraph.LookupsSafe : (d : Nat) → Subgraph d → Prop
  | 0, _ => True
  | d + 1, subgraph => Graph.LookupsSafe (Subgraph.LookupsSafe d) subgraph

/-- The faults that are not among the lookups of `Graph.LookupsSafe`: reading the
element type of an input of unknown type, and reading an absent attribute. -/
def Fault.Other (what : Fault) : Prop :=
  what = .null_type ∨ what = .null_attribute

/-- A run that, started on a well-formed state, fails none of the lookups and
returns a well-formed state. -/
def SafeRun {σ : Type} (safe : σ → Prop) (run : σ → Refs → Outcome (σ × Refs)) : Prop :=
  ∀ s r, safe s →
    (∀ what, run s r = .fault what → what.Other) ∧
    (∀ s' r', run s r = .ok (s', r') → safe s')

/-- Executable form of `Graph.LookupsSafe` for a graph whose nodes own no
subgraphs. -/
def Graph.lookupsSafeFlat (graph : Graph G) : Bool :=
  graph.nodes.all fun slot =>
    match slot with
    | none => true
    | some node =>
      node.OutputEdges.all (fun edge => (graph.GetNode edge.node).isSome) &&
      (!decide (node.OpType = "Conv") ||
        (node.InputDefs.any (fun input => input.TypeAsProto.isSome) &&
          !node.OutputDefs.isEmpty)) &&
      node.Subgraphs.isEmpty

/-- The graph `Example.convAddRelu ["B", "Y"]` after the fast path fused its three
nodes. -/
def Example.convAddReluFused : Graph Empty :=
  { Example.convAddOutputReluFused with graph_outputs := ["Z"] }

/-- `Conv -> Relu` on the CUDA provider where the first input of the Conv is a
float16 tensor. -/
def Example.convHalfRelu : Graph Empty :=
  { nodes :=
      [some { Example.conv kCudaExecutionProvider [⟨1, 0, 0⟩] with
          InputDefs := [⟨"X", some (.tensor_type 10)⟩, Example.arg "W"] },
       some (Example.op "relu" "Relu" 14 kCudaExecutionProvider ["Y"] "Z" [] [])]
    graph_outputs := ["Z"] }

/-- Two independent `Conv -> Relu` pairs on the CPU provider. -/
def Example.twoConvRelu : Graph Empty :=
  { nodes :=
      [some (Example.conv kCpuExecutionProvider [⟨1, 0, 0⟩]),
       some (Example.op "relu" "Relu" 14 kCpuExecutionProvider ["Y"] "Z" [] []),
       some (Example.op "conv2" "Conv" 11 kCpuExecutionProvider ["X2", "W2"] "Y2" []
        [⟨3, 0, 0⟩]),
       some (Example.op "relu2" "Relu" 14 kCpuExecutionProvider ["Y2"] "Z2" [] [])]
    graph_outputs := ["Z", "Z2"] }

/-- The node the generic path creates for the first pair of
`Example.twoConvRelu`. -/
def Example.fusedFirst : Node Empty :=
  { Name := "fused conv"
    OpType := "FusedConv"
    Description := "fused Conv convwith activation Relu"
    Domain := "com.microsoft"
    SinceVersion := -1
    InputDefs := [Example.arg "X", Example.arg "W"]
    OutputDefs := [Example.arg "Z"]
    Attributes := [("activation", .s "Relu"), ("group", .other 1)]
    ExecutionProviderType := kCpuExecutionProvider
    OutputEdges := []
    Subgraphs := [] }

/-- The node the generic path creates for the second pair of
`Example.twoConvRelu`. -/
def Example.fusedSecond : Node Empty :=
  { Name := "fused conv2"
    OpType := "FusedConv"
    Description := "fused Conv conv2with activation Relu"
    Domain := "com.microsoft"
    SinceVersion := -1
    InputDefs := [Example.arg "X2", Example.arg "W2"]
    OutputDefs := [Example.arg "Z2"]
    Attributes := [("activation", .s "Relu")]
    ExecutionProviderType := kCpuExecutionProvider
    OutputEdges := []
    Subgraphs := [] }

/-- The graph `Example.twoConvRelu` after the iterations at the indices 0 and 1:
the first pair is fused. -/
def Example.twoConvReluAfterFirst : Graph Empty :=
  { nodes :=
      [none, none,
       some (Example.op "conv2" "Conv" 11 kCpuExecutionProvider ["X2", "W2"] "Y2" []
        [⟨3, 0, 0⟩]),
       some (Example.op "relu2" "Relu" 14 kCpuExecutionProvider ["Y2"] "Z2" [] []),
       some Example.fusedFirst]
    graph_outputs := ["Z", "Z2"] }

/-- The graph `Example.twoConvRelu` after the iteration at index 2 as well: both
pairs are fused. -/
def Example.twoConvReluAfterSecond : Graph Empty :=
  { nodes := [none, none, none, none, some Example.fusedFirst, some Example.fusedSecond]
    graph_outputs := ["Z", "Z2"] }

/-- Two Convs feeding one `Add -> Relu` on the CUDA provider: `conv` produces `Y`,
`conv2` produces `Y2`, the Add computes `S = Y + Y2`. -/
def Example.twoConvAdd : Graph Empty :=
  { nodes :=
      [some (Example.conv kCudaExecutionProvider [⟨2, 0, 0⟩]),
       some (Example.op "conv2" "Conv" 11 kCudaExecutionProvider ["X2", "W2"] "Y2" []
        [⟨2, 0, 1⟩]),
       some (Example.op "add" "Add" 14 kCudaExecutionProvider ["Y", "Y2"] "S" [] [⟨3, 0, 0⟩]),
       some (Example.op "relu" "Relu" 14 kCudaExecutionProvider ["S"] "Z" [] [])]
    graph_outputs := ["Z"] }

/-- The node the fast path creates from `conv`, `add` and `relu` when the other
input of the Add is `Y2`. -/
def Example.fusedConvAddRelu : Node Empty :=
  { Name := "conv_add_relu"
    OpType := "FusedConv"
    Description := "conv_add_relu"
    Domain := "com.microsoft"
    SinceVersion := -1
    InputDefs := [Example.arg "X", Example.arg "W", Example.arg "Y2"]
    OutputDefs := [Example.arg "Z"]
    Attributes := [("activation", .s "Relu"), ("group", .other 1)]
    ExecutionProviderType := kCudaExecutionProvider
    OutputEdges := []
    Subgraphs := [] }

/-- The graph `Example.twoConvAdd` after the pass: `conv`, `add` and `relu` are
fused, `conv2` is still there and has lost its consumer edge. -/
def Example.twoConvAddAfter : Graph Empty :=
  { nodes :=
      [none,
       some (Example.op "conv2" "Conv" 11 kCudaExecutionProvider ["X2", "W2"] "Y2" [] []),
       none, none, some Example.fusedConvAddRelu]
    graph_outputs := ["Z"] }

/-- The node the fast path creates from `conv2` and `relu2`. -/
def Example.fusedConv2Relu2 : Node Empty :=
  { Name := "conv2_relu2"
    OpType := "FusedConv"
    Description := "conv2_relu2"
    Domain := "com.microsoft"
    SinceVersion := -1
    InputDefs := [Example.arg "X2", Example.arg "W2"]
    OutputDefs := [Example.arg "Z2"]
    Attributes := [("activation", .s "Relu")]
    ExecutionProviderType := kCudaExecutionProvider
    OutputEdges := []
    Subgraphs := [] }

/-- As `Example.fanOutAdd`, with the two Convs in the other arena order: the Conv
with two consumer edges comes first. -/
def Example.fanOutFirst : Graph Empty :=
  { nodes :=
      [some (Example.op "conv2" "Conv" 11 kCudaExecutionProvider ["X2", "W2"] "Y2" []
        [⟨2, 0, 1⟩, ⟨4, 0, 0⟩]),
       some (Example.conv kCudaExecutionProvider [⟨2, 0, 0⟩]),
       some (Example.op "add" "Add" 14 kCudaExecutionProvider ["Y", "Y2"] "S" [] [⟨3, 0, 0⟩]),
       some (Example.op "relu" "Relu" 14 kCudaExecutionProvider ["S"] "Z" [] []),
       some (Example.op "relu2" "Relu" 14 kCudaExecutionProvider ["Y2"] "Z2" [] [])]
    graph_outputs := ["Z", "Z2"] }

/-- The graph `Example.fanOutFirst` after one invocation: `conv`, `add` and `relu`
are fused and `conv2` is left with one consumer edge. -/
def Example.fanOutFirstAfterOne : Graph Empty :=
  { nodes :=
      [some (Example.op "conv2" "Conv" 11 kCudaExecutionProvider ["X2", "W2"] "Y2" []
        [⟨4, 0, 0⟩]),
       none, none, none,
       some (Example.op "relu2" "Relu" 14 kCudaExecutionProvider ["Y2"] "Z2" [] []),
       some Example.fusedConvAddRelu]
    graph_outputs := ["Z", "Z2"] }

/-- The graph `Example.fanOutFirst` after two invocations: both Convs are fused. -/
def Example.fanOutFirstAfterTwo : Graph Empty :=
  { nodes :=
      [none, none, none, none, none,
       some Example.fusedConvAddRelu, some Example.fusedConv2Relu2]
    graph_outputs := ["Z", "Z2"] }

/-! ## Lemmas on the graph operations -/

theorem map_set_same {α β : Type} (g : α → β) (a a' : α) :
    ∀ (l : List α) (k : Nat), l[k]? = some a → g a' = g a → (l.set k a').map g = l.map g
  | [], _, h, _ => by simp at h
  | x :: l, 0, h, hg => by
    simp at h
    simp [h, hg]
  | x :: l, k + 1, h, hg => by
    simp at h
    simp [map_set_same g a a' l k h hg]

theorem getD_none_eq_join (l : List (Option (Node G))) (k : Nat) :
    l.getD k none = (l[k]?).join := by
  rw [List.getD_eq_getElem?_getD]
  cases l[k]? <;> rfl

theorem getNode_eq_join (graph : Graph G) (k : Nat) :
    graph.GetNode k = (graph.nodes[k]?).join := by
  unfold Graph.GetNode
  exact getD_none_eq_join _ _

theorem getNode_some_iff (graph : Graph G) (k : Nat) (n : Node G) :
    graph.GetNode k = some n ↔ graph.nodes[k]? = some (some n) := by
  rw [getNode_eq_join]
  cases graph.nodes[k]? with
  | none => simp
  | some o => cases o <;> simp

theorem getNode_lt (graph : Graph G) (k : Nat) (n : Node G)
    (h : graph.GetNode k = some n) : k < graph.nodes.length := by
  rw [getNode_some_iff] at h
  by_contra hk
  rw [List.getElem?_eq_none (Nat.le_of_not_lt hk)] at h
  simp at h

theorem erase_getNode (graph : Graph G) (k : Nat) :
    graph.erase.GetNode k = (graph.GetNode k).map Node.erase := by
  simp only [getNode_eq_join, Graph.erase, List.getElem?_map]
  cases graph.nodes[k]? with
  | none => rfl
  | some o => cases o <;> rfl

theorem erase_mapNodes (graph : Graph G) (f : Node G → Node G)
    (hf : ∀ n, (f n).erase = n.erase) :
    ({ graph with nodes := graph.nodes.map (Option.map f) } : Graph G).erase = graph.erase := by
  simp only [Graph.erase, List.map_map]
  congr 1
  apply List.map_congr_left
  intro o _
  cases o with
  | none => rfl
  | some n => simp [hf]

theorem erase_updateNode (graph : Graph G) (k : Nat) (f : Node G → Node G)
    (hf : ∀ n, (f n).erase = n.erase) : (graph.UpdateNode k f).erase = graph.erase := by
  unfold Graph.UpdateNode
  cases h : graph.GetNode k with
  | none => rfl
  | some n =>
    simp only [Graph.erase]
    congr 1
    rw [getNode_some_iff] at h
    exact map_set_same _ (some n) _ _ _ h (by simp [hf])

theorem erase_MoveAllNodeInputEdges (graph : Graph G) (src target : Nat) :
    (MoveAllNodeInputEdges graph src target).erase = graph.erase := by
  unfold MoveAllNodeInputEdges
  refine erase_mapNodes graph _ ?_
  intro _
  rfl

theorem erase_MoveAllNodeOutputs (graph : Graph G) (src target : Nat) :
    (MoveAllNodeOutputs graph src target).erase = graph.erase := by
  unfold MoveAllNodeOutputs
  cases graph.GetNode src with
  | none => rfl
  | some s =>
    simp only
    refine Eq.trans (erase_updateNode _ _ _ ?_) (erase_updateNode _ _ _ ?_) <;> intro _ <;> rfl

theorem erase_RemoveNodeOutputEdges (graph : Graph G) (k : Nat) :
    (RemoveNodeOutputEdges graph k).erase = graph.erase := by
  unfold RemoveNodeOutputEdges
  refine erase_updateNode _ _ _ ?_
  intro _
  rfl

theorem erase_RemoveNode (graph : Graph G) (k : Nat) :
    (graph.RemoveNode k).erase =
      { graph.erase with nodes := graph.erase.nodes.set k none } := by
  unfold Graph.RemoveNode
  refine Eq.trans (erase_mapNodes { graph with nodes := graph.nodes.set k none } _ ?_) ?_
  · intro _
    rfl
  · simp [Graph.erase, List.map_set]

theorem erase_foldl_remove (ks : List Nat) : ∀ (graph : Graph G),
    (ks.foldl (fun g index => (RemoveNodeOutputEdges g index).RemoveNode index) graph).erase =
      { graph.erase with nodes := removeAll graph.erase.nodes ks } := by
  induction ks with
  | nil => intro graph; rfl
  | cons k ks ih =>
    intro graph
    simp only [List.foldl_cons, removeAll]
    rw [ih, erase_RemoveNode, erase_RemoveNodeOutputEdges]
    rfl

theorem erase_FinalizeNodeFusion (graph : Graph G) (nodes : List Nat) (replacement : Nat) :
    (FinalizeNodeFusion graph nodes replacement).erase =
      { graph.erase with nodes := removeAll graph.erase.nodes nodes } := by
  unfold FinalizeNodeFusion
  simp only
  rw [erase_foldl_remove]
  cases nodes.head? <;> cases nodes.getLast? <;>
    simp only [erase_MoveAllNodeOutputs, erase_MoveAllNodeInputEdges]

theorem removeAll_length {α : Type} (ks : List Nat) :
    ∀ l : List (Option α), (removeAll l ks).length = l.length := by
  induction ks with
  | nil => intro l; rfl
  | cons k ks ih =>
    intro l
    simp only [removeAll, List.foldl_cons] at ih ⊢
    rw [ih, List.length_set]

theorem removeAll_getElem? {α : Type} (ks : List Nat) (k : Nat) :
    ∀ l : List (Option α),
      ((removeAll l ks)[k]?).join = if k ∈ ks then none else (l[k]?).join := by
  induction ks with
  | nil => intro l; simp [removeAll]
  | cons a ks ih =>
    intro l
    simp only [removeAll, List.foldl_cons] at ih ⊢
    rw [ih, List.getElem?_set]
    by_cases h1 : k ∈ ks
    · simp [h1]
    · by_cases h2 : a = k
      · subst h2
        simp only [h1, if_false, if_true, List.mem_cons, true_or]
        split <;> rfl
      · have h3 : ¬ k = a := fun h => h2 h.symm
        simp [h1, h2, h3]

theorem erase_nodes_length (graph : Graph G) : graph.erase.nodes.length = graph.nodes.length := by
  simp [Graph.erase]

theorem FinalizeNodeFusion_length (graph : Graph G) (nodes : List Nat) (replacement : Nat) :
    (FinalizeNodeFusion graph nodes replacement).nodes.length = graph.nodes.length := by
  rw [← erase_nodes_length, erase_FinalizeNodeFusion]
  simp only [removeAll_length, erase_nodes_length]

theorem FinalizeNodeFusion_graph_outputs (graph : Graph G) (nodes : List Nat)
    (replacement : Nat) :
    (FinalizeNodeFusion graph nodes replacement).graph_outputs = graph.graph_outputs := by
  have h := congrArg Graph.graph_outputs (erase_FinalizeNodeFusion graph nodes replacement)
  exact h

theorem FinalizeNodeFusion_getNode (graph : Graph G) (nodes : List Nat) (replacement k : Nat) :
    ((FinalizeNodeFusion graph nodes replacement).GetNode k).map Node.erase =
      if k ∈ nodes then none else (graph.GetNode k).map Node.erase := by
  rw [← erase_getNode, erase_FinalizeNodeFusion, getNode_eq_join]
  simp only
  rw [removeAll_getElem?, ← getNode_eq_join, erase_getNode]

theorem FinalizeNodeFusion_getNode_mem (graph : Graph G) (nodes : List Nat) (replacement k : Nat)
    (h : k ∈ nodes) : (FinalizeNodeFusion graph nodes replacement).GetNode k = none := by
  have := FinalizeNodeFusion_getNode graph nodes replacement k
  simpa [h] using this

theorem numberOfNodes_erase (graph : Graph G) : graph.erase.NumberOfNodes = graph.NumberOfNodes := by
  unfold Graph.NumberOfNodes Graph.erase
  simp only
  induction graph.nodes with
  | nil => rfl
  | cons o l ih =>
    cases o with
    | none => simpa [List.filter] using ih
    | some n => simpa [List.filter] using ih

theorem count_set_none {α : Type} (a : α) :
    ∀ (l : List (Option α)) (k : Nat), l[k]? = some (some a) →
      ((l.set k none).filter Option.isSome).length + 1 = (l.filter Option.isSome).length
  | [], _, h => by simp at h
  | x :: l, 0, h => by
    simp at h
    simp [h, List.filter]
  | x :: l, k + 1, h => by
    simp at h
    have ih := count_set_none a l k h
    cases x with
    | none => simpa [List.filter] using ih
    | some n => simp [List.filter]; omega

theorem updateNode_snoc (l : List (Option (Node G))) (o : List String) (n : Node G)
    (f : Node G → Node G) :
    (Graph.mk (l ++ [some n]) o).UpdateNode l.length f = Graph.mk (l ++ [some (f n)]) o := by
  unfold Graph.UpdateNode Graph.GetNode
  simp [List.getD_eq_getElem?_getD]

theorem commit_length (graph : Graph G) (fused : Node G) (nodes : List Nat) :
    (graph.commit fused nodes).nodes.length = graph.nodes.length + 1 := by
  unfold Graph.commit
  rw [FinalizeNodeFusion_length]
  simp

theorem commit_graph_outputs (graph : Graph G) (fused : Node G) (nodes : List Nat) :
    (graph.commit fused nodes).graph_outputs = graph.graph_outputs := by
  unfold Graph.commit
  rw [FinalizeNodeFusion_graph_outputs]

theorem commit_getNode_mem (graph : Graph G) (fused : Node G) (nodes : List Nat) (k : Nat)
    (h : k ∈ nodes) : (graph.commit fused nodes).GetNode k = none :=
  FinalizeNodeFusion_getNode_mem _ _ _ _ h

theorem getNode_snoc_lt (l : List (Option (Node G))) (o : List String) (n : Node G) (k : Nat)
    (h : k < l.length) : (Graph.mk (l ++ [some n]) o).GetNode k = (Graph.mk l o).GetNode k := by
  simp only [getNode_eq_join]
  rw [List.getElem?_append_left h]

theorem getNode_snoc_length (l : List (Option (Node G))) (o : List String) (n : Node G) :
    (Graph.mk (l ++ [some n]) o).GetNode l.length = some n := by
  simp [getNode_eq_join]

theorem commit_getNode_other (graph : Graph G) (fused : Node G) (nodes : List Nat) (k : Nat)
    (h : k ∉ nodes) (hk : k < graph.nodes.length) :
    ((graph.commit fused nodes).GetNode k).map Node.erase = (graph.GetNode k).map Node.erase := by
  unfold Graph.commit
  rw [FinalizeNodeFusion_getNode, if_neg h, getNode_snoc_lt _ _ _ _ hk]

theorem commit_getNode_new (graph : Graph G) (fused : Node G) (nodes : List Nat)
    (h : graph.nodes.length ∉ nodes) :
    ((graph.commit fused nodes).GetNode graph.nodes.length).map Node.erase =
      some fused.erase := by
  unfold Graph.commit
  rw [FinalizeNodeFusion_getNode, if_neg h, getNode_snoc_length]
  rfl

theorem count_removeAll {α : Type} (ks : List Nat) (hnd : ks.Nodup) :
    ∀ l : List (Option α), (∀ k ∈ ks, ∃ a, l[k]? = some (some a)) →
      ((removeAll l ks).filter Option.isSome).length + ks.length =
        (l.filter Option.isSome).length := by
  induction ks with
  | nil => intro l _; rfl
  | cons k ks ih =>
    intro l hl
    rw [List.nodup_cons] at hnd
    obtain ⟨a, ha⟩ := hl k (List.mem_cons_self _ _)
    have h1 := count_set_none a l k ha
    have h2 := ih hnd.2 (l.set k none) (by
      intro j hj
      obtain ⟨b, hb⟩ := hl j (List.mem_cons_of_mem _ hj)
      have hne : k ≠ j := fun h => hnd.1 (h ▸ hj)
      exact ⟨b, by rw [List.getElem?_set_ne hne]; exact hb⟩)
    simp only [removeAll, List.foldl_cons, List.length_cons] at h2 ⊢
    omega

theorem commit_numberOfNodes (graph : Graph G) (fused : Node G) (nodes : List Nat)
    (hnd : nodes.Nodup) (hlive : ∀ k ∈ nodes, ∃ a, graph.GetNode k = some a) :
    (graph.commit fused nodes).NumberOfNodes + nodes.length = graph.NumberOfNodes + 1 := by
  rw [← numberOfNodes_erase, ← numberOfNodes_erase graph]
  unfold Graph.commit
  rw [erase_FinalizeNodeFusion]
  have h := count_removeAll nodes hnd
    (List.map (Option.map Node.erase) graph.nodes ++ [some fused.erase]) (by
      intro k hk
      obtain ⟨a, ha⟩ := hlive k hk
      have hlt : k < graph.nodes.length := getNode_lt _ _ _ ha
      rw [getNode_some_iff] at ha
      exact ⟨a.erase, by
        rw [List.getElem?_append_left (by simpa using hlt), List.getElem?_map, ha]; rfl⟩)
  simp only [Graph.NumberOfNodes, Graph.erase, List.map_append, List.map_cons, List.map_nil,
    Option.map_some', List.filter_append, List.length_append] at h ⊢
  simp [List.filter] at h
  omega

theorem fuseGeneric_eq (env : Env) (graph : Graph G) (r : Refs) (index : Nat) (node : Node G)
    (next_index : Nat) (next_node act_node : Node G) (activation_params : List float)
    (h : graph.GetNode next_index = some act_node) :
    ApplyImpl.fuseGeneric env graph r index node next_index next_node activation_params =
      .ok (graph.commit
          (fusedNode (env.GenerateNodeName graph ("fused " ++ node.Name))
            ("fused Conv " ++ node.Name ++ "with activation " ++ act_node.OpType)
            node.InputDefs (genericAttributes node.Attributes next_node.OpType activation_params)
            node.ExecutionProviderType)
          [index, next_index],
        { modified := true
          fusions := r.fusions ++ [⟨[index, next_index], graph.nodes.length⟩] }) := by
  unfold ApplyImpl.fuseGeneric
  simp only [h, Graph.AddNode, Graph.SetExecutionProviderType, Graph.AddAttribute,
    updateNode_snoc, Graph.commit, fusedNode, genericAttributes]
  split <;> simp only [updateNode_snoc]

theorem edges_of_count_one (node : Node G) (h : node.GetOutputEdgesCount = 1) :
    ∃ edge, node.OutputEdges = [edge] := by
  unfold Node.GetOutputEdgesCount at h
  match hnode : node.OutputEdges, h with
  | [e], _ => exact ⟨e, rfl⟩

theorem ok_inj {σ : Type} {a b : σ} (h : Outcome.ok a = Outcome.ok b) : a = b := by
  injection h

/-- What a commit of the fast path through an `Add` looks like. -/
theorem fuseCudaAdd_cases (env : Env) (graph graph' : Graph G) (r r' : Refs) (index : Nat)
    (node : Node G) (next_index : Nat) (next_node : Node G)
    (hnext : graph.GetNode next_index = some next_node)
    (h : ApplyImpl.fuseCudaAdd env graph r index node next_index next_node = .ok (graph', r')) :
    (graph' = graph ∧ r' = r) ∨
    ∃ (last_edge : EdgeEnd) (last_node : Node G) (conv_inputs : List NodeArg),
      next_node.OutputEdges = [last_edge] ∧
      graph.GetNode last_edge.node = some last_node ∧
      last_node.ExecutionProviderType = node.ExecutionProviderType ∧
      IsSupportedOptypeVersionAndDomain last_node "Relu" [6, 13, 14] = true ∧
      ApplyImpl.add_inputs_loop node.OutputDefs next_node.InputDefs (node.InputDefs, 0, 0) =
        some (conv_inputs, 1, 1) ∧
      graph' = graph.commit
        (fusedNode
          (env.GenerateNodeName graph
            (node.Name ++ "_" ++ next_node.Name ++ "_" ++ last_node.Name))
          (env.GenerateNodeName graph
            (node.Name ++ "_" ++ next_node.Name ++ "_" ++ last_node.Name))
          conv_inputs (SetNodeAttribute node.Attributes "activation" (.s "Relu"))
          node.ExecutionProviderType)
        [index, next_index, last_edge.node] ∧
      r' = ⟨true, r.fusions ++ [⟨[index, next_index, last_edge.node], graph.nodes.length⟩]⟩ := by
  unfold ApplyImpl.fuseCudaAdd at h
  split at h
  · exact Or.inl (by cases ok_inj h; exact ⟨rfl, rfl⟩)
  rename_i hcount
  obtain ⟨last_edge, hedges⟩ := edges_of_count_one next_node (by simpa using hcount)
  simp only [hedges, List.head?_cons] at h
  split at h
  · exact absurd h (by simp)
  rename_i last_node hlast
  split at h
  · exact Or.inl (by cases ok_inj h; exact ⟨rfl, rfl⟩)
  rename_i hep
  split at h
  · rename_i hrelu
    simp only [hnext, hlast] at h
    split at h
    · exact absurd h (by simp)
    rename_i conv_inputs dependent independent hloop
    split at h
    · exact Or.inl (by cases ok_inj h; exact ⟨rfl, rfl⟩)
    rename_i hdep
    have hd : dependent = 1 ∧ independent = 1 := by
      constructor <;> by_contra hc <;> exact hdep (by simp [hc])
    obtain ⟨hd1, hd2⟩ := hd
    subst hd1 hd2
    right
    refine ⟨last_edge, last_node, conv_inputs, hedges, hlast, by simpa using hep, hrelu, hloop, ?_⟩
    have h2 := ok_inj h
    simp only [Graph.AddNode, Graph.SetExecutionProviderType, Graph.AddAttribute,
      updateNode_snoc, Prod.mk.injEq] at h2
    exact ⟨h2.1.symm, h2.2.symm⟩
  · exact Or.inl (by cases ok_inj h; exact ⟨rfl, rfl⟩)

/-- What a commit of the fast path looks like. -/
theorem fuseCuda_cases (env : Env) (graph graph' : Graph G) (r r' : Refs) (index : Nat)
    (node : Node G) (next_index : Nat) (next_node : Node G)
    (hnext : graph.GetNode next_index = some next_node)
    (h : ApplyImpl.fuseCuda env graph r index node next_index next_node = .ok (graph', r')) :
    (graph' = graph ∧ r' = r) ∨
    ∃ (input0 : NodeArg) (type_proto : TypeProto),
      node.InputDefs.head? = some input0 ∧ input0.TypeAsProto = some type_proto ∧
      type_proto.elem_type = TensorProto_DataType_FLOAT ∧
      ((IsSupportedOptypeVersionAndDomain next_node "Relu" [6, 13, 14] = true ∧
        graph' = graph.commit
          (fusedNode (env.GenerateNodeName graph (node.Name ++ "_" ++ next_node.Name))
            (env.GenerateNodeName graph (node.Name ++ "_" ++ next_node.Name))
            node.InputDefs (SetNodeAttribute node.Attributes "activation" (.s "Relu"))
            node.ExecutionProviderType)
          [index, next_index] ∧
        r' = ⟨true, r.fusions ++ [⟨[index, next_index], graph.nodes.length⟩]⟩) ∨
       (IsSupportedOptypeVersionAndDomain next_node "Relu" [6, 13, 14] = false ∧
        IsSupportedOptypeVersionAndDomain next_node "Add" [6, 7, 13, 14] = true ∧
        ∃ (last_edge : EdgeEnd) (last_node : Node G) (conv_inputs : List NodeArg),
          next_node.OutputEdges = [last_edge] ∧
          graph.GetNode last_edge.node = some last_node ∧
          last_node.ExecutionProviderType = node.ExecutionProviderType ∧
          IsSupportedOptypeVersionAndDomain last_node "Relu" [6, 13, 14] = true ∧
          ApplyImpl.add_inputs_loop node.OutputDefs next_node.InputDefs (node.InputDefs, 0, 0) =
            some (conv_inputs, 1, 1) ∧
          graph' = graph.commit
            (fusedNode
              (env.GenerateNodeName graph
                (node.Name ++ "_" ++ next_node.Name ++ "_" ++ last_node.Name))
              (env.GenerateNodeName graph
                (node.Name ++ "_" ++ next_node.Name ++ "_" ++ last_node.Name))
              conv_inputs (SetNodeAttribute node.Attributes "activation" (.s "Relu"))
              node.ExecutionProviderType)
            [index, next_index, last_edge.node] ∧
          r' = ⟨true,
            r.fusions ++ [⟨[index, next_index, last_edge.node], graph.nodes.length⟩]⟩)) := by
  unfold ApplyImpl.fuseCuda at h
  split at h
  · exact absurd h (by simp)
  rename_i input0 hin
  split at h
  · exact absurd h (by simp)
  rename_i type_proto htp
  split at h
  · exact Or.inl (by cases ok_inj h; exact ⟨rfl, rfl⟩)
  rename_i hfloat
  split at h
  · rename_i hrelu
    simp only [hnext] at h
    right
    refine ⟨input0, type_proto, hin, htp, by simpa using hfloat, Or.inl ⟨hrelu, ?_⟩⟩
    have h2 := ok_inj h
    simp only [Graph.AddNode, Graph.SetExecutionProviderType, Graph.AddAttribute,
      updateNode_snoc, Prod.mk.injEq] at h2
    exact ⟨h2.1.symm, h2.2.symm⟩
  rename_i hrelu
  split at h
  · rename_i hadd
    rcases fuseCudaAdd_cases env graph graph' r r' index node next_index next_node hnext h with
      hc | hc
    · exact Or.inl hc
    · exact Or.inr ⟨input0, type_proto, hin, htp, by simpa using hfloat,
        Or.inr ⟨by simpa using hrelu, hadd, hc⟩⟩
  · exact Or.inl (by cases ok_inj h; exact ⟨rfl, rfl⟩)

/-- What a commit of the generic path looks like. -/
theorem fuseOther_cases (env : Env) (graph graph' : Graph G) (r r' : Refs) (index : Nat)
    (node : Node G) (next_index : Nat) (next_node : Node G)
    (hnext : graph.GetNode next_index = some next_node)
    (h : ApplyImpl.fuseOther env graph r index node next_index next_node = .ok (graph', r')) :
    (graph' = graph ∧ r' = r) ∨
    ∃ params : List float,
      ApplyImpl.ParamsFor env graph node next_node params ∧
      graph' = graph.commit
        (fusedNode (env.GenerateNodeName graph ("fused " ++ node.Name))
          ("fused Conv " ++ node.Name ++ "with activation " ++ next_node.OpType)
          node.InputDefs (genericAttributes node.Attributes next_node.OpType params)
          node.ExecutionProviderType)
        [index, next_index] ∧
      r' = ⟨true, r.fusions ++ [⟨[index, next_index], graph.nodes.length⟩]⟩ := by
  have key : ∀ params, ApplyImpl.ParamsFor env graph node next_node params →
      ApplyImpl.fuseGeneric env graph r index node next_index next_node params =
        .ok (graph', r') →
      ∃ params : List float,
        ApplyImpl.ParamsFor env graph node next_node params ∧
        graph' = graph.commit
          (fusedNode (env.GenerateNodeName graph ("fused " ++ node.Name))
            ("fused Conv " ++ node.Name ++ "with activation " ++ next_node.OpType)
            node.InputDefs (genericAttributes node.Attributes next_node.OpType params)
            node.ExecutionProviderType)
          [index, next_index] ∧
        r' = ⟨true, r.fusions ++ [⟨[index, next_index], graph.nodes.length⟩]⟩ := by
    intro params hp hg
    rw [fuseGeneric_eq env graph r index node next_index next_node next_node params hnext] at hg
    have h2 := ok_inj hg
    simp only [Prod.mk.injEq] at h2
    exact ⟨params, hp, h2.1.symm, h2.2.symm⟩
  unfold ApplyImpl.fuseOther at h
  split at h
  · rename_i hnot
    split at h
    · rename_i hleaky
      split at h
      · exact absurd h (by simp)
      rename_i alpha_attr halpha
      exact Or.inr (key _ (Or.inr (Or.inl ⟨hleaky, alpha_attr, halpha, rfl⟩)) h)
    split at h
    · rename_i hclip
      split at h
      · rename_i min max hmm
        exact Or.inr (key _ (Or.inr (Or.inr (Or.inl ⟨hclip, min, max, hmm, rfl⟩))) h)
      · exact Or.inl (by cases ok_inj h; exact ⟨rfl, rfl⟩)
    split at h
    · rename_i hhs
      exact Or.inr (key _ (Or.inr (Or.inr (Or.inr ⟨hhs.2, hhs.1, rfl⟩))) h)
    · exact Or.inl (by cases ok_inj h; exact ⟨rfl, rfl⟩)
  · rename_i hact
    refine Or.inr (key [] (Or.inl ⟨?_, rfl⟩) h)
    by_contra hc
    apply hact
    simp only [not_or, Bool.not_eq_true] at hc
    exact hc

theorem fuseAt_of_anchor (env : Env) (graph : Graph G) (r : Refs) (index : Nat)
    (node : Node G) (edge : EdgeEnd) (next_node : Node G)
    (ha : ApplyImpl.Anchor env graph node edge next_node) :
    ApplyImpl.fuseAt env graph r index node =
      if node.ExecutionProviderType = kCudaExecutionProvider then
        ApplyImpl.fuseCuda env graph r index node edge.node next_node
      else
        ApplyImpl.fuseOther env graph r index node edge.node next_node := by
  obtain ⟨h1, h2, h3, h4, h5, h6⟩ := ha
  unfold ApplyImpl.fuseAt
  simp only [h1, h2, h3, h4, h5, h6, Node.GetOutputEdgesCount, List.length_singleton,
    List.head?_cons, ne_eq, not_true_eq_false, or_self, if_false, Bool.false_eq_true,
    Bool.true_eq_false]

theorem fuseAt_cases (env : Env) (graph graph' : Graph G) (r r' : Refs) (index : Nat)
    (node : Node G)
    (h : ApplyImpl.fuseAt env graph r index node = .ok (graph', r')) :
    (graph' = graph ∧ r' = r) ∨
    ∃ (edge : EdgeEnd) (next_node : Node G),
      ApplyImpl.Anchor env graph node edge next_node ∧
      ((node.ExecutionProviderType = kCudaExecutionProvider ∧
          ApplyImpl.fuseCuda env graph r index node edge.node next_node = .ok (graph', r')) ∨
       (node.ExecutionProviderType ≠ kCudaExecutionProvider ∧
          ApplyImpl.fuseOther env graph r index node edge.node next_node = .ok (graph', r'))) := by
  unfold ApplyImpl.fuseAt at h
  split at h
  · exact Or.inl (by cases ok_inj h; exact ⟨rfl, rfl⟩)
  rename_i hanchor
  simp only [not_or, Bool.not_eq_false, ne_eq, not_not] at hanchor
  obtain ⟨hconv, hprov, hcount⟩ := hanchor
  obtain ⟨edge, hedges⟩ := edges_of_count_one node hcount
  simp only [hedges, List.head?_cons] at h
  split at h
  · exact absurd h (by simp)
  rename_i next_node hnext
  split at h
  · exact Or.inl (by cases ok_inj h; exact ⟨rfl, rfl⟩)
  rename_i hep
  split at h
  · exact Or.inl (by cases ok_inj h; exact ⟨rfl, rfl⟩)
  rename_i hout
  have ha : ApplyImpl.Anchor env graph node edge next_node :=
    ⟨hconv, hprov, hedges, hnext, by simpa using hep, by simpa using hout⟩
  split at h
  · rename_i hcuda
    exact Or.inr ⟨edge, next_node, ha, Or.inl ⟨hcuda, h⟩⟩
  · rename_i hcuda
    exact Or.inr ⟨edge, next_node, ha, Or.inr ⟨hcuda, h⟩⟩

theorem optype_of_supported (n : Node G) (op : String) (vs : List Int)
    (h : IsSupportedOptypeVersionAndDomain n op vs = true) : n.OpType = op := by
  simp only [IsSupportedOptypeVersionAndDomain, decide_eq_true_eq] at h
  exact h.1

theorem index_ne_of_optype (graph : Graph G) (i j : Nat) (a b : Node G)
    (hi : graph.GetNode i = some a) (hj : graph.GetNode j = some b)
    (hne : a.OpType ≠ b.OpType) : i ≠ j := by
  intro heq
  subst heq
  rw [hi] at hj
  cases hj
  exact hne rfl

theorem ParamsFor_optype (env : Env) (graph : Graph G) (node next_node : Node G)
    (params : List float) (h : ApplyImpl.ParamsFor env graph node next_node params) :
    next_node.OpType ≠ "Conv" := by
  rcases h with ⟨h | h | h, _⟩ | ⟨h, _⟩ | ⟨h, _⟩ | ⟨h, _⟩ <;>
    rw [optype_of_supported _ _ _ h] <;> decide

/-- A step of the part of the loop body after `Recurse` either leaves graph and
references alone or commits exactly one fusion: the anchor with its sole
consumer, or the anchor with an `Add` and the `Relu` behind it. The matched
nodes are distinct and live, the new node takes the next free slot. -/
theorem fuseAt_commit (env : Env) (graph graph' : Graph G) (r r' : Refs) (index : Nat)
    (node : Node G) (hnode : graph.GetNode index = some node)
    (h : ApplyImpl.fuseAt env graph r index node = .ok (graph', r')) :
    (graph' = graph ∧ r' = r) ∨
    ∃ (fused : Node G) (ms : List Nat) (edge : EdgeEnd) (next_node : Node G),
      graph' = graph.commit fused ms ∧
      r' = ⟨true, r.fusions ++ [⟨ms, graph.nodes.length⟩]⟩ ∧
      ms.Nodup ∧ (∀ k ∈ ms, ∃ a, graph.GetNode k = some a) ∧
      fused.OpType = "FusedConv" ∧ fused.Domain = "com.microsoft" ∧
      fused.ExecutionProviderType = node.ExecutionProviderType ∧
      ApplyImpl.Anchor env graph node edge next_node ∧
      (ms = [index, edge.node] ∨
        ∃ (last_edge : EdgeEnd) (last_node : Node G),
          ms = [index, edge.node, last_edge.node] ∧
          node.ExecutionProviderType = kCudaExecutionProvider ∧
          IsSupportedOptypeVersionAndDomain next_node "Add" [6, 7, 13, 14] = true ∧
          next_node.OutputEdges = [last_edge] ∧
          graph.GetNode last_edge.node = some last_node ∧
          last_node.ExecutionProviderType = node.ExecutionProviderType ∧
          IsSupportedOptypeVersionAndDomain last_node "Relu" [6, 13, 14] = true) := by
  rcases fuseAt_cases env graph graph' r r' index node h with hc | ⟨edge, next_node, ha, hp⟩
  · exact Or.inl hc
  have hconv := ha.1
  have hnext := ha.2.2.2.1
  have hconvT : node.OpType = "Conv" := optype_of_supported _ _ _ hconv
  rcases hp with ⟨hcuda, hp⟩ | ⟨_, hp⟩
  · rcases fuseCuda_cases env graph graph' r r' index node edge.node next_node hnext hp with
      hc | ⟨_, _, _, _, _, hc⟩
    · exact Or.inl hc
    rcases hc with ⟨hrelu, hg, hr⟩ |
      ⟨_, hadd, last_edge, last_node, _, hle, hlast, hlep, hrelu, _, hg, hr⟩
    · have h1 : index ≠ edge.node := index_ne_of_optype graph _ _ _ _ hnode hnext (by
        rw [hconvT, optype_of_supported _ _ _ hrelu]; decide)
      exact Or.inr ⟨_, _, edge, next_node, hg, hr, by simp [h1], by
        intro k hk
        simp only [List.mem_cons, List.mem_singleton, List.not_mem_nil, or_false] at hk
        rcases hk with rfl | rfl
        · exact ⟨_, hnode⟩
        · exact ⟨_, hnext⟩, rfl, rfl, rfl, ha, Or.inl rfl⟩
    · have h1 : index ≠ edge.node := index_ne_of_optype graph _ _ _ _ hnode hnext (by
        rw [hconvT, optype_of_supported _ _ _ hadd]; decide)
      have h2 : index ≠ last_edge.node := index_ne_of_optype graph _ _ _ _ hnode hlast (by
        rw [hconvT, optype_of_supported _ _ _ hrelu]; decide)
      have h3 : edge.node ≠ last_edge.node := index_ne_of_optype graph _ _ _ _ hnext hlast (by
        rw [optype_of_supported _ _ _ hadd, optype_of_supported _ _ _ hrelu]; decide)
      exact Or.inr ⟨_, _, edge, next_node, hg, hr, by simp [h1, h2, h3], by
        intro k hk
        simp only [List.mem_cons, List.mem_singleton, List.not_mem_nil, or_false] at hk
        rcases hk with rfl | rfl | rfl
        · exact ⟨_, hnode⟩
        · exact ⟨_, hnext⟩
        · exact ⟨_, hlast⟩, rfl, rfl, rfl, ha,
        Or.inr ⟨last_edge, last_node, rfl, hcuda, hadd, hle, hlast, hlep, hrelu⟩⟩
  · rcases fuseOther_cases env graph graph' r r' index node edge.node next_node hnext hp with
      hc | ⟨params, hpar, hg, hr⟩
    · exact Or.inl hc
    have h1 : index ≠ edge.node := index_ne_of_optype graph _ _ _ _ hnode hnext (by
      rw [hconvT]; exact fun h => ParamsFor_optype env graph node next_node params hpar h.symm)
    exact Or.inr ⟨_, _, edge, next_node, hg, hr, by simp [h1], by
      intro k hk
      simp only [List.mem_cons, List.mem_singleton, List.not_mem_nil, or_false] at hk
      rcases hk with rfl | rfl
      · exact ⟨_, hnode⟩
      · exact ⟨_, hnext⟩, rfl, rfl, rfl, ha, Or.inl rfl⟩

theorem Accounted.refl {σ : Type} (s : σ) (r : Refs) : Accounted s r s r :=
  ⟨⟨[], by simp⟩, fun h => h, fun _ => ⟨rfl, rfl⟩, fun h => absurd rfl h⟩

theorem Accounted.trans {σ τ : Type} {s s1 : σ} {t t2 : τ} {r r1 r2 : Refs}
    (h1 : Accounted s r s1 r1) (h2 : Accounted t r1 t2 r2) :
    (∃ added, r2.fusions = r.fusions ++ added) ∧
    (r.modified = true → r2.modified = true) ∧
    (r2.fusions = r.fusions → (s1 = s ∧ t2 = t) ∧ r2.modified = r.modified) ∧
    (r2.fusions ≠ r.fusions → r2.modified = true) := by
  obtain ⟨⟨a1, ha1⟩, hm1, hq1, hc1⟩ := h1
  obtain ⟨⟨a2, ha2⟩, hm2, hq2, hc2⟩ := h2
  have hboth : r2.fusions = r.fusions ++ (a1 ++ a2) := by
    rw [ha2, ha1, List.append_assoc]
  refine ⟨⟨a1 ++ a2, hboth⟩, fun h => hm2 (hm1 h), ?_, ?_⟩
  · intro heq
    have hnil : a1 ++ a2 = [] := by
      have := hboth.symm.trans heq
      exact List.append_right_eq_self.mp this
    obtain ⟨hn1, hn2⟩ := List.append_eq_nil.mp hnil
    subst hn1 hn2
    have e1 : r1.fusions = r.fusions := by simpa using ha1
    have e2 : r2.fusions = r1.fusions := by simpa using ha2
    obtain ⟨hs1, hmod1⟩ := hq1 e1
    obtain ⟨hs2, hmod2⟩ := hq2 e2
    exact ⟨⟨hs1, hs2⟩, hmod2.trans hmod1⟩
  · intro hne
    by_cases e1 : r1.fusions = r.fusions
    · apply hc2
      intro e2
      exact hne (e2.trans e1)
    · exact hm2 (hc1 e1)

theorem fuseAt_accounted (env : Env) (graph graph' : Graph G) (r r' : Refs) (index : Nat)
    (node : Node G) (hnode : graph.GetNode index = some node)
    (h : ApplyImpl.fuseAt env graph r index node = .ok (graph', r')) :
    Accounted graph r graph' r' := by
  rcases fuseAt_commit env graph graph' r r' index node hnode h with
    ⟨hg, hr⟩ | ⟨fused, ms, _, _, _, hr, _⟩
  · subst hg hr
    exact Accounted.refl _ _
  · subst hr
    refine ⟨⟨_, rfl⟩, fun _ => rfl, ?_, fun _ => rfl⟩
    intro heq
    simp at heq

theorem Recurse_accounted (apply : G → Refs → Outcome (G × Refs)) (ha : AccountedRun apply) :
    AccountedRun (Recurse apply) := by
  intro subs
  induction subs with
  | nil =>
    intro r s' r' h
    simp only [Recurse] at h
    cases ok_inj h
    exact Accounted.refl _ _
  | cons entry rest ih =>
    intro r s' r' h
    obtain ⟨key, subgraph⟩ := entry
    simp only [Recurse] at h
    split at h
    · exact absurd h (by simp)
    · exact absurd h (by simp)
    rename_i subgraph1 r1 h1
    split at h
    · exact absurd h (by simp)
    · exact absurd h (by simp)
    rename_i rest1 r2 h2
    cases ok_inj h
    obtain ⟨hA, hB, hC, hD⟩ := Accounted.trans (ha _ _ _ _ h1) (ih _ _ _ h2)
    refine ⟨hA, hB, ?_, hD⟩
    intro heq
    obtain ⟨⟨e1, e2⟩, e3⟩ := hC heq
    subst e1 e2
    exact ⟨rfl, e3⟩

theorem updateNode_id (graph : Graph G) (index : Nat) (node : Node G) (f : Node G → Node G)
    (hnode : graph.GetNode index = some node) (hf : f node = node) :
    graph.UpdateNode index f = graph := by
  unfold Graph.UpdateNode
  rw [hnode]
  simp only [hf]
  rw [getNode_some_iff] at hnode
  have : graph.nodes.set index (some node) = graph.nodes := by
    apply List.ext_getElem?
    intro i
    rw [List.getElem?_set]
    split
    · rename_i hi
      subst hi
      split
      · exact hnode.symm
      · rename_i hlt
        exact (List.getElem?_eq_none (Nat.le_of_not_lt hlt)).symm
    · rfl
  rw [this]

theorem getNode_updateNode_same (graph : Graph G) (index : Nat) (node : Node G)
    (f : Node G → Node G) (hnode : graph.GetNode index = some node) :
    (graph.UpdateNode index f).GetNode index = some (f node) := by
  have hlt := getNode_lt _ _ _ hnode
  unfold Graph.UpdateNode
  rw [hnode]
  simp only [getNode_eq_join]
  rw [List.getElem?_set_self hlt]
  rfl

theorem getNode_updateNode_ne (graph : Graph G) (index k : Nat) (f : Node G → Node G)
    (hne : index ≠ k) : (graph.UpdateNode index f).GetNode k = graph.GetNode k := by
  unfold Graph.UpdateNode
  cases graph.GetNode index with
  | none => rfl
  | some n =>
    simp only [getNode_eq_join]
    rw [List.getElem?_set_ne hne]

theorem body_accounted (env : Env) (apply : G → Refs → Outcome (G × Refs))
    (ha : AccountedRun apply) (graph graph' : Graph G) (r r' : Refs) (index : Nat)
    (h : ApplyImpl.body env apply (graph, r) index = .ok (graph', r')) :
    Accounted graph r graph' r' := by
  unfold ApplyImpl.body at h
  simp only at h
  split at h
  · cases ok_inj h
    exact Accounted.refl _ _
  rename_i node hnode
  split at h
  · exact absurd h (by simp)
  · exact absurd h (by simp)
  rename_i subgraphs r1 hrec
  have h1 := Recurse_accounted apply ha _ _ _ _ hrec
  have hnode1 : (graph.SetSubgraphs index subgraphs).GetNode index =
      some { node with Subgraphs := subgraphs } :=
    getNode_updateNode_same graph index node _ hnode
  have h2 := fuseAt_accounted env _ _ _ _ index _ hnode1 h
  obtain ⟨hA, hB, hC, hD⟩ := Accounted.trans h1 h2
  refine ⟨hA, hB, ?_, hD⟩
  intro heq
  obtain ⟨⟨e1, e2⟩, e3⟩ := hC heq
  subst e1
  refine ⟨?_, e3⟩
  rw [e2]
  exact updateNode_id graph index node _ hnode rfl

theorem loop_accounted (env : Env) (apply : G → Refs → Outcome (G × Refs))
    (ha : AccountedRun apply) (order : List Nat) :
    ∀ (graph graph' : Graph G) (r r' : Refs),
      ApplyImpl.loop env apply order (graph, r) = .ok (graph', r') →
      Accounted graph r graph' r' := by
  induction order with
  | nil =>
    intro graph graph' r r' h
    simp only [ApplyImpl.loop] at h
    cases ok_inj h
    exact Accounted.refl _ _
  | cons index rest ih =>
    intro graph graph' r r' h
    simp only [ApplyImpl.loop] at h
    split at h
    · exact absurd h (by simp)
    · exact absurd h (by simp)
    rename_i state1 hbody
    obtain ⟨graph1, r1⟩ := state1
    have h1 := body_accounted env apply ha _ _ _ _ _ hbody
    have h2 := ih _ _ _ _ h
    obtain ⟨hA, hB, hC, hD⟩ := Accounted.trans h1 h2
    refine ⟨hA, hB, ?_, hD⟩
    intro heq
    obtain ⟨⟨e1, e2⟩, e3⟩ := hC heq
    subst e1
    exact ⟨e2, e3⟩

theorem ApplyImpl_accounted (env : Env) (apply : G → Refs → Outcome (G × Refs))
    (ha : AccountedRun apply) : AccountedRun (ApplyImpl env apply) := by
  intro graph r graph' r' h
  exact loop_accounted env apply ha _ _ _ _ _ h

theorem ApplyImplNested_accounted (env : Env) :
    ∀ d : Nat, AccountedRun (ApplyImplNested env d)
  | 0 => fun s => nomatch s
  | d + 1 => ApplyImpl_accounted env _ (ApplyImplNested_accounted env d)

theorem supported_other_false (n : Node G) (op op' : String) (vs vs' : List Int)
    (h : IsSupportedOptypeVersionAndDomain n op vs = true) (hne : op ≠ op') :
    IsSupportedOptypeVersionAndDomain n op' vs' = false := by
  have hop := optype_of_supported n op vs h
  simp only [IsSupportedOptypeVersionAndDomain, decide_eq_false_iff_not, not_and]
  intro h2
  exact absurd (hop.symm.trans h2) hne

theorem updateNode_length (graph : Graph G) (index : Nat) (f : Node G → Node G) :
    (graph.UpdateNode index f).nodes.length = graph.nodes.length := by
  unfold Graph.UpdateNode
  cases graph.GetNode index <;> simp

theorem updateNode_graph_outputs (graph : Graph G) (index : Nat) (f : Node G → Node G) :
    (graph.UpdateNode index f).graph_outputs = graph.graph_outputs := by
  unfold Graph.UpdateNode
  cases graph.GetNode index <;> rfl

theorem updateNode_numberOfNodes (graph : Graph G) (index : Nat) (f : Node G → Node G) :
    (graph.UpdateNode index f).NumberOfNodes = graph.NumberOfNodes := by
  unfold Graph.UpdateNode
  cases h : graph.GetNode index with
  | none => rfl
  | some n =>
    rw [getNode_some_iff] at h
    simp only [Graph.NumberOfNodes]
    have := map_set_same (Option.isSome) (some n) (some (f n)) graph.nodes index h rfl
    have e : ∀ l : List (Option (Node G)),
        (l.filter Option.isSome).length = (l.map Option.isSome).count true := by
      intro l
      induction l with
      | nil => rfl
      | cons o l ih => cases o <;> simp [List.filter, ih]
    rw [e, e, this]

theorem getNode_updateNode_isSome (graph : Graph G) (index k : Nat) (f : Node G → Node G) :
    ((graph.UpdateNode index f).GetNode k).isSome = (graph.GetNode k).isSome := by
  by_cases hk : index = k
  · subst hk
    cases h : graph.GetNode index with
    | none => simp [Graph.UpdateNode, h]
    | some n => simp [getNode_updateNode_same graph index n f h]
  · rw [getNode_updateNode_ne graph index k f hk]

/-- One iteration on a live node is `Recurse` followed by the fusion attempt. -/
theorem body_eq (env : Env) (apply : G → Refs → Outcome (G × Refs)) (graph : Graph G)
    (r r1 : Refs) (index : Nat) (node : Node G) (subgraphs : List (String × G))
    (hnode : graph.GetNode index = some node)
    (hrec : Recurse apply node.Subgraphs r = .ok (subgraphs, r1)) :
    ApplyImpl.body env apply (graph, r) index =
      ApplyImpl.fuseAt env (graph.SetSubgraphs index subgraphs) r1 index
        { node with Subgraphs := subgraphs } := by
  unfold ApplyImpl.body
  simp only [hnode, hrec]

theorem setSubgraphs_getNode_same (graph : Graph G) (index : Nat) (node : Node G)
    (subgraphs : List (String × G)) (hnode : graph.GetNode index = some node) :
    (graph.SetSubgraphs index subgraphs).GetNode index =
      some { node with Subgraphs := subgraphs } :=
  getNode_updateNode_same graph index node _ hnode

theorem setSubgraphs_getNode_ne (graph : Graph G) (index k : Nat)
    (subgraphs : List (String × G)) (hne : index ≠ k) :
    (graph.SetSubgraphs index subgraphs).GetNode k = graph.GetNode k :=
  getNode_updateNode_ne graph index k _ hne

theorem setSubgraphs_same (graph : Graph G) (index : Nat) (node : Node G)
    (hnode : graph.GetNode index = some node) :
    graph.SetSubgraphs index node.Subgraphs = graph :=
  updateNode_id graph index node _ hnode rfl

theorem anchor_setSubgraphs (env : Env) (graph : Graph G) (index : Nat) (node : Node G)
    (edge : EdgeEnd) (next_node : Node G) (subgraphs : List (String × G))
    (hne : index ≠ edge.node) (ha : ApplyImpl.Anchor env graph node edge next_node) :
    ApplyImpl.Anchor env (graph.SetSubgraphs index subgraphs)
      { node with Subgraphs := subgraphs } edge next_node := by
  obtain ⟨h1, h2, h3, h4, h5, h6⟩ := ha
  refine ⟨h1, h2, h3, ?_, h5, ?_⟩
  · rw [setSubgraphs_getNode_ne graph index edge.node subgraphs hne]
    exact h4
  · simp only [Graph.NodeProducesGraphOutput, Graph.SetSubgraphs, updateNode_graph_outputs] at h6 ⊢
    exact h6

theorem fuseCudaAdd_eq (env : Env) (graph : Graph G) (r : Refs) (index : Nat)
    (node : Node G) (next_index : Nat) (next_node last_node : Node G) (last_edge : EdgeEnd)
    (conv_inputs : List NodeArg)
    (hnext : graph.GetNode next_index = some next_node)
    (hedges : next_node.OutputEdges = [last_edge])
    (hlast : graph.GetNode last_edge.node = some last_node)
    (hep : last_node.ExecutionProviderType = node.ExecutionProviderType)
    (hrelu : IsSupportedOptypeVersionAndDomain last_node "Relu" [6, 13, 14] = true)
    (hloop : ApplyImpl.add_inputs_loop node.OutputDefs next_node.InputDefs
      (node.InputDefs, 0, 0) = some (conv_inputs, 1, 1)) :
    ApplyImpl.fuseCudaAdd env graph r index node next_index next_node =
      .ok (graph.commit
          (fusedNode
            (env.GenerateNodeName graph
              (node.Name ++ "_" ++ next_node.Name ++ "_" ++ last_node.Name))
            (env.GenerateNodeName graph
              (node.Name ++ "_" ++ next_node.Name ++ "_" ++ last_node.Name))
            conv_inputs (SetNodeAttribute node.Attributes "activation" (.s "Relu"))
            node.ExecutionProviderType)
          [index, next_index, last_edge.node],
        ⟨true, r.fusions ++ [⟨[index, next_index, last_edge.node], graph.nodes.length⟩]⟩) := by
  unfold ApplyImpl.fuseCudaAdd
  simp only [hnext, hedges, hlast, hep, hrelu, hloop, Node.GetOutputEdgesCount,
    List.length_singleton, List.head?_cons, ne_eq, not_true_eq_false, if_false, if_true,
    or_self, Graph.AddNode, Graph.SetExecutionProviderType, Graph.AddAttribute, updateNode_snoc]
  rfl

/-! ## The pass has no error path -/

theorem fuseGeneric_never_fails (env : Env) (graph : Graph G) (r : Refs) (index : Nat)
    (node : Node G) (next_index : Nat) (next_node : Node G) (params : List float)
    (s' : Graph G × Refs) (msg : String) :
    ApplyImpl.fuseGeneric env graph r index node next_index next_node params ≠
      .error s' msg := by
  unfold ApplyImpl.fuseGeneric
  split <;> simp

theorem fuseCudaAdd_never_fails (env : Env) (graph : Graph G) (r : Refs) (index : Nat)
    (node : Node G) (next_index : Nat) (next_node : Node G)
    (s' : Graph G × Refs) (msg : String) :
    ApplyImpl.fuseCudaAdd env graph r index node next_index next_node ≠ .error s' msg := by
  intro h
  unfold ApplyImpl.fuseCudaAdd at h
  split at h
  · exact absurd h (by simp)
  split at h
  · exact absurd h (by simp)
  split at h
  · exact absurd h (by simp)
  split at h
  · exact absurd h (by simp)
  split at h
  · split at h
    · exact absurd h (by simp)
    split at h
    · exact absurd h (by simp)
    dsimp only at h
    split at h
    · exact absurd h (by simp)
    split at h
    · exact absurd h (by simp)
    · exact absurd h (by simp)
  · exact absurd h (by simp)

theorem fuseCuda_never_fails (env : Env) (graph : Graph G) (r : Refs) (index : Nat)
    (node : Node G) (next_index : Nat) (next_node : Node G)
    (s' : Graph G × Refs) (msg : String) :
    ApplyImpl.fuseCuda env graph r index node next_index next_node ≠ .error s' msg := by
  unfold ApplyImpl.fuseCuda
  repeat' split
  all_goals first
    | exact fuseCudaAdd_never_fails env graph r index node next_index next_node s' msg
    | simp

theorem fuseOther_never_fails (env : Env) (graph : Graph G) (r : Refs) (index : Nat)
    (node : Node G) (next_index : Nat) (next_node : Node G)
    (s' : Graph G × Refs) (msg : String) :
    ApplyImpl.fuseOther env graph r index node next_index next_node ≠ .error s' msg := by
  unfold ApplyImpl.fuseOther
  repeat' split
  all_goals first
    | exact fuseGeneric_never_fails env graph r index node next_index next_node _ s' msg
    | simp

theorem fuseAt_never_fails (env : Env) (graph : Graph G) (r : Refs) (index : Nat)
    (node : Node G) (s' : Graph G × Refs) (msg : String) :
    ApplyImpl.fuseAt env graph r index node ≠ .error s' msg := by
  unfold ApplyImpl.fuseAt
  repeat' split
  all_goals first
    | exact fuseCuda_never_fails env graph r index node _ _ s' msg
    | exact fuseOther_never_fails env graph r index node _ _ s' msg
    | simp

theorem Recurse_never_fails (apply : G → Refs → Outcome (G × Refs)) (ha : NeverFails apply) :
    NeverFails (Recurse apply) := by
  intro subs
  induction subs with
  | nil =>
    intro r s' msg
    simp [Recurse]
  | cons entry rest ih =>
    intro r s' msg h
    obtain ⟨key, subgraph⟩ := entry
    simp only [Recurse] at h
    split at h
    · exact absurd h (by simp)
    · rename_i h1
      exact ha _ _ _ _ h1
    · split at h
      · exact absurd h (by simp)
      · rename_i h2
        exact ih _ _ _ h2
      · exact absurd h (by simp)

theorem body_never_fails (env : Env) (apply : G → Refs → Outcome (G × Refs))
    (ha : NeverFails apply) (state : Graph G × Refs) (index : Nat)
    (s' : Graph G × Refs) (msg : String) :
    ApplyImpl.body env apply state index ≠ .error s' msg := by
  intro h
  unfold ApplyImpl.body at h
  split at h
  · exact absurd h (by simp)
  split at h
  · exact absurd h (by simp)
  · rename_i h1
    exact Recurse_never_fails apply ha _ _ _ _ h1
  · exact fuseAt_never_fails env _ _ index _ s' msg h

theorem loop_never_fails (env : Env) (apply : G → Refs → Outcome (G × Refs))
    (ha : NeverFails apply) (order : List Nat) :
    ∀ (state s' : Graph G × Refs) (msg : String),
      ApplyImpl.loop env apply order state ≠ .error s' msg := by
  induction order with
  | nil =>
    intro state s' msg
    simp [ApplyImpl.loop]
  | cons index rest ih =>
    intro state s' msg h
    simp only [ApplyImpl.loop] at h
    split at h
    · exact absurd h (by simp)
    · rename_i h1
      exact body_never_fails env apply ha state index _ _ h1
    · exact ih _ _ _ h

theorem ApplyImpl_never_fails (env : Env) (apply : G → Refs → Outcome (G × Refs))
    (ha : NeverFails apply) : NeverFails (ApplyImpl env apply) := by
  intro graph r s' msg
  exact loop_never_fails env apply ha _ _ _ _

theorem ApplyImplNested_never_fails (env : Env) :
    ∀ d : Nat, NeverFails (ApplyImplNested env d)
  | 0 => fun s => nomatch s
  | d + 1 => ApplyImpl_never_fails env _ (ApplyImplNested_never_fails env d)

/-- The pass has no error path of its own: whatever the graph, an invocation
returns `Status::OK()` or runs into undefined behaviour; it never returns a
non-OK `Status`. -/
theorem ApplyImpl_never_returns_error (env : Env) (d : Nat) (graph : Graph (Subgraph d))
    (r : Refs) (s' : Graph (Subgraph d) × Refs) (msg : String) :
    ConvActivationFusion.ApplyImpl env d graph r ≠ .error s' msg :=
  ApplyImpl_never_fails env _ (ApplyImplNested_never_fails env d) graph r s' msg

/-! ## Properties of the pass -/

theorem setSubgraphs_length (graph : Graph G) (index : Nat) (subgraphs : List (String × G)) :
    (graph.SetSubgraphs index subgraphs).nodes.length = graph.nodes.length :=
  updateNode_length graph index _

theorem erase_eq_fields (a b : Node G) (h : a.erase = b.erase) :
    a.Name = b.Name ∧ a.OpType = b.OpType ∧ a.Description = b.Description ∧
    a.Domain = b.Domain ∧ a.SinceVersion = b.SinceVersion ∧ a.InputDefs = b.InputDefs ∧
    a.Attributes = b.Attributes ∧ a.ExecutionProviderType = b.ExecutionProviderType ∧
    a.Subgraphs = b.Subgraphs := by
  simp only [Node.erase, Node.mk.injEq] at h
  obtain ⟨h1, h2, h3, h4, h5, h6, _, h8, h9, _, h11⟩ := h
  exact ⟨h1, h2, h3, h4, h5, h6, h8, h9, h11⟩

/-- The graph after a commit that follows the write-back of `Recurse`, compared
with the graph before the iteration. -/
theorem commit_after_recurse (graph : Graph G) (index : Nat)
    (subgraphs : List (String × G)) (fused : Node G) (ms : List Nat)
    (hindex : index ∈ ms) (hnd : ms.Nodup)
    (hlive : ∀ m ∈ ms, ∃ a, graph.GetNode m = some a) :
    ((graph.SetSubgraphs index subgraphs).commit fused ms).nodes.length =
        graph.nodes.length + 1 ∧
    ((graph.SetSubgraphs index subgraphs).commit fused ms).NumberOfNodes + ms.length =
        graph.NumberOfNodes + 1 ∧
    (∀ m ∈ ms, ((graph.SetSubgraphs index subgraphs).commit fused ms).GetNode m = none) ∧
    (∀ k, k < graph.nodes.length → k ∉ ms →
      (((graph.SetSubgraphs index subgraphs).commit fused ms).GetNode k).map Node.erase =
        (graph.GetNode k).map Node.erase) ∧
    (∃ f, ((graph.SetSubgraphs index subgraphs).commit fused ms).GetNode graph.nodes.length =
        some f ∧ f.erase = fused.erase) := by
  have hlen := setSubgraphs_length graph index subgraphs
  have hlt : ∀ m ∈ ms, m < graph.nodes.length := by
    intro m hm
    obtain ⟨a, ha⟩ := hlive m hm
    exact getNode_lt _ _ _ ha
  have hnot : (graph.SetSubgraphs index subgraphs).nodes.length ∉ ms := by
    intro hmem
    have := hlt _ hmem
    omega
  refine ⟨?_, ?_, ?_, ?_, ?_⟩
  · rw [commit_length, hlen]
  · have := commit_numberOfNodes (graph.SetSubgraphs index subgraphs) fused ms hnd (by
      intro k hk
      obtain ⟨a, ha⟩ := hlive k hk
      have := getNode_updateNode_isSome graph index k
        (fun n => { n with Subgraphs := subgraphs })
      rw [ha] at this
      exact Option.isSome_iff_exists.mp this)
    rw [this]
    simp only [Graph.SetSubgraphs, updateNode_numberOfNodes]
  · intro m hm
    exact commit_getNode_mem _ _ _ _ hm
  · intro k hk hkms
    rw [commit_getNode_other _ _ _ _ hkms (by rw [hlen]; exact hk)]
    have hne : index ≠ k := fun h => hkms (h ▸ hindex)
    rw [setSubgraphs_getNode_ne graph index k subgraphs hne]
  · have h := commit_getNode_new (graph.SetSubgraphs index subgraphs) fused ms hnot
    rw [hlen] at h
    cases hf : ((graph.SetSubgraphs index subgraphs).commit fused ms).GetNode
        graph.nodes.length with
    | none => rw [hf] at h; simp at h
    | some f =>
      rw [hf] at h
      simp only [Option.map_some', Option.some.injEq] at h
      exact ⟨f, rfl, h⟩

theorem lookup_filter_ne (attributes : NodeAttributes) (name k : String) (h : k ≠ name) :
    (attributes.filter (fun entry => decide (entry.1 ≠ name))).lookup k =
      attributes.lookup k := by
  induction attributes with
  | nil => rfl
  | cons entry rest ih =>
    obtain ⟨key, value⟩ := entry
    by_cases hk : key = name
    · subst hk
      have hne : (k == key) = false := by simpa using h
      simp only [List.filter, ne_eq, not_true_eq_false, decide_False, List.lookup, hne]
      exact ih
    · by_cases hkk : k = key
      · subst hkk
        simp [List.filter, hk, List.lookup]
      · have hne : (k == key) = false := by simpa using hkk
        simp only [List.filter, ne_eq, hk, not_false_eq_true, decide_True, List.lookup, hne]
        exact ih

theorem lookup_SetNodeAttribute_ne (attributes : NodeAttributes) (name k : String)
    (value : AttributeProto) (h : k ≠ name) :
    (SetNodeAttribute attributes name value).lookup k = attributes.lookup k := by
  have hne : (k == name) = false := by simpa using h
  simp only [SetNodeAttribute, List.lookup, hne]
  exact lookup_filter_ne attributes name k h

theorem lookup_SetNodeAttribute_same (attributes : NodeAttributes) (name : String)
    (value : AttributeProto) :
    (SetNodeAttribute attributes name value).lookup name = some value := by
  simp [SetNodeAttribute, List.lookup]

/-- C2 (three-node case). A live Conv anchor on the CUDA provider with a float
first input, one consumer edge and no graph output, whose sole consumer is an
Add (version 6, 7, 13 or 14) on the same provider with exactly one consumer edge
leading to a Relu (version 6, 13 or 14) on the same provider, where the Add has
two inputs, one named like the Conv's output and one other input `z`, in either
order: the iteration of `ApplyImpl` at the Conv returns OK with
`modified = true`, logs one fusion of Conv, Add and Relu, all three are absent
afterwards, every other node is still there, and exactly one node is new: a
`FusedConv` whose inputs are the Conv's inputs followed by `z` and whose
attributes are the Conv's attributes plus `activation = "Relu"`. The conditions
are those of the graph as the traversal finds it when it reaches the Conv, after
the earlier iterations of the same invocation. -/
theorem C2_three_node_add_relu_fusion (env : Env) (apply : G → Refs → Outcome (G × Refs))
    (graph : Graph G) (r r1 : Refs) (index : NodeIndex) (node add_node last_node : Node G)
    (edge last_edge : EdgeEnd) (subgraphs : List (String × G))
    (input0 conv_output dependent z : NodeArg)
    (hnode : graph.GetNode index = some node)
    (hrec : Recurse apply node.Subgraphs r = .ok (subgraphs, r1))
    (hconv : IsSupportedOptypeVersionAndDomain node "Conv" [1, 11] = true)
    (hprov : env.IsSupportedProvider node.ExecutionProviderType
      env.GetCompatibleExecutionProviders = true)
    (hcuda : node.ExecutionProviderType = kCudaExecutionProvider)
    (hin : node.InputDefs.head? = some input0)
    (hfloat : input0.TypeAsProto = some (.tensor_type TensorProto_DataType_FLOAT))
    (hedges : node.OutputEdges = [edge])
    (hout : graph.NodeProducesGraphOutput node = false)
    (hnext : graph.GetNode edge.node = some add_node)
    (hadd : IsSupportedOptypeVersionAndDomain add_node "Add" [6, 7, 13, 14] = true)
    (hep : add_node.ExecutionProviderType = node.ExecutionProviderType)
    (hadd_edges : add_node.OutputEdges = [last_edge])
    (hlast : graph.GetNode last_edge.node = some last_node)
    (hrelu : IsSupportedOptypeVersionAndDomain last_node "Relu" [6, 13, 14] = true)
    (hlast_ep : last_node.ExecutionProviderType = node.ExecutionProviderType)
    (hconv_output : node.OutputDefs.head? = some conv_output)
    (hadd_inputs : add_node.InputDefs = [dependent, z] ∨ add_node.InputDefs = [z, dependent])
    (hdependent : dependent.Name = conv_output.Name)
    (hz : z.Name ≠ conv_output.Name) :
    ∃ (graph' : Graph G) (fused : Node G),
      ApplyImpl.body env apply (graph, r) index =
        .ok (graph', ⟨true,
          r1.fusions ++ [⟨[index, edge.node, last_edge.node], graph.nodes.length⟩]⟩) ∧
      graph'.GetNode index = none ∧
      graph'.GetNode edge.node = none ∧
      graph'.GetNode last_edge.node = none ∧
      graph'.nodes.length = graph.nodes.length + 1 ∧
      graph'.NumberOfNodes + 2 = graph.NumberOfNodes ∧
      (∀ k, k < graph.nodes.length → k ≠ index → k ≠ edge.node → k ≠ last_edge.node →
        (graph'.GetNode k).map Node.erase = (graph.GetNode k).map Node.erase) ∧
      graph'.GetNode graph.nodes.length = some fused ∧
      fused.OpType = "FusedConv" ∧
      fused.Domain = "com.microsoft" ∧
      fused.InputDefs = node.InputDefs ++ [z] ∧
      fused.Attributes = SetNodeAttribute node.Attributes "activation" (.s "Relu") := by
  have hconvT := optype_of_supported _ _ _ hconv
  have haddT := optype_of_supported _ _ _ hadd
  have hreluT := optype_of_supported _ _ _ hrelu
  have hne1 : index ≠ edge.node := index_ne_of_optype graph _ _ _ _ hnode hnext (by
    rw [hconvT, haddT]; decide)
  have hne2 : index ≠ last_edge.node := index_ne_of_optype graph _ _ _ _ hnode hlast (by
    rw [hconvT, hreluT]; decide)
  have hne3 : edge.node ≠ last_edge.node := index_ne_of_optype graph _ _ _ _ hnext hlast (by
    rw [haddT, hreluT]; decide)
  have ha : ApplyImpl.Anchor env (graph.SetSubgraphs index subgraphs)
      { node with Subgraphs := subgraphs } edge add_node :=
    anchor_setSubgraphs env graph index node edge add_node subgraphs hne1
      ⟨hconv, hprov, hedges, hnext, hep, hout⟩
  have hnext1 := ha.2.2.2.1
  have hlast1 : (graph.SetSubgraphs index subgraphs).GetNode last_edge.node = some last_node := by
    rw [setSubgraphs_getNode_ne graph index _ subgraphs hne2]
    exact hlast
  have hlen := setSubgraphs_length graph index subgraphs
  have hloop : ApplyImpl.add_inputs_loop node.OutputDefs add_node.InputDefs
      (node.InputDefs, 0, 0) = some (node.InputDefs ++ [z], 1, 1) := by
    rcases hadd_inputs with h | h <;>
      simp [h, ApplyImpl.add_inputs_loop, hconv_output, hdependent, hz]
  have hnotrelu : IsSupportedOptypeVersionAndDomain add_node "Relu" [6, 13, 14] = false :=
    supported_other_false add_node "Add" "Relu" _ _ hadd (by decide)
  have hbody : ApplyImpl.body env apply (graph, r) index =
      .ok ((graph.SetSubgraphs index subgraphs).commit
        (fusedNode
          (env.GenerateNodeName (graph.SetSubgraphs index subgraphs)
            (node.Name ++ "_" ++ add_node.Name ++ "_" ++ last_node.Name))
          (env.GenerateNodeName (graph.SetSubgraphs index subgraphs)
            (node.Name ++ "_" ++ add_node.Name ++ "_" ++ last_node.Name))
          (node.InputDefs ++ [z])
          (SetNodeAttribute node.Attributes "activation" (.s "Relu"))
          node.ExecutionProviderType) [index, edge.node, last_edge.node],
        ⟨true, r1.fusions ++ [⟨[index, edge.node, last_edge.node], graph.nodes.length⟩]⟩) := by
    rw [body_eq env apply graph r r1 index node subgraphs hnode hrec,
      fuseAt_of_anchor env _ r1 index _ edge add_node ha]
    simp only [hcuda, if_true]
    unfold ApplyImpl.fuseCuda
    simp only [hin, hfloat, TypeProto.elem_type, hnotrelu, hadd, ne_eq, not_true_eq_false,
      if_false, if_true, Bool.false_eq_true]
    have h := fuseCudaAdd_eq env (graph.SetSubgraphs index subgraphs) r1 index
      { node with Subgraphs := subgraphs } edge.node add_node last_node last_edge
      (node.InputDefs ++ [z]) hnext1 hadd_edges hlast1 hlast_ep hrelu hloop
    rw [hlen] at h
    simp only [hcuda] at h
    exact h
  obtain ⟨c1, c2, c3, c4, f, c5, c6⟩ := commit_after_recurse graph index subgraphs
    (fusedNode
      (env.GenerateNodeName (graph.SetSubgraphs index subgraphs)
        (node.Name ++ "_" ++ add_node.Name ++ "_" ++ last_node.Name))
      (env.GenerateNodeName (graph.SetSubgraphs index subgraphs)
        (node.Name ++ "_" ++ add_node.Name ++ "_" ++ last_node.Name))
      (node.InputDefs ++ [z])
      (SetNodeAttribute node.Attributes "activation" (.s "Relu"))
      node.ExecutionProviderType) [index, edge.node, last_edge.node] (by simp)
    (by simp [hne1, hne2, hne3]) (by
      intro m hm
      simp only [List.mem_cons, List.mem_singleton, List.not_mem_nil, or_false] at hm
      rcases hm with rfl | rfl | rfl
      · exact ⟨_, hnode⟩
      · exact ⟨_, hnext⟩
      · exact ⟨_, hlast⟩)
  obtain ⟨_, e2, _, e4, _, e6, e7, _, _⟩ := erase_eq_fields _ _ c6
  refine ⟨_, f, hbody, c3 _ (by simp), c3 _ (by simp), c3 _ (by simp), c1, ?_, ?_, c5, e2, e4,
    e6, e7⟩
  · simp only [List.length_cons, List.length_nil] at c2
    omega
  · intro k hk h1 h2 h3
    exact c4 k hk (by simp [h1, h2, h3])

/-- C3 (rejection is atomic). An iteration of `ApplyImpl` that returns OK without
having committed a fusion at any nesting level (the fusion log is what it was)
returns the graph it was given and the `modified` flag it was given. This holds
on every `continue` branch, the three-node candidate rejected by the
dependent/independent count included: the extended input list is a local copy. -/
theorem C3_rejection_is_atomic (env : Env) (d : Nat) (graph graph' : Graph (Subgraph d))
    (r r' : Refs) (index : NodeIndex)
    (h : ApplyImpl.body env (ApplyImplNested env d) (graph, r) index = .ok (graph', r'))
    (hno : r'.fusions = r.fusions) :
    graph' = graph ∧ r'.modified = r.modified :=
  (body_accounted env _ (ApplyImplNested_accounted env d) graph graph' r r' index h).2.2.1 hno

/-- C4 (node-count law). When the iteration of `ApplyImpl` at a live node commits
a fusion of its own (the log grows after `Recurse`), exactly one fusion is
logged. It is either the two-node match, the anchor and its sole consumer, and
then the graph has exactly one node less; or the three-node match, the anchor,
its sole consumer and that consumer's sole consumer, and then the graph has
exactly two nodes less. -/
theorem C4_node_count_law (env : Env) (apply : G → Refs → Outcome (G × Refs))
    (graph graph' : Graph G) (r r1 r' : Refs) (index : NodeIndex) (node : Node G)
    (subgraphs : List (String × G))
    (hnode : graph.GetNode index = some node)
    (hrec : Recurse apply node.Subgraphs r = .ok (subgraphs, r1))
    (h : ApplyImpl.body env apply (graph, r) index = .ok (graph', r'))
    (hcommit : r'.fusions ≠ r1.fusions) :
    ∃ (fusion : Fusion) (edge : EdgeEnd),
      r'.fusions = r1.fusions ++ [fusion] ∧
      node.OutputEdges = [edge] ∧
      ((fusion.nodes = [index, edge.node] ∧
          graph'.NumberOfNodes + 1 = graph.NumberOfNodes) ∨
       (∃ (add_node : Node G) (last_edge : EdgeEnd),
          graph.GetNode edge.node = some add_node ∧
          add_node.OutputEdges = [last_edge] ∧
          fusion.nodes = [index, edge.node, last_edge.node] ∧
          graph'.NumberOfNodes + 2 = graph.NumberOfNodes)) := by
  rw [body_eq env apply graph r r1 index node subgraphs hnode hrec] at h
  have hnode1 := setSubgraphs_getNode_same graph index node subgraphs hnode
  rcases fuseAt_commit env _ graph' r1 r' index _ hnode1 h with
    ⟨_, hr⟩ | ⟨fused, ms, edge, next_node, hg, hr, hnd, hlive, _, _, _, ha, hshape⟩
  · exact absurd (by rw [hr]) hcommit
  have hcount := commit_numberOfNodes (graph.SetSubgraphs index subgraphs) fused ms hnd hlive
  rw [← hg] at hcount
  simp only [Graph.SetSubgraphs, updateNode_numberOfNodes] at hcount
  refine ⟨⟨ms, (graph.SetSubgraphs index subgraphs).nodes.length⟩, edge, by rw [hr], ha.2.2.1, ?_⟩
  rcases hshape with hms | ⟨last_edge, last_node, hms, _, hadd, hle, _, _, _⟩
  · subst hms
    exact Or.inl ⟨rfl, by simpa using hcount⟩
  · subst hms
    have hne : index ≠ edge.node := by
      have := hnd
      simp only [List.nodup_cons, List.mem_cons, List.mem_singleton, not_or] at this
      exact this.1.1
    have hnext := ha.2.2.2.1
    rw [setSubgraphs_getNode_ne graph index edge.node subgraphs hne] at hnext
    refine Or.inr ⟨next_node, last_edge, hnext, hle, rfl, ?_⟩
    simp only [List.length_cons, List.length_nil] at hcount
    omega

/-- C5 (idempotence under exhaustion). For an invocation of `ApplyImpl` entered
with `modified = false` that returns OK: `modified` is true on return if and
only if at least one fusion was committed; and if it is false on return, the
graph returned is the graph given, so that the next invocation on it returns the
same graph again and reports no modification. -/
theorem C5_unmodified_means_unchanged (env : Env) (d : Nat)
    (graph graph' : Graph (Subgraph d)) (r r' : Refs)
    (h : ConvActivationFusion.ApplyImpl env d graph r = .ok (graph', r'))
    (hentry : r.modified = false) :
    (r'.modified = true ↔ r'.fusions ≠ r.fusions) ∧
    (r'.modified = false →
      graph' = graph ∧
      ConvActivationFusion.ApplyImpl env d graph' r' = .ok (graph', r') ∧
      ∀ graph'' r'', ConvActivationFusion.ApplyImpl env d graph' r' = .ok (graph'', r'') →
        graph'' = graph' ∧ r''.modified = false) := by
  obtain ⟨_, _, hquiet, hloud⟩ :=
    ApplyImpl_accounted env _ (ApplyImplNested_accounted env d) graph r graph' r' h
  have hiff : r'.modified = true ↔ r'.fusions ≠ r.fusions := by
    constructor
    · intro hm heq
      have := (hquiet heq).2
      rw [hentry, hm] at this
      cases this
    · exact hloud
  refine ⟨hiff, ?_⟩
  intro hfalse
  have heq : r'.fusions = r.fusions := by
    by_contra hne
    have := hloud hne
    rw [hfalse] at this
    cases this
  obtain ⟨hg, hm⟩ := hquiet heq
  have hr : r' = r := by
    cases r
    cases r'
    simp only at heq hm
    subst heq hm
    rfl
  subst hg hr
  refine ⟨rfl, h, ?_⟩
  intro graph'' r'' h2
  rw [h] at h2
  cases ok_inj h2
  exact ⟨rfl, hfalse⟩

theorem fuseAt_graph_output (env : Env) (graph : Graph G) (r : Refs) (index : Nat)
    (node : Node G)
    (hlive : ∀ edge ∈ node.OutputEdges, (graph.GetNode edge.node).isSome = true)
    (hout : graph.NodeProducesGraphOutput node = true) :
    ApplyImpl.fuseAt env graph r index node = .ok (graph, r) := by
  unfold ApplyImpl.fuseAt
  split
  · rfl
  rename_i hanchor
  simp only [not_or, Bool.not_eq_false, ne_eq, not_not] at hanchor
  obtain ⟨edge, hedges⟩ := edges_of_count_one _ hanchor.2.2
  obtain ⟨next_node, hnext⟩ := Option.isSome_iff_exists.mp (hlive edge (by rw [hedges]; simp))
  simp only [hedges, List.head?_cons, hnext, hout, if_true, ite_self]

theorem fuseAt_graph_output_never (env : Env) (graph : Graph G) (r : Refs) (index : Nat)
    (node : Node G) (hout : graph.NodeProducesGraphOutput node = true) :
    ApplyImpl.fuseAt env graph r index node = .ok (graph, r) ∨
      ApplyImpl.fuseAt env graph r index node = .fault .dangling_edge := by
  unfold ApplyImpl.fuseAt
  split
  · exact Or.inl rfl
  rename_i hanchor
  simp only [not_or, Bool.not_eq_false, ne_eq, not_not] at hanchor
  obtain ⟨edge, hedges⟩ := edges_of_count_one _ hanchor.2.2
  simp only [hedges, List.head?_cons]
  split
  · exact Or.inr rfl
  simp only [hout, if_true, ite_self]
  exact Or.inl trivial

/-- C7 (graph-output rejection). At a live node that produces a graph-level
output the iteration of `ApplyImpl` never commits a fusion, on the fast path and
on the generic path alike and whatever the consumer is: once `Recurse` returns
OK, the only results possible are OK with the graph in which only the subgraphs
of that node were written back, or the fault of following a consumer edge that
references no live node. When the consumer edges reference live nodes (an edge
end holds a node reference in the source) the iteration returns OK; every node
that was live is still live, and when `Recurse` changed no subgraph (always so
for a node that owns none, as a Conv does) the graph is the one given and
`modified` is untouched. -/
theorem C7_graph_output_rejection (env : Env) (apply : G → Refs → Outcome (G × Refs))
    (graph : Graph G) (r r1 : Refs) (index : NodeIndex) (node : Node G)
    (subgraphs : List (String × G))
    (hnode : graph.GetNode index = some node)
    (hrec : Recurse apply node.Subgraphs r = .ok (subgraphs, r1))
    (hout : graph.NodeProducesGraphOutput node = true) :
    (ApplyImpl.body env apply (graph, r) index =
        .ok (graph.SetSubgraphs index subgraphs, r1) ∨
      ApplyImpl.body env apply (graph, r) index = .fault .dangling_edge) ∧
    ((∀ edge ∈ node.OutputEdges, (graph.GetNode edge.node).isSome = true) →
      ApplyImpl.body env apply (graph, r) index =
          .ok (graph.SetSubgraphs index subgraphs, r1) ∧
        (node.Subgraphs = [] →
          ApplyImpl.body env apply (graph, r) index = .ok (graph, r))) ∧
    (∀ k, ((graph.SetSubgraphs index subgraphs).GetNode k).isSome = (graph.GetNode k).isSome) ∧
    (∀ k, k ≠ index → (graph.SetSubgraphs index subgraphs).GetNode k = graph.GetNode k) ∧
    (graph.SetSubgraphs index subgraphs).GetNode index =
      some { node with Subgraphs := subgraphs } ∧
    (subgraphs = node.Subgraphs → graph.SetSubgraphs index subgraphs = graph) := by
  have hout1 : (graph.SetSubgraphs index subgraphs).NodeProducesGraphOutput
      { node with Subgraphs := subgraphs } = true := by
    simp only [Graph.NodeProducesGraphOutput, Graph.SetSubgraphs,
      updateNode_graph_outputs] at hout ⊢
    exact hout
  have hbody := body_eq env apply graph r r1 index node subgraphs hnode hrec
  refine ⟨?_, ?_, ?_, ?_, setSubgraphs_getNode_same graph index node subgraphs hnode, ?_⟩
  · rw [hbody]
    exact fuseAt_graph_output_never env _ r1 index _ hout1
  · intro hlive
    have hok : ApplyImpl.body env apply (graph, r) index =
        .ok (graph.SetSubgraphs index subgraphs, r1) := by
      rw [hbody]
      refine fuseAt_graph_output env _ r1 index _ ?_ hout1
      intro edge hedge
      rw [Graph.SetSubgraphs, getNode_updateNode_isSome]
      exact hlive edge hedge
    refine ⟨hok, ?_⟩
    intro hs
    rw [hs] at hrec
    simp only [Recurse] at hrec
    cases ok_inj hrec
    rw [hok, ← hs, setSubgraphs_same graph index node hnode]
  · intro k
    exact getNode_updateNode_isSome graph index k _
  · intro k hk
    exact setSubgraphs_getNode_ne graph index k subgraphs (fun h => hk h.symm)
  · intro hs
    rw [hs]
    exact setSubgraphs_same graph index node hnode

theorem fuseOther_leaky_null (env : Env) (graph : Graph G) (r : Refs) (index : Nat)
    (node : Node G) (next_index : Nat) (next_node : Node G)
    (hleaky : IsSupportedOptypeVersionAndDomain next_node "LeakyRelu" [6] = true)
    (halpha : GetNodeAttribute next_node "alpha" = none) :
    ApplyImpl.fuseOther env graph r index node next_index next_node =
      .fault .null_attribute := by
  unfold ApplyImpl.fuseOther
  simp only [supported_other_false next_node "LeakyRelu" "Relu" _ [6, 13, 14] hleaky (by decide),
    supported_other_false next_node "LeakyRelu" "Sigmoid" _ [6, 13] hleaky (by decide),
    supported_other_false next_node "LeakyRelu" "Tanh" _ [6, 13] hleaky (by decide),
    hleaky, halpha, and_self, if_true]

/-- At an anchor of the generic path whose sole consumer is a version-6 LeakyRelu
without an `alpha` attribute, the iteration dereferences the null pointer of the
attribute lookup whatever the rest of the graph is. -/
theorem body_leaky_relu_without_alpha (env : Env) (apply : G → Refs → Outcome (G × Refs))
    (graph : Graph G) (r r1 : Refs) (index : Nat) (node next_node : Node G)
    (edge : EdgeEnd) (subgraphs : List (String × G))
    (hnode : graph.GetNode index = some node)
    (hrec : Recurse apply node.Subgraphs r = .ok (subgraphs, r1))
    (ha : ApplyImpl.Anchor env graph node edge next_node)
    (hgeneric : node.ExecutionProviderType ≠ kCudaExecutionProvider)
    (hleaky : IsSupportedOptypeVersionAndDomain next_node "LeakyRelu" [6] = true)
    (halpha : GetNodeAttribute next_node "alpha" = none) :
    ApplyImpl.body env apply (graph, r) index = .fault .null_attribute := by
  have hop := optype_of_supported _ _ _ hleaky
  have hne : index ≠ edge.node := index_ne_of_optype graph _ _ _ _ hnode ha.2.2.2.1 (by
    rw [optype_of_supported _ _ _ ha.1, hop]; decide)
  have ha1 := anchor_setSubgraphs env graph index node edge next_node subgraphs hne ha
  rw [body_eq env apply graph r r1 index node subgraphs hnode hrec,
    fuseAt_of_anchor env _ r1 index _ edge next_node ha1]
  simp only [hgeneric, if_false]
  exact fuseOther_leaky_null env _ r1 index _ edge.node next_node hleaky halpha

/-- C2 at `Conv -> Add(B, Y) -> Relu`: the three nodes are replaced by one
`FusedConv` with inputs `X, W, B`. -/
theorem C2_three_node_add_relu_fusion_witness :
    ∃ (graph' : Graph Empty) (fused : Node Empty),
      ApplyImpl.body Example.env Example.noSubgraphs
          (Example.convAddRelu ["B", "Y"], ⟨false, []⟩) 0 =
        .ok (graph', ⟨true, [⟨[0, 1, 2], 3⟩]⟩) ∧
      graph'.GetNode 0 = none ∧ graph'.GetNode 1 = none ∧ graph'.GetNode 2 = none ∧
      graph'.NumberOfNodes + 2 = 3 ∧
      graph'.GetNode 3 = some fused ∧
      fused.InputDefs = [Example.arg "X", Example.arg "W", Example.arg "B"] ∧
      fused.Attributes = [("activation", .s "Relu"), ("group", .other 1)] := by
  obtain ⟨graph', fused, h1, h2, h3, h4, _, h6, _, h8, _, _, h11, h12⟩ :=
    C2_three_node_add_relu_fusion Example.env Example.noSubgraphs
      (Example.convAddRelu ["B", "Y"]) ⟨false, []⟩ ⟨false, []⟩ 0
      (Example.conv kCudaExecutionProvider [⟨1, 0, 1⟩])
      (Example.op "add" "Add" 14 kCudaExecutionProvider ["B", "Y"] "S" [] [⟨2, 0, 0⟩])
      (Example.op "relu" "Relu" 14 kCudaExecutionProvider ["S"] "Z" [] [])
      ⟨1, 0, 1⟩ ⟨2, 0, 0⟩ [] (Example.arg "X") (Example.arg "Y") (Example.arg "Y")
      (Example.arg "B")
      (by decide) (by decide) (by decide) (by decide) (by decide) (by decide) (by decide)
      (by decide) (by decide) (by decide) (by decide) (by decide) (by decide) (by decide)
      (by decide) (by decide) (by decide) (by decide) (by decide) (by decide)
  exact ⟨graph', fused, h1, h2, h3, h4, h6, h8, h11, h12⟩

/-- C3 at `Conv -> Add(B, C) -> Relu`: the candidate is rejected by the counts
after both Add inputs were appended to the local input list; graph and flag are
what they were. -/
theorem C3_rejection_is_atomic_witness :
    ApplyImpl.body Example.env (ApplyImplNested Example.env 0)
        (Example.convAddRelu ["B", "C"], ⟨false, []⟩) 0 =
      .ok (Example.convAddRelu ["B", "C"], ⟨false, []⟩) ∧
    ApplyImpl.add_inputs_loop [Example.arg "Y"] [Example.arg "B", Example.arg "C"]
        ([Example.arg "X", Example.arg "W"], 0, 0) =
      some ([Example.arg "X", Example.arg "W", Example.arg "B", Example.arg "C"], 0, 2) ∧
    (Example.convAddRelu ["B", "C"] = Example.convAddRelu ["B", "C"] ∧ false = false) :=
  ⟨by decide, by decide,
    C3_rejection_is_atomic Example.env 0 (Example.convAddRelu ["B", "C"])
      (Example.convAddRelu ["B", "C"]) ⟨false, []⟩ ⟨false, []⟩ 0 (by decide) rfl⟩

/-- C4 at `Conv -> Relu` on the CPU provider: one fusion of two nodes is logged
and the graph goes from two nodes to one. -/
theorem C4_node_count_law_witness :
    ApplyImpl.body Example.env Example.noSubgraphs
        (Example.convAct kCpuExecutionProvider "Relu" 14 [], ⟨false, []⟩) 0 =
      .ok (Example.convActFused "Relu" [], ⟨true, [⟨[0, 1], 2⟩]⟩) ∧
    (Example.convAct kCpuExecutionProvider "Relu" 14 []).NumberOfNodes = 2 ∧
    (Example.convActFused "Relu" []).NumberOfNodes = 1 ∧
    ∃ (fusion : Fusion) (edge : EdgeEnd),
      [(⟨[0, 1], 2⟩ : Fusion)] = [] ++ [fusion] ∧
      (Example.conv kCpuExecutionProvider [⟨1, 0, 0⟩]).OutputEdges = [edge] ∧
      ((fusion.nodes = [0, edge.node] ∧
          (Example.convActFused "Relu" []).NumberOfNodes + 1 =
            (Example.convAct kCpuExecutionProvider "Relu" 14 []).NumberOfNodes) ∨
       (∃ (add_node : Node Empty) (last_edge : EdgeEnd),
          (Example.convAct kCpuExecutionProvider "Relu" 14 []).GetNode edge.node =
            some add_node ∧
          add_node.OutputEdges = [last_edge] ∧
          fusion.nodes = [0, edge.node, last_edge.node] ∧
          (Example.convActFused "Relu" []).NumberOfNodes + 2 =
            (Example.convAct kCpuExecutionProvider "Relu" 14 []).NumberOfNodes)) :=
  ⟨by decide, by decide, by decide,
    C4_node_count_law Example.env Example.noSubgraphs
      (Example.convAct kCpuExecutionProvider "Relu" 14 []) (Example.convActFused "Relu" [])
      ⟨false, []⟩ ⟨false, []⟩ ⟨true, [⟨[0, 1], 2⟩]⟩ 0
      (Example.conv kCpuExecutionProvider [⟨1, 0, 0⟩]) []
      (by decide) (by decide) (by decide) (by decide)⟩

/-- C5 at `Conv -> Add(B, C) -> Relu`, which has nothing to fuse: the pass
returns the graph it was given with `modified = false`, and so does the next
invocation. -/
theorem C5_unmodified_means_unchanged_witness :
    ConvActivationFusion.ApplyImpl Example.env 0 (Example.convAddRelu ["B", "C"])
        ⟨false, []⟩ = .ok (Example.convAddRelu ["B", "C"], ⟨false, []⟩) ∧
    ((false = true ↔ ([] : List Fusion) ≠ []) ∧
     (false = false →
      Example.convAddRelu ["B", "C"] = Example.convAddRelu ["B", "C"] ∧
      ConvActivationFusion.ApplyImpl Example.env 0 (Example.convAddRelu ["B", "C"])
          ⟨false, []⟩ = .ok (Example.convAddRelu ["B", "C"], ⟨false, []⟩) ∧
      ∀ graph'' r'',
        ConvActivationFusion.ApplyImpl Example.env 0 (Example.convAddRelu ["B", "C"])
            ⟨false, []⟩ = .ok (graph'', r'') →
          graph'' = Example.convAddRelu ["B", "C"] ∧ r''.modified = false)) :=
  ⟨by decide,
    C5_unmodified_means_unchanged Example.env 0 (Example.convAddRelu ["B", "C"])
      (Example.convAddRelu ["B", "C"]) ⟨false, []⟩ ⟨false, []⟩ (by decide) rfl⟩

/-- C7 at `Conv -> Relu` where the Conv output is a graph output: the iteration
returns the graph and the flag untouched, and so does the whole pass. -/
theorem C7_graph_output_rejection_witness :
    ApplyImpl.body Example.env Example.noSubgraphs (Example.convGraphOutput, ⟨false, []⟩) 0 =
      .ok (Example.convGraphOutput, ⟨false, []⟩) ∧
    ConvActivationFusion.ApplyImpl Example.env 0 Example.convGraphOutput ⟨false, []⟩ =
      .ok (Example.convGraphOutput, ⟨false, []⟩) :=
  ⟨((C7_graph_output_rejection Example.env Example.noSubgraphs Example.convGraphOutput
    ⟨false, []⟩ ⟨false, []⟩ 0
    (Example.conv kCpuExecutionProvider [⟨1, 0, 0⟩]) []
    (by decide) (by decide) (by decide)).2.1 (by decide)).2 rfl, by decide⟩

/-- C9: the pass on a model whose LeakyRelu has no `alpha` attribute. The source
evaluates `graph_utils::GetNodeAttribute(next_node, "alpha")->f()` on the null
pointer the lookup returns: the invocation has undefined behaviour and returns
no `Status` at all, neither at the failing candidate alone nor after an earlier
fusion of the same invocation. -/
theorem C9_leaky_relu_without_alpha_faults :
    ApplyImpl.body Example.env Example.noSubgraphs
        (Example.convAct kCpuExecutionProvider "LeakyRelu" 6 [], ⟨false, []⟩) 0 =
      .fault .null_attribute ∧
    ConvActivationFusion.ApplyImpl Example.env 0
        (Example.convAct kCpuExecutionProvider "LeakyRelu" 6 []) ⟨false, []⟩ =
      .fault .null_attribute ∧
    ConvActivationFusion.ApplyImpl Example.env 0 Example.reluThenLeakyNoAlpha
        ⟨false, []⟩ = .fault .null_attribute := by
  decide

/-- The pass recurses into subgraphs: a `Conv -> Relu` pair inside the branch of
an `If` node is fused there, and the outer invocation reports the modification. -/
theorem Example.pass_fuses_inside_subgraph :
    ConvActivationFusion.ApplyImpl Example.env 1
        (Example.ifNode (Example.convAct kCpuExecutionProvider "Relu" 14 [])) ⟨false, []⟩ =
      .ok (Example.ifNode (Example.convActFused "Relu" []), ⟨true, [⟨[0, 1], 2⟩]⟩) := by
  decide

/-- An iteration that logs a fusion of its own after `Recurse`: the shape of the
commit, in terms of the graph before the iteration. -/
theorem body_commit (env : Env) (apply : G → Refs → Outcome (G × Refs))
    (graph graph' : Graph G) (r r1 r' : Refs) (index : Nat) (node : Node G)
    (subgraphs : List (String × G))
    (hnode : graph.GetNode index = some node)
    (hrec : Recurse apply node.Subgraphs r = .ok (subgraphs, r1))
    (h : ApplyImpl.body env apply (graph, r) index = .ok (graph', r'))
    (hcommit : r'.fusions ≠ r1.fusions) :
    ∃ (fused : Node G) (ms : List Nat) (edge : EdgeEnd) (next_node : Node G),
      graph' = (graph.SetSubgraphs index subgraphs).commit fused ms ∧
      r' = ⟨true, r1.fusions ++ [⟨ms, graph.nodes.length⟩]⟩ ∧
      ms.Nodup ∧ index ∈ ms ∧ (∀ k ∈ ms, ∃ a, graph.GetNode k = some a) ∧
      fused.OpType = "FusedConv" ∧ fused.Domain = "com.microsoft" ∧
      fused.ExecutionProviderType = node.ExecutionProviderType ∧
      ApplyImpl.Anchor env graph node edge next_node ∧
      index ≠ edge.node ∧
      (ms = [index, edge.node] ∨
        ∃ (last_edge : EdgeEnd) (last_node : Node G),
          ms = [index, edge.node, last_edge.node] ∧
          node.ExecutionProviderType = kCudaExecutionProvider ∧
          IsSupportedOptypeVersionAndDomain next_node "Add" [6, 7, 13, 14] = true ∧
          next_node.OutputEdges = [last_edge] ∧
          graph.GetNode last_edge.node = some last_node ∧
          last_node.ExecutionProviderType = node.ExecutionProviderType ∧
          IsSupportedOptypeVersionAndDomain last_node "Relu" [6, 13, 14] = true) := by
  rw [body_eq env apply graph r r1 index node subgraphs hnode hrec] at h
  have hnode1 := setSubgraphs_getNode_same graph index node subgraphs hnode
  have hlen := setSubgraphs_length graph index subgraphs
  rcases fuseAt_commit env _ graph' r1 r' index _ hnode1 h with
    ⟨_, hr⟩ | ⟨fused, ms, edge, next_node, hg, hr, hnd, hlive, hop, hdom, hfep, ha, hshape⟩
  · exact absurd (by rw [hr]) hcommit
  have hindex : index ∈ ms := by
    rcases hshape with hms | ⟨_, _, hms, _⟩ <;> rw [hms] <;> simp
  have hedge_mem : edge.node ∈ ms := by
    rcases hshape with hms | ⟨_, _, hms, _⟩ <;> rw [hms] <;> simp
  have hne : index ≠ edge.node := by
    rcases hshape with hms | ⟨_, _, hms, _⟩ <;> rw [hms] at hnd <;>
      simp only [List.nodup_cons, List.mem_cons, List.mem_singleton, not_or] at hnd
    · exact hnd.1.1
    · exact hnd.1.1
  have hback : ∀ k, index ≠ k →
      (graph.SetSubgraphs index subgraphs).GetNode k = graph.GetNode k :=
    fun k hk => setSubgraphs_getNode_ne graph index k subgraphs hk
  have hlive0 : ∀ k ∈ ms, ∃ a, graph.GetNode k = some a := by
    intro k hk
    by_cases hki : index = k
    · exact ⟨node, hki ▸ hnode⟩
    · obtain ⟨a, ha⟩ := hlive k hk
      exact ⟨a, by rw [← hback k hki]; exact ha⟩
  obtain ⟨a1, a2, a3, a4, a5, a6⟩ := ha
  have ha0 : ApplyImpl.Anchor env graph node edge next_node := by
    refine ⟨a1, a2, a3, ?_, a5, ?_⟩
    · rw [← hback _ hne]
      exact a4
    · simp only [Graph.NodeProducesGraphOutput, Graph.SetSubgraphs,
        updateNode_graph_outputs] at a6 ⊢
      exact a6
  refine ⟨fused, ms, edge, next_node, hg, by rw [hr, hlen], hnd, hindex, hlive0, hop, hdom,
    hfep, ha0, hne, ?_⟩
  rcases hshape with hms | ⟨last_edge, last_node, hms, hcuda, hadd, hle, hlast, hlep, hrelu⟩
  · exact Or.inl hms
  · have hne2 : index ≠ last_edge.node := by
      rw [hms] at hnd
      simp only [List.nodup_cons, List.mem_cons, List.mem_singleton, not_or] at hnd
      exact hnd.1.2.1
    exact Or.inr ⟨last_edge, last_node, hms, hcuda, hadd, hle, by rw [← hback _ hne2]; exact hlast,
      hlep, hrelu⟩

/-- C12 (provider agreement). When the iteration of `ApplyImpl` at a live node
commits a fusion of its own, every matched node (the Conv anchor, its consumer,
and in the three-node case the consumer's consumer) is a live node assigned the
anchor's execution provider, and the node created in the next free slot is
assigned that same provider. -/
theorem C12_provider_agreement (env : Env) (apply : G → Refs → Outcome (G × Refs))
    (graph graph' : Graph G) (r r1 r' : Refs) (index : NodeIndex) (node : Node G)
    (subgraphs : List (String × G))
    (hnode : graph.GetNode index = some node)
    (hrec : Recurse apply node.Subgraphs r = .ok (subgraphs, r1))
    (h : ApplyImpl.body env apply (graph, r) index = .ok (graph', r'))
    (hcommit : r'.fusions ≠ r1.fusions) :
    ∃ (fusion : Fusion) (fused : Node G),
      r'.fusions = r1.fusions ++ [fusion] ∧
      fusion.nodes.head? = some index ∧
      (fusion.nodes.length = 2 ∨ fusion.nodes.length = 3) ∧
      (∀ m ∈ fusion.nodes, ∃ matched, graph.GetNode m = some matched ∧
        matched.ExecutionProviderType = node.ExecutionProviderType) ∧
      fusion.replacement = graph.nodes.length ∧
      graph'.GetNode fusion.replacement = some fused ∧
      fused.ExecutionProviderType = node.ExecutionProviderType := by
  obtain ⟨fused, ms, edge, next_node, hg, hr, hnd, hindex, hlive, _, _, hfep, ha, _, hshape⟩ :=
    body_commit env apply graph graph' r r1 r' index node subgraphs hnode hrec h hcommit
  obtain ⟨_, _, _, _, f, c5, c6⟩ :=
    commit_after_recurse graph index subgraphs fused ms hindex hnd hlive
  obtain ⟨_, _, _, _, _, _, _, e8, _⟩ := erase_eq_fields _ _ c6
  have hnext := ha.2.2.2.1
  have hnep := ha.2.2.2.2.1
  refine ⟨⟨ms, graph.nodes.length⟩, f, by rw [hr], ?_, ?_, ?_, rfl, by rw [hg]; exact c5,
    e8.trans hfep⟩
  · rcases hshape with hms | ⟨_, _, hms, _⟩ <;> rw [hms] <;> rfl
  · rcases hshape with hms | ⟨_, _, hms, _⟩ <;> rw [hms]
    · exact Or.inl rfl
    · exact Or.inr rfl
  · intro m hm
    rcases hshape with hms | ⟨last_edge, last_node, hms, _, _, _, hlast, hlep, _⟩
    · rw [hms] at hm
      simp only [List.mem_cons, List.mem_singleton, List.not_mem_nil, or_false] at hm
      rcases hm with rfl | rfl
      · exact ⟨node, hnode, rfl⟩
      · exact ⟨next_node, hnext, hnep⟩
    · rw [hms] at hm
      simp only [List.mem_cons, List.mem_singleton, List.not_mem_nil, or_false] at hm
      rcases hm with rfl | rfl | rfl
      · exact ⟨node, hnode, rfl⟩
      · exact ⟨next_node, hnext, hnep⟩
      · exact ⟨last_node, hlast, hlep⟩

/-- The interior constraints the pass does check before a commit: the Conv has
exactly one consumer edge and produces no graph output, and in the three-node
case the Add has exactly one consumer edge. -/
theorem body_commit_interior (env : Env) (apply : G → Refs → Outcome (G × Refs))
    (graph graph' : Graph G) (r r1 r' : Refs) (index : Nat) (node : Node G)
    (subgraphs : List (String × G))
    (hnode : graph.GetNode index = some node)
    (hrec : Recurse apply node.Subgraphs r = .ok (subgraphs, r1))
    (h : ApplyImpl.body env apply (graph, r) index = .ok (graph', r'))
    (hcommit : r'.fusions ≠ r1.fusions) :
    ∃ (fusion : Fusion) (edge : EdgeEnd),
      r'.fusions = r1.fusions ++ [fusion] ∧
      node.GetOutputEdgesCount = 1 ∧
      graph.NodeProducesGraphOutput node = false ∧
      node.OutputEdges = [edge] ∧
      (fusion.nodes = [index, edge.node] ∨
        ∃ (add_node : Node G) (last_edge : EdgeEnd),
          graph.GetNode edge.node = some add_node ∧
          add_node.GetOutputEdgesCount = 1 ∧
          add_node.OutputEdges = [last_edge] ∧
          fusion.nodes = [index, edge.node, last_edge.node]) := by
  obtain ⟨fused, ms, edge, next_node, _, hr, _, _, _, _, _, _, ha, _, hshape⟩ :=
    body_commit env apply graph graph' r r1 r' index node subgraphs hnode hrec h hcommit
  obtain ⟨_, _, hedges, hnext, _, hout⟩ := ha
  refine ⟨⟨ms, graph.nodes.length⟩, edge, by rw [hr], by simp [Node.GetOutputEdgesCount, hedges],
    hout, hedges, ?_⟩
  rcases hshape with hms | ⟨last_edge, _, hms, _, _, hle, _⟩
  · exact Or.inl hms
  · exact Or.inr ⟨next_node, last_edge, hnext, by simp [Node.GetOutputEdgesCount, hle], hle, hms⟩

/-- C13: the interior Add is not checked for graph outputs. In
`Conv -> Add -> Relu` on the CUDA provider where the Add's output `S` is a graph
output, line 38 tests the Conv only: the three nodes are fused although the Add
produces a graph output, and afterwards no node of the graph produces `S`. -/
theorem C13_add_graph_output_is_fused_away :
    Example.convAddOutputRelu.GetNode 1 =
      some (Example.op "add" "Add" 14 kCudaExecutionProvider ["B", "Y"] "S" [] [⟨2, 0, 0⟩]) ∧
    Example.convAddOutputRelu.NodeProducesGraphOutput
      (Example.op "add" "Add" 14 kCudaExecutionProvider ["B", "Y"] "S" [] [⟨2, 0, 0⟩]) = true ∧
    Example.convAddOutputRelu.Produces "S" = true ∧
    ApplyImpl.body Example.env Example.noSubgraphs (Example.convAddOutputRelu, ⟨false, []⟩) 0 =
      .ok (Example.convAddOutputReluFused, ⟨true, [⟨[0, 1, 2], 3⟩]⟩) ∧
    ConvActivationFusion.ApplyImpl Example.env 0 Example.convAddOutputRelu ⟨false, []⟩ =
      .ok (Example.convAddOutputReluFused, ⟨true, [⟨[0, 1, 2], 3⟩]⟩) ∧
    Example.convAddOutputReluFused.graph_outputs = ["S", "Z"] ∧
    Example.convAddOutputReluFused.Produces "S" = false := by
  decide

theorem body_absent (env : Env) (apply : G → Refs → Outcome (G × Refs))
    (state : Graph G × Refs) (index : Nat) (h : state.1.GetNode index = none) :
    ApplyImpl.body env apply state index = .ok state := by
  unfold ApplyImpl.body
  simp only [h]

/-- What one iteration does to the arena: it never shrinks, and a slot that is
absent stays absent. -/
theorem body_arena (env : Env) (apply : G → Refs → Outcome (G × Refs))
    (graph graph' : Graph G) (r r' : Refs) (index : Nat)
    (h : ApplyImpl.body env apply (graph, r) index = .ok (graph', r')) :
    graph.nodes.length ≤ graph'.nodes.length ∧
    ∀ k, k < graph.nodes.length → graph.GetNode k = none → graph'.GetNode k = none := by
  cases hnode : graph.GetNode index with
  | none =>
    rw [body_absent env apply (graph, r) index hnode] at h
    cases ok_inj h
    exact ⟨Nat.le_refl _, fun _ _ hk => hk⟩
  | some node =>
    unfold ApplyImpl.body at h
    simp only [hnode] at h
    split at h
    · exact absurd h (by simp)
    · exact absurd h (by simp)
    rename_i subgraphs r1 hrec
    have hnode1 := setSubgraphs_getNode_same graph index node subgraphs hnode
    have hlen := setSubgraphs_length graph index subgraphs
    rcases fuseAt_commit env _ graph' r1 r' index _ hnode1 h with
      ⟨hg, _⟩ | ⟨fused, ms, _, _, hg, _, _, _, _⟩
    · subst hg
      refine ⟨by rw [hlen], ?_⟩
      intro k _ hk
      have hne : index ≠ k := by
        intro heq
        rw [heq] at hnode
        rw [hnode] at hk
        cases hk
      rw [setSubgraphs_getNode_ne graph index k subgraphs hne]
      exact hk
    · subst hg
      refine ⟨by rw [commit_length, hlen]; exact Nat.le_succ _, ?_⟩
      intro k hlt hk
      have hne : index ≠ k := by
        intro heq
        rw [heq] at hnode
        rw [hnode] at hk
        cases hk
      by_cases hmem : k ∈ ms
      · exact commit_getNode_mem _ _ _ _ hmem
      · have := commit_getNode_other (graph.SetSubgraphs index subgraphs) fused ms k hmem
          (by rw [hlen]; exact hlt)
        rw [setSubgraphs_getNode_ne graph index k subgraphs hne, hk] at this
        simpa using this

theorem loop_arena (env : Env) (apply : G → Refs → Outcome (G × Refs)) (order : List Nat) :
    ∀ (graph graph' : Graph G) (r r' : Refs),
      ApplyImpl.loop env apply order (graph, r) = .ok (graph', r') →
      graph.nodes.length ≤ graph'.nodes.length ∧
      ∀ k, k < graph.nodes.length → graph.GetNode k = none → graph'.GetNode k = none := by
  induction order with
  | nil =>
    intro graph graph' r r' h
    simp only [ApplyImpl.loop] at h
    cases ok_inj h
    exact ⟨Nat.le_refl _, fun _ _ hk => hk⟩
  | cons index rest ih =>
    intro graph graph' r r' h
    simp only [ApplyImpl.loop] at h
    split at h
    · exact absurd h (by simp)
    · exact absurd h (by simp)
    rename_i state1 hbody
    obtain ⟨graph1, r1⟩ := state1
    obtain ⟨hl1, hd1⟩ := body_arena env apply _ _ _ _ _ hbody
    obtain ⟨hl2, hd2⟩ := ih _ _ _ _ h
    exact ⟨Nat.le_trans hl1 hl2,
      fun k hlt hk => hd2 k (Nat.lt_of_lt_of_le hlt hl1) (hd1 k hlt hk)⟩

/-- C14 (post-commit invalidation). When the iteration of `ApplyImpl` at a live
node commits a fusion, the identifier of every matched node is a slot of the
arena that looks up as absent right after the commit. It still looks up as
absent after any further iterations of the same traversal, and when the
traversal reaches such an identifier the iteration returns OK with the graph,
the fusion log and `modified` exactly as they were. -/
theorem C14_matched_nodes_stay_absent (env : Env) (apply : G → Refs → Outcome (G × Refs))
    (graph graph1 graph2 : Graph G) (r r1 r' r2 : Refs) (index : NodeIndex) (node : Node G)
    (subgraphs : List (String × G)) (later : List NodeIndex)
    (hnode : graph.GetNode index = some node)
    (hrec : Recurse apply node.Subgraphs r = .ok (subgraphs, r1))
    (h : ApplyImpl.body env apply (graph, r) index = .ok (graph1, r'))
    (hcommit : r'.fusions ≠ r1.fusions)
    (hlater : ApplyImpl.loop env apply later (graph1, r') = .ok (graph2, r2)) :
    ∃ fusion : Fusion,
      r'.fusions = r1.fusions ++ [fusion] ∧
      index ∈ fusion.nodes ∧
      ∀ m ∈ fusion.nodes,
        m < graph1.nodes.length ∧
        graph1.GetNode m = none ∧
        graph2.GetNode m = none ∧
        ApplyImpl.body env apply (graph2, r2) m = .ok (graph2, r2) := by
  obtain ⟨fused, ms, _, _, hg, hr, hnd, hindex, hlive, _⟩ :=
    body_commit env apply graph graph1 r r1 r' index node subgraphs hnode hrec h hcommit
  obtain ⟨c1, _, c3, _, _⟩ := commit_after_recurse graph index subgraphs fused ms hindex hnd hlive
  rw [← hg] at c1 c3
  refine ⟨⟨ms, graph.nodes.length⟩, by rw [hr], hindex, ?_⟩
  intro m hm
  obtain ⟨a, ha⟩ := hlive m hm
  have hlt : m < graph1.nodes.length :=
    Nat.lt_of_lt_of_le (getNode_lt _ _ _ ha) (by rw [c1]; exact Nat.le_succ _)
  have hdead := (loop_arena env apply later _ _ _ _ hlater).2 m hlt (c3 m hm)
  exact ⟨hlt, c3 m hm, hdead, body_absent env apply (graph2, r2) m hdead⟩

theorem fuseCuda_not_float (env : Env) (graph : Graph G) (r : Refs) (index : Nat)
    (node : Node G) (next_index : Nat) (next_node : Node G) (input0 : NodeArg)
    (type_proto : TypeProto)
    (hin : node.InputDefs.head? = some input0) (htp : input0.TypeAsProto = some type_proto)
    (hnf : type_proto.elem_type ≠ TensorProto_DataType_FLOAT) :
    ApplyImpl.fuseCuda env graph r index node next_index next_node = .ok (graph, r) := by
  unfold ApplyImpl.fuseCuda
  simp only [hin, htp, hnf, ne_eq, not_false_eq_true, if_true]

theorem fuseAt_cuda_not_float (env : Env) (graph : Graph G) (r : Refs) (index : Nat)
    (node : Node G) (input0 : NodeArg) (type_proto : TypeProto)
    (hcuda : node.ExecutionProviderType = kCudaExecutionProvider)
    (hin : node.InputDefs.head? = some input0) (htp : input0.TypeAsProto = some type_proto)
    (hnf : type_proto.elem_type ≠ TensorProto_DataType_FLOAT) :
    (ApplyImpl.fuseAt env graph r index node = .ok (graph, r) ∨
      ApplyImpl.fuseAt env graph r index node = .fault .dangling_edge) ∧
    ((∀ edge ∈ node.OutputEdges, (graph.GetNode edge.node).isSome = true) →
      ApplyImpl.fuseAt env graph r index node = .ok (graph, r)) := by
  unfold ApplyImpl.fuseAt
  split
  · exact ⟨Or.inl rfl, fun _ => rfl⟩
  rename_i hanchor
  simp only [not_or, Bool.not_eq_false, ne_eq, not_not] at hanchor
  obtain ⟨edge, hedges⟩ := edges_of_count_one _ hanchor.2.2
  simp only [hedges, List.head?_cons]
  cases hnext : graph.GetNode edge.node with
  | none =>
    refine ⟨Or.inr rfl, ?_⟩
    intro hlive
    have := hlive edge (List.mem_singleton.mpr rfl)
    rw [hnext] at this
    cases this
  | some next_node =>
    have hfc := fuseCuda_not_float env graph r index node edge.node next_node input0
      type_proto hin htp hnf
    simp only [hcuda, if_true, hfc, ite_self, ne_eq, reduceCtorEq, or_false, implies_true,
      and_self]

/-- C16 (fast-path element type). At a live node assigned the CUDA provider whose
first input has a tensor element type other than float, the iteration of
`ApplyImpl` never commits a fusion, whatever the consumer is: once `Recurse`
returns OK the only results possible are OK with the graph in which only the
subgraphs of that node were written back, or the fault of following a consumer
edge that references no live node. When the consumer edges reference live nodes
(an edge end holds a node reference in the source) the iteration returns OK, and
for a node that owns no subgraph, as a Conv does, graph, fusion log and
`modified` are exactly what they were. -/
theorem C16_fast_path_element_type (env : Env) (apply : G → Refs → Outcome (G × Refs))
    (graph : Graph G) (r r1 : Refs) (index : NodeIndex) (node : Node G)
    (subgraphs : List (String × G)) (input0 : NodeArg) (type_proto : TypeProto)
    (hnode : graph.GetNode index = some node)
    (hrec : Recurse apply node.Subgraphs r = .ok (subgraphs, r1))
    (hcuda : node.ExecutionProviderType = kCudaExecutionProvider)
    (hin : node.InputDefs.head? = some input0)
    (htp : input0.TypeAsProto = some type_proto)
    (hnf : type_proto.elem_type ≠ TensorProto_DataType_FLOAT) :
    (ApplyImpl.body env apply (graph, r) index =
        .ok (graph.SetSubgraphs index subgraphs, r1) ∨
      ApplyImpl.body env apply (graph, r) index = .fault .dangling_edge) ∧
    ((∀ edge ∈ node.OutputEdges, (graph.GetNode edge.node).isSome = true) →
      ApplyImpl.body env apply (graph, r) index =
          .ok (graph.SetSubgraphs index subgraphs, r1) ∧
        (node.Subgraphs = [] →
          ApplyImpl.body env apply (graph, r) index = .ok (graph, r))) ∧
    (∀ k, ((graph.SetSubgraphs index subgraphs).GetNode k).isSome = (graph.GetNode k).isSome) ∧
    (∀ k, k ≠ index → (graph.SetSubgraphs index subgraphs).GetNode k = graph.GetNode k) ∧
    (subgraphs = node.Subgraphs → graph.SetSubgraphs index subgraphs = graph) := by
  have hbody := body_eq env apply graph r r1 index node subgraphs hnode hrec
  obtain ⟨hnever, hok⟩ := fuseAt_cuda_not_float env (graph.SetSubgraphs index subgraphs) r1 index
    { node with Subgraphs := subgraphs } input0 type_proto hcuda hin htp hnf
  refine ⟨by rw [hbody]; exact hnever, ?_, ?_, ?_, ?_⟩
  · intro hlive
    have hok1 : ApplyImpl.body env apply (graph, r) index =
        .ok (graph.SetSubgraphs index subgraphs, r1) := by
      rw [hbody]
      apply hok
      intro edge hedge
      rw [Graph.SetSubgraphs, getNode_updateNode_isSome]
      exact hlive edge hedge
    refine ⟨hok1, ?_⟩
    intro hs
    rw [hs] at hrec
    simp only [Recurse] at hrec
    cases ok_inj hrec
    rw [hok1, ← hs, setSubgraphs_same graph index node hnode]
  · intro k
    exact getNode_updateNode_isSome graph index k _
  · intro k hk
    exact setSubgraphs_getNode_ne graph index k subgraphs (fun h => hk h.symm)
  · intro hs
    rw [hs]
    exact setSubgraphs_same graph index node hnode

theorem supported_false_of_optype (n : Node G) (op : String) (vs : List Int)
    (h : n.OpType ≠ op) : IsSupportedOptypeVersionAndDomain n op vs = false := by
  simp only [IsSupportedOptypeVersionAndDomain, decide_eq_false_iff_not, not_and]
  intro h2
  exact absurd h2 h

theorem fuseCuda_other_consumer (env : Env) (graph : Graph G) (r : Refs) (index : Nat)
    (node : Node G) (next_index : Nat) (next_node : Node G)
    (hrelu : next_node.OpType ≠ "Relu") (hadd : next_node.OpType ≠ "Add") :
    (ApplyImpl.fuseCuda env graph r index node next_index next_node = .ok (graph, r) ∨
      ApplyImpl.fuseCuda env graph r index node next_index next_node = .fault .no_input ∨
      ApplyImpl.fuseCuda env graph r index node next_index next_node = .fault .null_type) ∧
    (∀ input0 type_proto, node.InputDefs.head? = some input0 →
      input0.TypeAsProto = some type_proto →
      ApplyImpl.fuseCuda env graph r index node next_index next_node = .ok (graph, r)) := by
  unfold ApplyImpl.fuseCuda
  cases hin : node.InputDefs.head? with
  | none =>
    refine ⟨Or.inr (Or.inl rfl), ?_⟩
    intro input0 _ h
    cases h
  | some input0 =>
    dsimp only
    cases htp : input0.TypeAsProto with
    | none =>
      refine ⟨Or.inr (Or.inr rfl), ?_⟩
      intro input0' _ h1 h2
      cases h1
      rw [htp] at h2
      cases h2
    | some type_proto =>
      simp only [supported_false_of_optype next_node "Relu" _ hrelu,
        supported_false_of_optype next_node "Add" _ hadd, Bool.false_eq_true, if_false,
        ite_self, true_or, implies_true, and_self]

theorem fuseAt_cuda_other_consumer (env : Env) (graph : Graph G) (r : Refs) (index : Nat)
    (node : Node G) (edge : EdgeEnd) (next_node : Node G)
    (hcuda : node.ExecutionProviderType = kCudaExecutionProvider)
    (hedges : node.OutputEdges = [edge])
    (hnext : graph.GetNode edge.node = some next_node)
    (hrelu : next_node.OpType ≠ "Relu") (hadd : next_node.OpType ≠ "Add") :
    (ApplyImpl.fuseAt env graph r index node = .ok (graph, r) ∨
      ApplyImpl.fuseAt env graph r index node = .fault .no_input ∨
      ApplyImpl.fuseAt env graph r index node = .fault .null_type) ∧
    (∀ input0 type_proto, node.InputDefs.head? = some input0 →
      input0.TypeAsProto = some type_proto →
      ApplyImpl.fuseAt env graph r index node = .ok (graph, r)) := by
  have hfc := fuseCuda_other_consumer env graph r index node edge.node next_node hrelu hadd
  unfold ApplyImpl.fuseAt
  split
  · exact ⟨Or.inl rfl, fun _ _ _ _ => rfl⟩
  simp only [hedges, List.head?_cons, hnext, hcuda, if_true]
  split
  · exact ⟨Or.inl rfl, fun _ _ _ _ => rfl⟩
  split
  · exact ⟨Or.inl rfl, fun _ _ _ _ => rfl⟩
  exact hfc

/-- C17 (the fast-path grammar is closed). At a live node assigned the CUDA
provider, the iteration of `ApplyImpl` commits a fusion of its own only if the
node's sole consumer is a Relu (version 6, 13 or 14), or an Add (version 6, 7, 13
or 14) whose sole consumer is such a Relu. In particular, when the sole consumer
is a live Sigmoid, Tanh, LeakyRelu, Clip or HardSigmoid node, the iteration
commits nothing: once `Recurse` returns OK its only possible results are OK with
the graph in which only the subgraphs of that node were written back, or the
fault of reading the element type of a missing first input or of a first input
of unknown type; with a typed first input it returns OK. -/
theorem C17_fast_path_grammar_closed (env : Env) (apply : G → Refs → Outcome (G × Refs))
    (graph : Graph G) (r r1 : Refs) (index : NodeIndex) (node : Node G)
    (subgraphs : List (String × G))
    (hnode : graph.GetNode index = some node)
    (hrec : Recurse apply node.Subgraphs r = .ok (subgraphs, r1))
    (hcuda : node.ExecutionProviderType = kCudaExecutionProvider) :
    (∀ graph' r', ApplyImpl.body env apply (graph, r) index = .ok (graph', r') →
      r'.fusions ≠ r1.fusions →
      ∃ (edge : EdgeEnd) (next_node : Node G),
        node.OutputEdges = [edge] ∧
        graph.GetNode edge.node = some next_node ∧
        (IsSupportedOptypeVersionAndDomain next_node "Relu" [6, 13, 14] = true ∨
          (IsSupportedOptypeVersionAndDomain next_node "Add" [6, 7, 13, 14] = true ∧
            ∃ (last_edge : EdgeEnd) (last_node : Node G),
              next_node.OutputEdges = [last_edge] ∧
              graph.GetNode last_edge.node = some last_node ∧
              IsSupportedOptypeVersionAndDomain last_node "Relu" [6, 13, 14] = true))) ∧
    (∀ (edge : EdgeEnd) (next_node : Node G),
      node.OutputEdges = [edge] →
      graph.GetNode edge.node = some next_node →
      next_node.OpType ∈ ["Sigmoid", "Tanh", "LeakyRelu", "Clip", "HardSigmoid"] →
      (ApplyImpl.body env apply (graph, r) index =
          .ok (graph.SetSubgraphs index subgraphs, r1) ∨
        ApplyImpl.body env apply (graph, r) index = .fault .no_input ∨
        ApplyImpl.body env apply (graph, r) index = .fault .null_type) ∧
      (∀ input0 type_proto, node.InputDefs.head? = some input0 →
        input0.TypeAsProto = some type_proto →
        ApplyImpl.body env apply (graph, r) index =
          .ok (graph.SetSubgraphs index subgraphs, r1))) := by
  have hbody := body_eq env apply graph r r1 index node subgraphs hnode hrec
  have hnode1 := setSubgraphs_getNode_same graph index node subgraphs hnode
  constructor
  · intro graph' r' h hcommit
    rw [hbody] at h
    rcases fuseAt_cases env _ graph' r1 r' index _ h with ⟨_, hr⟩ | ⟨edge, next_node, ha, hp⟩
    · exact absurd (by rw [hr]) hcommit
    obtain ⟨hconv, _, hedges, hnext, _, _⟩ := ha
    have hconvT : node.OpType = "Conv" := optype_of_supported _ _ _ hconv
    rcases hp with ⟨_, hp⟩ | ⟨hno, _⟩
    swap
    · exact absurd hcuda hno
    rcases fuseCuda_cases env _ graph' r1 r' index _ edge.node next_node hnext hp with
      ⟨_, hr⟩ | ⟨_, _, _, _, _, hc⟩
    · exact absurd (by rw [hr]) hcommit
    rcases hc with ⟨hrelu, _, _⟩ | ⟨_, hadd, last_edge, last_node, _, hle, hlast, _, hrelu, _⟩
    · have hne : index ≠ edge.node :=
        index_ne_of_optype _ _ _ _ _ hnode1 hnext (by
          show node.OpType ≠ next_node.OpType
          rw [hconvT, optype_of_supported _ _ _ hrelu]; decide)
      rw [setSubgraphs_getNode_ne graph index _ subgraphs hne] at hnext
      exact ⟨edge, next_node, hedges, hnext, Or.inl hrelu⟩
    · have hne : index ≠ edge.node :=
        index_ne_of_optype _ _ _ _ _ hnode1 hnext (by
          show node.OpType ≠ next_node.OpType
          rw [hconvT, optype_of_supported _ _ _ hadd]; decide)
      have hne2 : index ≠ last_edge.node :=
        index_ne_of_optype _ _ _ _ _ hnode1 hlast (by
          show node.OpType ≠ last_node.OpType
          rw [hconvT, optype_of_supported _ _ _ hrelu]; decide)
      rw [setSubgraphs_getNode_ne graph index _ subgraphs hne] at hnext
      rw [setSubgraphs_getNode_ne graph index _ subgraphs hne2] at hlast
      exact ⟨edge, next_node, hedges, hnext, Or.inr ⟨hadd, last_edge, last_node, hle, hlast,
        hrelu⟩⟩
  · intro edge next_node hedges hnext hop
    have hrelu : next_node.OpType ≠ "Relu" := by
      intro heq
      rw [heq] at hop
      revert hop
      decide
    have hadd : next_node.OpType ≠ "Add" := by
      intro heq
      rw [heq] at hop
      revert hop
      decide
    have hnext1 : (graph.SetSubgraphs index subgraphs).GetNode edge.node = some next_node ∨
        ∃ n, (graph.SetSubgraphs index subgraphs).GetNode edge.node = some n ∧
          n.OpType = next_node.OpType := by
      by_cases hne : index = edge.node
      · right
        rw [← hne, hnode1]
        rw [← hne, hnode] at hnext
        cases hnext
        exact ⟨_, rfl, rfl⟩
      · left
        rw [setSubgraphs_getNode_ne graph index _ subgraphs hne]
        exact hnext
    rw [hbody]
    rcases hnext1 with h1 | ⟨n, h1, h2⟩
    · exact fuseAt_cuda_other_consumer env _ r1 index _ edge next_node hcuda hedges h1 hrelu hadd
    · exact fuseAt_cuda_other_consumer env _ r1 index _ edge n hcuda hedges h1
        (by rw [h2]; exact hrelu) (by rw [h2]; exact hadd)

theorem ParamsFor_shape (env : Env) (graph : Graph G) (node next_node : Node G)
    (params : List float) (h : ApplyImpl.ParamsFor env graph node next_node params) :
    next_node.OpType ∈ ["Relu", "Sigmoid", "Tanh", "LeakyRelu", "Clip", "HardSigmoid"] ∧
    (next_node.OpType ∈ ["Relu", "Sigmoid", "Tanh"] → params = []) ∧
    (next_node.OpType ∈ ["LeakyRelu", "Clip", "HardSigmoid"] → params ≠ []) := by
  rcases h with ⟨h | h | h, hp⟩ | ⟨h, _, _, hp⟩ | ⟨h, _, _, _, hp⟩ | ⟨h, _, hp⟩ <;>
    have hop := optype_of_supported _ _ _ h <;>
    rw [hop] <;>
    refine ⟨by decide, ?_, ?_⟩ <;>
    intro hmem <;>
    first
      | exact hp
      | exact absurd hmem (by decide)
      | (rw [hp]; exact List.cons_ne_nil _ _)

/-- C18 (generic-path fused attributes). When the iteration of `ApplyImpl` at a
live node on a provider other than CUDA commits a fusion of its own, the matched
consumer is a Relu, Sigmoid, Tanh, LeakyRelu, Clip or HardSigmoid, and the node
created in the next free slot has exactly the anchor's inputs and the anchor's
attributes with `activation` set to the consumer's own op type and, if and only
if the extracted parameter list is non-empty, `activation_params` set to that
list. For a Relu, Sigmoid or Tanh the list is empty and the fusion writes no
`activation_params`: the entry of the new node is the anchor's own, so there is
none unless the anchor carried one. -/
theorem C18_generic_fused_attributes (env : Env) (apply : G → Refs → Outcome (G × Refs))
    (graph graph' : Graph G) (r r1 r' : Refs) (index : NodeIndex) (node : Node G)
    (subgraphs : List (String × G))
    (hnode : graph.GetNode index = some node)
    (hrec : Recurse apply node.Subgraphs r = .ok (subgraphs, r1))
    (hgeneric : node.ExecutionProviderType ≠ kCudaExecutionProvider)
    (h : ApplyImpl.body env apply (graph, r) index = .ok (graph', r'))
    (hcommit : r'.fusions ≠ r1.fusions) :
    ∃ (edge : EdgeEnd) (next_node : Node G) (params : List float) (fused : Node G),
      node.OutputEdges = [edge] ∧
      graph.GetNode edge.node = some next_node ∧
      ApplyImpl.ParamsFor env (graph.SetSubgraphs index subgraphs) node next_node params ∧
      next_node.OpType ∈ ["Relu", "Sigmoid", "Tanh", "LeakyRelu", "Clip", "HardSigmoid"] ∧
      (next_node.OpType ∈ ["Relu", "Sigmoid", "Tanh"] → params = []) ∧
      (next_node.OpType ∈ ["LeakyRelu", "Clip", "HardSigmoid"] → params ≠ []) ∧
      r'.fusions = r1.fusions ++ [⟨[index, edge.node], graph.nodes.length⟩] ∧
      graph'.GetNode graph.nodes.length = some fused ∧
      fused.OpType = "FusedConv" ∧
      fused.InputDefs = node.InputDefs ∧
      fused.Attributes = genericAttributes node.Attributes next_node.OpType params ∧
      GetNodeAttribute fused "activation" = some (.s next_node.OpType) ∧
      GetNodeAttribute fused "activation_params" =
        (if params = [] then GetNodeAttribute node "activation_params"
         else some (.floats params)) := by
  have hbody := body_eq env apply graph r r1 index node subgraphs hnode hrec
  have hnode1 := setSubgraphs_getNode_same graph index node subgraphs hnode
  have hlen := setSubgraphs_length graph index subgraphs
  rw [hbody] at h
  rcases fuseAt_cases env _ graph' r1 r' index _ h with ⟨_, hr⟩ | ⟨edge, next_node, ha, hp⟩
  · exact absurd (by rw [hr]) hcommit
  obtain ⟨hconv, _, hedges, hnext, _, _⟩ := ha
  have hconvT : node.OpType = "Conv" := optype_of_supported _ _ _ hconv
  rcases hp with ⟨hyes, _⟩ | ⟨_, hp⟩
  · exact absurd hyes hgeneric
  rcases fuseOther_cases env _ graph' r1 r' index _ edge.node next_node hnext hp with
    ⟨_, hr⟩ | ⟨params, hpar, hg, hr⟩
  · exact absurd (by rw [hr]) hcommit
  obtain ⟨s1, s2, s3⟩ := ParamsFor_shape env _ _ next_node params hpar
  have hne : index ≠ edge.node :=
    index_ne_of_optype _ _ _ _ _ hnode1 hnext (by
      show node.OpType ≠ next_node.OpType
      rw [hconvT]
      exact fun heq => ParamsFor_optype env _ _ next_node params hpar heq.symm)
  have hnext0 := hnext
  rw [setSubgraphs_getNode_ne graph index _ subgraphs hne] at hnext0
  obtain ⟨_, _, _, _, f, c5, c6⟩ := commit_after_recurse graph index subgraphs
    (fusedNode
      (env.GenerateNodeName (graph.SetSubgraphs index subgraphs) ("fused " ++ node.Name))
      ("fused Conv " ++ node.Name ++ "with activation " ++ next_node.OpType)
      node.InputDefs (genericAttributes node.Attributes next_node.OpType params)
      node.ExecutionProviderType) [index, edge.node] (by simp) (by simp [hne]) (by
      intro m hm
      simp only [List.mem_cons, List.mem_singleton, List.not_mem_nil, or_false] at hm
      rcases hm with rfl | rfl
      · exact ⟨_, hnode⟩
      · exact ⟨_, hnext0⟩)
  obtain ⟨_, e2, _, _, _, e6, e7, _, _⟩ := erase_eq_fields _ _ c6
  refine ⟨edge, next_node, params, f, hedges, hnext0, hpar, s1, s2, s3, by rw [hr, hlen],
    by rw [hg]; exact c5, e2, e6, e7, ?_, ?_⟩
  · unfold GetNodeAttribute
    rw [e7]
    simp only [fusedNode, genericAttributes]
    split
    · rw [lookup_SetNodeAttribute_ne _ _ _ _ (by decide)]
      exact lookup_SetNodeAttribute_same _ _ _
    · exact lookup_SetNodeAttribute_same _ _ _
  · unfold GetNodeAttribute
    rw [e7]
    simp only [fusedNode, genericAttributes]
    by_cases hnil : params = []
    · simp only [hnil, ne_eq, not_true_eq_false, if_false, if_true]
      exact lookup_SetNodeAttribute_ne _ _ _ _ (by decide)
    · simp only [hnil, ne_eq, not_false_eq_true, if_true, if_false]
      exact lookup_SetNodeAttribute_same _ _ _

theorem slotWeight_erase (size : G → Nat) (slot : Option (Node G)) :
    slotWeight size (slot.map Node.erase) = slotWeight size slot := by
  cases slot <;> rfl

theorem totalNodes_erase (size : G → Nat) (graph : Graph G) :
    graph.erase.TotalNodes size = graph.TotalNodes size := by
  simp only [Graph.TotalNodes, Graph.erase, List.map_map]
  congr 1
  apply List.map_congr_left
  intro slot _
  exact slotWeight_erase size slot

theorem sum_set_slot (size : G → Nat) (a b : Option (Node G)) :
    ∀ (l : List (Option (Node G))) (k : Nat), l[k]? = some a →
      ((l.set k b).map (slotWeight size)).sum + slotWeight size a =
        (l.map (slotWeight size)).sum + slotWeight size b
  | [], _, h => by simp at h
  | x :: l, 0, h => by
    simp at h
    subst h
    simp only [List.set_cons_zero, List.map_cons, List.sum_cons]
    omega
  | x :: l, k + 1, h => by
    simp at h
    have ih := sum_set_slot size a b l k h
    simp only [List.set_cons_succ, List.map_cons, List.sum_cons]
    omega

theorem weight_pos (size : G → Nat) (node : Node G) : 1 ≤ node.weight size := by
  unfold Node.weight
  omega

theorem sum_removeAll (size : G → Nat) (ks : List Nat) (hnd : ks.Nodup) :
    ∀ l : List (Option (Node G)), (∀ k ∈ ks, ∃ a, l[k]? = some (some a)) →
      ((removeAll l ks).map (slotWeight size)).sum + ks.length ≤
        (l.map (slotWeight size)).sum := by
  induction ks with
  | nil => intro l _; simp [removeAll]
  | cons k ks ih =>
    intro l hl
    rw [List.nodup_cons] at hnd
    obtain ⟨a, ha⟩ := hl k (List.mem_cons_self _ _)
    have h1 := sum_set_slot size (some a) none l k ha
    have h2 := ih hnd.2 (l.set k none) (by
      intro j hj
      obtain ⟨b, hb⟩ := hl j (List.mem_cons_of_mem _ hj)
      have hne : k ≠ j := fun h => hnd.1 (h ▸ hj)
      exact ⟨b, by rw [List.getElem?_set_ne hne]; exact hb⟩)
    have h3 := weight_pos size a
    simp only [removeAll, List.foldl_cons, List.length_cons, slotWeight] at h1 h2 ⊢
    omega

theorem commit_totalNodes (size : G → Nat) (graph : Graph G) (fused : Node G)
    (nodes : List Nat) (hnd : nodes.Nodup)
    (hlive : ∀ k ∈ nodes, ∃ a, graph.GetNode k = some a) (hsub : fused.Subgraphs = []) :
    (graph.commit fused nodes).TotalNodes size + nodes.length ≤ graph.TotalNodes size + 1 := by
  rw [← totalNodes_erase, ← totalNodes_erase size graph]
  unfold Graph.commit
  rw [erase_FinalizeNodeFusion]
  have h := sum_removeAll size nodes hnd
    (List.map (Option.map Node.erase) graph.nodes ++ [some fused.erase]) (by
      intro k hk
      obtain ⟨a, ha⟩ := hlive k hk
      have hlt : k < graph.nodes.length := getNode_lt _ _ _ ha
      rw [getNode_some_iff] at ha
      exact ⟨a.erase, by
        rw [List.getElem?_append_left (by simpa using hlt), List.getElem?_map, ha]; rfl⟩)
  have hw : slotWeight size (some fused.erase) = 1 := by
    simp [slotWeight, Node.weight, Node.erase, hsub]
  simp only [Graph.TotalNodes, Graph.erase, List.map_append, List.map_cons, List.map_nil,
    Option.map_some', List.sum_append, List.sum_cons, List.sum_nil, hw] at h ⊢
  omega

theorem updateNode_totalNodes (size : G → Nat) (graph : Graph G) (index : Nat) (node : Node G)
    (f : Node G → Node G) (hnode : graph.GetNode index = some node) :
    (graph.UpdateNode index f).TotalNodes size + node.weight size =
      graph.TotalNodes size + (f node).weight size := by
  unfold Graph.UpdateNode
  rw [hnode]
  rw [getNode_some_iff] at hnode
  exact sum_set_slot size (some node) (some (f node)) graph.nodes index hnode

/-- The node a commit creates owns no subgraph. -/
theorem fuseAt_commit_subgraphs (env : Env) (graph graph' : Graph G) (r r' : Refs)
    (index : Nat) (node : Node G)
    (h : ApplyImpl.fuseAt env graph r index node = .ok (graph', r')) :
    (graph' = graph ∧ r' = r) ∨
    ∃ (fused : Node G) (ms : List Nat),
      graph' = graph.commit fused ms ∧
      r' = ⟨true, r.fusions ++ [⟨ms, graph.nodes.length⟩]⟩ ∧
      fused.Subgraphs = [] := by
  rcases fuseAt_cases env graph graph' r r' index node h with hc | ⟨edge, next_node, ha, hp⟩
  · exact Or.inl hc
  have hnext := ha.2.2.2.1
  rcases hp with ⟨_, hp⟩ | ⟨_, hp⟩
  · rcases fuseCuda_cases env graph graph' r r' index node edge.node next_node hnext hp with
      hc | ⟨_, _, _, _, _, hc⟩
    · exact Or.inl hc
    rcases hc with ⟨_, hg, hr⟩ | ⟨_, _, _, _, _, _, _, _, _, _, hg, hr⟩
    · exact Or.inr ⟨_, _, hg, hr, rfl⟩
    · exact Or.inr ⟨_, _, hg, hr, rfl⟩
  · rcases fuseOther_cases env graph graph' r r' index node edge.node next_node hnext hp with
      hc | ⟨_, _, hg, hr⟩
    · exact Or.inl hc
    · exact Or.inr ⟨_, _, hg, hr, rfl⟩

theorem snoc_inj {α : Type} {l : List α} {a b : α} (h : l ++ [a] = l ++ [b]) : a = b := by
  have := List.append_cancel_left h
  injection this

theorem fuseAt_shrinks (env : Env) (size : G → Nat) (graph graph' : Graph G) (r r' : Refs)
    (index : Nat) (node : Node G) (hnode : graph.GetNode index = some node)
    (h : ApplyImpl.fuseAt env graph r index node = .ok (graph', r')) :
    graph'.TotalNodes size + r'.fusions.length ≤ graph.TotalNodes size + r.fusions.length ∧
    graph'.NumberOfNodes ≤ graph.NumberOfNodes := by
  rcases fuseAt_commit env graph graph' r r' index node hnode h with
    ⟨hg, hr⟩ | ⟨fused, ms, _, _, hg, hr, hnd, hlive, _, _, _, _, hshape⟩
  · subst hg hr
    exact ⟨Nat.le_refl _, Nat.le_refl _⟩
  rcases fuseAt_commit_subgraphs env graph graph' r r' index node h with
    ⟨_, hr2⟩ | ⟨fused2, ms2, hg2, hr2, hsub⟩
  · rw [hr2] at hr
    have := congrArg (fun x => x.fusions.length) hr
    simp at this
  have hms : ms2 = ms := by
    rw [hr] at hr2
    have h1 := congrArg Refs.fusions hr2
    simp only at h1
    have h2 := snoc_inj h1
    injection h2 with h3 _
    exact h3.symm
  subst hms
  have hlen : 2 ≤ ms2.length := by
    rcases hshape with hms | ⟨_, _, hms, _⟩ <;> rw [hms] <;> simp
  have ht := commit_totalNodes size graph fused2 ms2 hnd hlive hsub
  have hn := commit_numberOfNodes graph fused2 ms2 hnd hlive
  rw [← hg2] at ht hn
  rw [hr]
  simp only [List.length_append, List.length_singleton]
  constructor <;> omega

theorem Recurse_shrinks (size : G → Nat) (apply : G → Refs → Outcome (G × Refs))
    (ha : Shrinks size apply) : Shrinks (subgraphsSize size) (Recurse apply) := by
  intro subs
  induction subs with
  | nil =>
    intro r s' r' h
    simp only [Recurse] at h
    cases ok_inj h
    exact Nat.le_refl _
  | cons entry rest ih =>
    intro r s' r' h
    obtain ⟨key, subgraph⟩ := entry
    simp only [Recurse] at h
    split at h
    · exact absurd h (by simp)
    · exact absurd h (by simp)
    rename_i subgraph1 r1 h1
    split at h
    · exact absurd h (by simp)
    · exact absurd h (by simp)
    rename_i rest1 r2 h2
    cases ok_inj h
    have e1 := ha _ _ _ _ h1
    have e2 := ih _ _ _ h2
    simp only [subgraphsSize, List.map_cons, List.sum_cons] at e2 ⊢
    omega

theorem body_shrinks (env : Env) (size : G → Nat) (apply : G → Refs → Outcome (G × Refs))
    (ha : Shrinks size apply) (graph graph' : Graph G) (r r' : Refs) (index : Nat)
    (h : ApplyImpl.body env apply (graph, r) index = .ok (graph', r')) :
    graph'.TotalNodes size + r'.fusions.length ≤ graph.TotalNodes size + r.fusions.length ∧
    graph'.NumberOfNodes ≤ graph.NumberOfNodes := by
  cases hnode : graph.GetNode index with
  | none =>
    rw [body_absent env apply (graph, r) index hnode] at h
    cases ok_inj h
    exact ⟨Nat.le_refl _, Nat.le_refl _⟩
  | some node =>
    unfold ApplyImpl.body at h
    simp only [hnode] at h
    split at h
    · exact absurd h (by simp)
    · exact absurd h (by simp)
    rename_i subgraphs r1 hrec
    have hnode1 := setSubgraphs_getNode_same graph index node subgraphs hnode
    obtain ⟨e1, e2⟩ := fuseAt_shrinks env size _ graph' r1 r' index _ hnode1 h
    have e3 := Recurse_shrinks size apply ha _ _ _ _ hrec
    have e4 := updateNode_totalNodes size graph index node
      (fun n => { n with Subgraphs := subgraphs }) hnode
    have e5 : (graph.SetSubgraphs index subgraphs).NumberOfNodes = graph.NumberOfNodes :=
      updateNode_numberOfNodes graph index _
    simp only [Graph.SetSubgraphs, Node.weight, subgraphsSize] at e1 e2 e3 e4 e5 ⊢
    constructor <;> omega

theorem loop_shrinks (env : Env) (size : G → Nat) (apply : G → Refs → Outcome (G × Refs))
    (ha : Shrinks size apply) (order : List Nat) :
    ∀ (graph graph' : Graph G) (r r' : Refs),
      ApplyImpl.loop env apply order (graph, r) = .ok (graph', r') →
      graph'.TotalNodes size + r'.fusions.length ≤
          graph.TotalNodes size + r.fusions.length ∧
        graph'.NumberOfNodes ≤ graph.NumberOfNodes := by
  induction order with
  | nil =>
    intro graph graph' r r' h
    simp only [ApplyImpl.loop] at h
    cases ok_inj h
    exact ⟨Nat.le_refl _, Nat.le_refl _⟩
  | cons index rest ih =>
    intro graph graph' r r' h
    simp only [ApplyImpl.loop] at h
    split at h
    · exact absurd h (by simp)
    · exact absurd h (by simp)
    rename_i state1 hbody
    obtain ⟨graph1, r1⟩ := state1
    obtain ⟨a1, a2⟩ := body_shrinks env size apply ha _ _ _ _ _ hbody
    obtain ⟨b1, b2⟩ := ih _ _ _ _ h
    constructor <;> omega

theorem ApplyImpl_shrinks (env : Env) (size : G → Nat) (apply : G → Refs → Outcome (G × Refs))
    (ha : Shrinks size apply) : Shrinks (Graph.TotalNodes size) (ApplyImpl env apply) := by
  intro graph r graph' r' h
  exact (loop_shrinks env size apply ha _ _ _ _ _ h).1

theorem ApplyImplNested_shrinks (env : Env) :
    ∀ d : Nat, Shrinks (Subgraph.size d) (ApplyImplNested env d)
  | 0 => fun s => nomatch s
  | d + 1 => ApplyImpl_shrinks env _ _ (ApplyImplNested_shrinks env d)

theorem subgraphs_depth0 (subgraphs : List (String × Subgraph 0)) : subgraphs = [] := by
  cases subgraphs with
  | nil => rfl
  | cons entry _ => exact Empty.elim entry.2

theorem totalNodes_depth0 (graph : Graph (Subgraph 0)) :
    graph.TotalNodes (Subgraph.size 0) = graph.NumberOfNodes := by
  unfold Graph.TotalNodes Graph.NumberOfNodes
  induction graph.nodes with
  | nil => rfl
  | cons slot rest ih =>
    cases slot with
    | none =>
      simp only [List.map_cons, List.sum_cons, slotWeight, Nat.zero_add, ih]
      rfl
    | some node =>
      simp only [List.map_cons, List.sum_cons, slotWeight, Node.weight,
        subgraphs_depth0 node.Subgraphs, List.map_nil, List.sum_nil, ih]
      simp [List.filter_cons, Nat.add_comm]

/-- C15 (termination of the fixed-point loop). Counting the nodes of a graph
together with the nodes of its nested subgraphs: an invocation of `ApplyImpl`
that returns OK never returns more nodes than it was given (nor more top-level
nodes), and returns strictly fewer when it committed at least one fusion. An
invocation that reports a modification therefore returns strictly fewer nodes,
and any run of the outer loop, each invocation modifying the graph the previous
one returned, has at most as many modifying invocations as the initial graph
has nodes. On a graph without nested subgraphs this count is
`Graph::NumberOfNodes()`. -/
theorem C15_node_count_and_termination (env : Env) (d : Nat) :
    (∀ (graph graph' : Graph (Subgraph d)) (r r' : Refs),
      ConvActivationFusion.ApplyImpl env d graph r = .ok (graph', r') →
      graph'.TotalNodes (Subgraph.size d) ≤ graph.TotalNodes (Subgraph.size d) ∧
      graph'.NumberOfNodes ≤ graph.NumberOfNodes ∧
      (r'.fusions ≠ r.fusions →
        graph'.TotalNodes (Subgraph.size d) < graph.TotalNodes (Subgraph.size d))) ∧
    (∀ graph graph' : Graph (Subgraph d), ModifyingInvocation env d graph graph' →
      graph'.TotalNodes (Subgraph.size d) < graph.TotalNodes (Subgraph.size d)) ∧
    (∀ (graph0 : Graph (Subgraph d)) (later : List (Graph (Subgraph d))),
      List.Chain (ModifyingInvocation env d) graph0 later →
      later.length ≤ graph0.TotalNodes (Subgraph.size d)) ∧
    (∀ graph : Graph (Subgraph 0), graph.TotalNodes (Subgraph.size 0) = graph.NumberOfNodes) := by
  have hone : ∀ (graph graph' : Graph (Subgraph d)) (r r' : Refs),
      ConvActivationFusion.ApplyImpl env d graph r = .ok (graph', r') →
      graph'.TotalNodes (Subgraph.size d) ≤ graph.TotalNodes (Subgraph.size d) ∧
      graph'.NumberOfNodes ≤ graph.NumberOfNodes ∧
      (r'.fusions ≠ r.fusions →
        graph'.TotalNodes (Subgraph.size d) < graph.TotalNodes (Subgraph.size d)) := by
    intro graph graph' r r' h
    obtain ⟨hs, hn⟩ := loop_shrinks env (Subgraph.size d) _ (ApplyImplNested_shrinks env d)
      _ _ _ _ _ h
    obtain ⟨⟨added, hadd⟩, _, _, _⟩ :=
      ApplyImpl_accounted env _ (ApplyImplNested_accounted env d) graph r graph' r' h
    rw [hadd, List.length_append] at hs
    refine ⟨by omega, hn, ?_⟩
    intro hne
    have hpos : 0 < added.length := by
      cases added with
      | nil => exact absurd (by rw [hadd]; simp) hne
      | cons _ _ => simp
    omega
  have htwo : ∀ graph graph' : Graph (Subgraph d), ModifyingInvocation env d graph graph' →
      graph'.TotalNodes (Subgraph.size d) < graph.TotalNodes (Subgraph.size d) := by
    rintro graph graph' ⟨r, r', hentry, h, hmod⟩
    apply (hone graph graph' r r' h).2.2
    intro heq
    obtain ⟨_, _, hquiet, _⟩ :=
      ApplyImpl_accounted env _ (ApplyImplNested_accounted env d) graph r graph' r' h
    have := (hquiet heq).2
    rw [hentry, hmod] at this
    cases this
  refine ⟨hone, htwo, ?_, totalNodes_depth0⟩
  intro graph0 later
  induction later generalizing graph0 with
  | nil => intro _; exact Nat.zero_le _
  | cons graph1 rest ih =>
    intro hchain
    rw [List.chain_cons] at hchain
    have h1 := htwo graph0 graph1 hchain.1
    have h2 := ih graph1 hchain.2
    simp only [List.length_cons]
    omega

theorem domain_of_supported (n : Node G) (op : String) (vs : List Int)
    (h : IsSupportedOptypeVersionAndDomain n op vs = true) : n.Domain = kOnnxDomain := by
  simp only [IsSupportedOptypeVersionAndDomain, decide_eq_true_eq] at h
  exact h.2.2

theorem ParamsFor_domain (env : Env) (graph : Graph G) (node next_node : Node G)
    (params : List float) (h : ApplyImpl.ParamsFor env graph node next_node params) :
    next_node.Domain = kOnnxDomain := by
  rcases h with ⟨h | h | h, _⟩ | ⟨h, _⟩ | ⟨h, _⟩ | ⟨h, _⟩ <;>
    exact domain_of_supported _ _ _ h

/-- Every node a commit matches is a live node of the default ONNX domain whose
op type is one the pass matches. -/
theorem fuseAt_commit_optypes (env : Env) (graph graph' : Graph G) (r r' : Refs)
    (index : Nat) (node : Node G) (hnode : graph.GetNode index = some node)
    (h : ApplyImpl.fuseAt env graph r index node = .ok (graph', r')) :
    (graph' = graph ∧ r' = r) ∨
    ∃ ms : List Nat,
      r' = ⟨true, r.fusions ++ [⟨ms, graph.nodes.length⟩]⟩ ∧
      ∀ m ∈ ms, ∃ n, graph.GetNode m = some n ∧
        n.OpType ∈ matchedOpTypes ∧ n.Domain = kOnnxDomain := by
  rcases fuseAt_cases env graph graph' r r' index node h with hc | ⟨edge, next_node, ha, hp⟩
  · exact Or.inl hc
  have hconv := ha.1
  have hnext := ha.2.2.2.1
  have hC : ∃ n, graph.GetNode index = some n ∧
      n.OpType ∈ matchedOpTypes ∧ n.Domain = kOnnxDomain :=
    ⟨node, hnode, by rw [optype_of_supported _ _ _ hconv]; decide,
      domain_of_supported _ _ _ hconv⟩
  rcases hp with ⟨_, hp⟩ | ⟨_, hp⟩
  · rcases fuseCuda_cases env graph graph' r r' index node edge.node next_node hnext hp with
      hc | ⟨_, _, _, _, _, hc⟩
    · exact Or.inl hc
    rcases hc with ⟨hrelu, _, hr⟩ |
      ⟨_, hadd, last_edge, last_node, _, _, hlast, _, hrelu, _, _, hr⟩
    · refine Or.inr ⟨_, hr, ?_⟩
      intro m hm
      simp only [List.mem_cons, List.mem_singleton, List.not_mem_nil, or_false] at hm
      rcases hm with rfl | rfl
      · exact hC
      · exact ⟨next_node, hnext, by rw [optype_of_supported _ _ _ hrelu]; decide,
          domain_of_supported _ _ _ hrelu⟩
    · refine Or.inr ⟨_, hr, ?_⟩
      intro m hm
      simp only [List.mem_cons, List.mem_singleton, List.not_mem_nil, or_false] at hm
      rcases hm with rfl | rfl | rfl
      · exact hC
      · exact ⟨next_node, hnext, by rw [optype_of_supported _ _ _ hadd]; decide,
          domain_of_supported _ _ _ hadd⟩
      · exact ⟨last_node, hlast, by rw [optype_of_supported _ _ _ hrelu]; decide,
          domain_of_supported _ _ _ hrelu⟩
  · rcases fuseOther_cases env graph graph' r r' index node edge.node next_node hnext hp with
      hc | ⟨params, hpar, _, hr⟩
    · exact Or.inl hc
    refine Or.inr ⟨_, hr, ?_⟩
    intro m hm
    simp only [List.mem_cons, List.mem_singleton, List.not_mem_nil, or_false] at hm
    rcases hm with rfl | rfl
    · exact hC
    · refine ⟨next_node, hnext, ?_, ParamsFor_domain env graph node next_node params hpar⟩
      have := (ParamsFor_shape env graph node next_node params hpar).1
      revert this
      generalize next_node.OpType = op
      intro hmem
      simp only [List.mem_cons, List.mem_singleton, List.not_mem_nil, or_false] at hmem
      rcases hmem with rfl | rfl | rfl | rfl | rfl | rfl <;> decide

theorem getNode_none_of_le (graph : Graph G) (k : Nat) (h : graph.nodes.length ≤ k) :
    graph.GetNode k = none := by
  cases hk : graph.GetNode k with
  | none => rfl
  | some n => exact absurd (getNode_lt _ _ _ hk) (Nat.not_lt.mpr h)

theorem createdAreFused_initial (graph : Graph G) : graph.CreatedAreFused graph.nodes.length := by
  intro k n hk hn
  rw [getNode_none_of_le graph k hk] at hn
  cases hn

theorem body_createdAreFused (env : Env) (apply : G → Refs → Outcome (G × Refs))
    (graph graph' : Graph G) (r r' : Refs) (index snapshot : Nat)
    (h : ApplyImpl.body env apply (graph, r) index = .ok (graph', r'))
    (hinv : graph.CreatedAreFused snapshot) : graph'.CreatedAreFused snapshot := by
  cases hnode : graph.GetNode index with
  | none =>
    rw [body_absent env apply (graph, r) index hnode] at h
    cases ok_inj h
    exact hinv
  | some node =>
    unfold ApplyImpl.body at h
    simp only [hnode] at h
    split at h
    · exact absurd h (by simp)
    · exact absurd h (by simp)
    rename_i subgraphs r1 hrec
    have hnode1 := setSubgraphs_getNode_same graph index node subgraphs hnode
    have hlen := setSubgraphs_length graph index subgraphs
    have hinv1 : (graph.SetSubgraphs index subgraphs).CreatedAreFused snapshot := by
      intro k n hk hn
      by_cases hki : index = k
      · subst hki
        rw [hnode1] at hn
        cases hn
        exact hinv index node hk hnode
      · rw [setSubgraphs_getNode_ne graph index k subgraphs hki] at hn
        exact hinv k n hk hn
    rcases fuseAt_commit env _ graph' r1 r' index _ hnode1 h with
      ⟨hg, _⟩ | ⟨fused, ms, _, _, hg, _, _, hlive, hop, hdom, _⟩
    · subst hg
      exact hinv1
    · subst hg
      intro k n hk hn
      have hnot : (graph.SetSubgraphs index subgraphs).nodes.length ∉ ms := by
        intro hmem
        obtain ⟨a, ha⟩ := hlive _ hmem
        exact absurd (getNode_lt _ _ _ ha) (Nat.lt_irrefl _)
      by_cases hmem : k ∈ ms
      · rw [commit_getNode_mem _ _ _ _ hmem] at hn
        cases hn
      rcases Nat.lt_trichotomy k (graph.SetSubgraphs index subgraphs).nodes.length with
        hlt | heq | hgt
      · have := commit_getNode_other (graph.SetSubgraphs index subgraphs) fused ms k hmem hlt
        rw [hn] at this
        cases hold : (graph.SetSubgraphs index subgraphs).GetNode k with
        | none => rw [hold] at this; simp at this
        | some old =>
          rw [hold] at this
          simp only [Option.map_some', Option.some.injEq] at this
          obtain ⟨_, e2, _, e4, _⟩ := erase_eq_fields _ _ this
          obtain ⟨o1, o2⟩ := hinv1 k old hk hold
          exact ⟨e2.trans o1, e4.trans o2⟩
      · subst heq
        have := commit_getNode_new (graph.SetSubgraphs index subgraphs) fused ms hnot
        rw [hn] at this
        simp only [Option.map_some', Option.some.injEq] at this
        obtain ⟨_, e2, _, e4, _⟩ := erase_eq_fields _ _ this
        exact ⟨e2.trans hop, e4.trans hdom⟩
      · have := getNode_none_of_le ((graph.SetSubgraphs index subgraphs).commit fused ms) k (by
          rw [commit_length]; omega)
        rw [this] at hn
        cases hn

theorem loop_createdAreFused (env : Env) (apply : G → Refs → Outcome (G × Refs))
    (order : List Nat) (snapshot : Nat) :
    ∀ (graph graph' : Graph G) (r r' : Refs),
      ApplyImpl.loop env apply order (graph, r) = .ok (graph', r') →
      graph.CreatedAreFused snapshot → graph'.CreatedAreFused snapshot := by
  induction order with
  | nil =>
    intro graph graph' r r' h hinv
    simp only [ApplyImpl.loop] at h
    cases ok_inj h
    exact hinv
  | cons index rest ih =>
    intro graph graph' r r' h hinv
    simp only [ApplyImpl.loop] at h
    split at h
    · exact absurd h (by simp)
    · exact absurd h (by simp)
    rename_i state1 hbody
    obtain ⟨graph1, r1⟩ := state1
    exact ih _ _ _ _ h (body_createdAreFused env apply _ _ _ _ _ _ hbody hinv)

theorem fused_fails_tests (n : Node G) (hop : n.OpType = "FusedConv") :
    IsSupportedOptypeVersionAndDomain n "Conv" [1, 11] = false ∧
    IsSupportedOptypeVersionAndDomain n "Relu" [6, 13, 14] = false ∧
    IsSupportedOptypeVersionAndDomain n "Add" [6, 7, 13, 14] = false := by
  refine ⟨?_, ?_, ?_⟩ <;>
    apply supported_false_of_optype <;> rw [hop] <;> decide

/-- C19 (no re-matching of fused nodes). Take any state an invocation of
`ApplyImpl` reaches after some iterations, and an iteration at a live node there
that commits a fusion of its own. Every matched node (anchor, Add or terminal
activation) is a node of the default ONNX domain that already had its slot in
the arena the invocation was given, so none of them was created by the
invocation; the node the commit creates takes a slot beyond that arena. Every
node in a slot beyond that arena is a `FusedConv` of the `com.microsoft` domain,
and such a node fails the Conv anchor test and the Relu and Add consumer tests.
The traversal itself is the loop over the order computed from the graph the
invocation was given. -/
theorem C19_created_nodes_are_never_matched (env : Env) (apply : G → Refs → Outcome (G × Refs))
    (graph0 graph1 graph2 : Graph G) (r0 r1 r2 r3 : Refs) (earlier : List NodeIndex)
    (index : NodeIndex) (node : Node G) (subgraphs : List (String × G))
    (hearlier : ApplyImpl.loop env apply earlier (graph0, r0) = .ok (graph1, r1))
    (hnode : graph1.GetNode index = some node)
    (hrec : Recurse apply node.Subgraphs r1 = .ok (subgraphs, r2))
    (h : ApplyImpl.body env apply (graph1, r1) index = .ok (graph2, r3))
    (hcommit : r3.fusions ≠ r2.fusions) :
    ∃ fusion : Fusion,
      r3.fusions = r2.fusions ++ [fusion] ∧
      (∀ m ∈ fusion.nodes,
        m < graph0.nodes.length ∧
        ∃ n, graph1.GetNode m = some n ∧ n.OpType ∈ matchedOpTypes ∧
          n.OpType ≠ "FusedConv" ∧ n.Domain = kOnnxDomain) ∧
      graph0.nodes.length ≤ fusion.replacement ∧
      graph2.CreatedAreFused graph0.nodes.length ∧
      (∀ n : Node G, n.OpType = "FusedConv" →
        IsSupportedOptypeVersionAndDomain n "Conv" [1, 11] = false ∧
        IsSupportedOptypeVersionAndDomain n "Relu" [6, 13, 14] = false ∧
        IsSupportedOptypeVersionAndDomain n "Add" [6, 7, 13, 14] = false) ∧
      ApplyImpl env apply graph0 r0 =
        ApplyImpl.loop env apply (env.GetNodesInTopologicalOrder graph0) (graph0, r0) := by
  have hinv1 : graph1.CreatedAreFused graph0.nodes.length :=
    loop_createdAreFused env apply earlier _ _ _ _ _ hearlier (createdAreFused_initial graph0)
  have hinv2 : graph2.CreatedAreFused graph0.nodes.length :=
    body_createdAreFused env apply _ _ _ _ _ _ h hinv1
  have hlen01 := (loop_arena env apply earlier _ _ _ _ hearlier).1
  have hnode1 := setSubgraphs_getNode_same graph1 index node subgraphs hnode
  have hlen := setSubgraphs_length graph1 index subgraphs
  have hf := h
  rw [body_eq env apply graph1 r1 r2 index node subgraphs hnode hrec] at hf
  rcases fuseAt_commit_optypes env _ graph2 r2 r3 index _ hnode1 hf with
    ⟨_, hr⟩ | ⟨ms, hr, hms⟩
  · exact absurd (by rw [hr]) hcommit
  refine ⟨⟨ms, graph1.nodes.length⟩, by rw [hr, hlen], ?_, hlen01, hinv2,
    fun n hop => fused_fails_tests n hop, rfl⟩
  intro m hm
  obtain ⟨n, hn, hop, hdom⟩ := hms m hm
  have hn1 : ∃ n', graph1.GetNode m = some n' ∧ n'.OpType = n.OpType ∧
      n'.Domain = n.Domain := by
    by_cases hmi : index = m
    · subst hmi
      rw [hnode1] at hn
      cases hn
      exact ⟨node, hnode, rfl, rfl⟩
    · rw [setSubgraphs_getNode_ne graph1 index m subgraphs hmi] at hn
      exact ⟨n, hn, rfl, rfl⟩
  obtain ⟨n', hn', e1, e2⟩ := hn1
  have hnotfused : n'.OpType ≠ "FusedConv" := by
    rw [e1]
    intro heq
    rw [heq] at hop
    revert hop
    decide
  refine ⟨?_, n', hn', by rw [e1]; exact hop, hnotfused, by rw [e2]; exact hdom⟩
  by_contra hge
  exact hnotfused (hinv1 m n' (Nat.le_of_not_lt hge) hn').1

theorem getNode_MoveAllNodeInputEdges (graph : Graph G) (src target k : Nat) :
    (MoveAllNodeInputEdges graph src target).GetNode k =
      (graph.GetNode k).map fun n =>
        { n with OutputEdges := n.OutputEdges.map fun e =>
            if e.node = src then { e with node := target } else e } := by
  simp only [getNode_eq_join, MoveAllNodeInputEdges, List.getElem?_map]
  cases graph.nodes[k]? with
  | none => rfl
  | some slot => cases slot <;> rfl

theorem getNode_RemoveNode (graph : Graph G) (index k : Nat) :
    (graph.RemoveNode index).GetNode k =
      if k = index then none
      else (graph.GetNode k).map fun n =>
        { n with OutputEdges := n.OutputEdges.filter fun e => decide (e.node ≠ index) } := by
  simp only [getNode_eq_join, Graph.RemoveNode, List.getElem?_map, List.getElem?_set]
  by_cases hk : k = index
  · subst hk
    simp only [if_true]
    split <;> rfl
  · have hk' : ¬ index = k := fun h => hk h.symm
    simp only [hk, hk', if_false]
    cases graph.nodes[k]? with
    | none => rfl
    | some slot => cases slot <;> rfl

theorem safeIn_of_live (sub : G → Prop) (graph graph' : Graph G) (node node' : Node G)
    (hedges : ∀ edge ∈ node'.OutputEdges, (graph'.GetNode edge.node).isSome = true)
    (hop : node'.OpType = node.OpType) (hin : node'.InputDefs = node.InputDefs)
    (hout : node'.OpType = "Conv" → node'.OutputDefs = node.OutputDefs)
    (hsub : node'.Subgraphs = node.Subgraphs)
    (h : node.SafeIn sub graph) : node'.SafeIn sub graph' := by
  obtain ⟨_, h2, h3⟩ := h
  refine ⟨hedges, ?_, by rw [hsub]; exact h3⟩
  intro hconv
  have := h2 (hop ▸ hconv)
  rw [hin, hout hconv]
  exact this

theorem lookupsSafe_MoveAllNodeInputEdges (sub : G → Prop) (graph : Graph G)
    (src target : Nat) (htarget : (graph.GetNode target).isSome = true)
    (h : graph.LookupsSafe sub) : (MoveAllNodeInputEdges graph src target).LookupsSafe sub := by
  intro k node' hk
  rw [getNode_MoveAllNodeInputEdges] at hk
  cases hold : graph.GetNode k with
  | none => rw [hold] at hk; cases hk
  | some node =>
    rw [hold] at hk
    simp only [Option.map_some', Option.some.injEq] at hk
    subst hk
    have hs := h k node hold
    refine safeIn_of_live sub graph _ node _ ?_ rfl rfl (fun _ => rfl) rfl hs
    intro edge hedge
    simp only [List.mem_map] at hedge
    obtain ⟨e0, he0, rfl⟩ := hedge
    rw [getNode_MoveAllNodeInputEdges]
    have hlive0 := hs.1 e0 he0
    split
    · simp only [Option.isSome_map']
      exact htarget
    · simp only [Option.isSome_map']
      exact hlive0

theorem lookupsSafe_UpdateNode (sub : G → Prop) (graph : Graph G) (index : Nat)
    (f : Node G → Node G)
    (hf : ∀ n, graph.GetNode index = some n → (f n).SafeIn sub graph)
    (h : graph.LookupsSafe sub) : (graph.UpdateNode index f).LookupsSafe sub := by
  have hlive : ∀ j, ((graph.UpdateNode index f).GetNode j).isSome = (graph.GetNode j).isSome :=
    fun j => getNode_updateNode_isSome graph index j f
  have hmove : ∀ n : Node G, n.SafeIn sub graph → n.SafeIn sub (graph.UpdateNode index f) := by
    intro n hn
    refine safeIn_of_live sub graph _ n n ?_ rfl rfl (fun _ => rfl) rfl hn
    intro edge hedge
    rw [hlive]
    exact hn.1 edge hedge
  intro k node' hk
  by_cases hki : index = k
  · subst hki
    cases hold : graph.GetNode index with
    | none =>
      simp only [Graph.UpdateNode, hold] at hk
      cases hk
    | some node =>
      rw [getNode_updateNode_same graph index node f hold] at hk
      cases hk
      exact hmove _ (hf node hold)
  · rw [getNode_updateNode_ne graph index k f hki] at hk
    exact hmove _ (h k node' hk)

theorem lookupsSafe_RemoveNode (sub : G → Prop) (graph : Graph G) (index : Nat)
    (h : graph.LookupsSafe sub) : (graph.RemoveNode index).LookupsSafe sub := by
  intro k node' hk
  rw [getNode_RemoveNode] at hk
  split at hk
  · cases hk
  cases hold : graph.GetNode k with
  | none => rw [hold] at hk; cases hk
  | some node =>
    rw [hold] at hk
    simp only [Option.map_some', Option.some.injEq] at hk
    subst hk
    have hs := h k node hold
    refine safeIn_of_live sub graph _ node _ ?_ rfl rfl (fun _ => rfl) rfl hs
    intro edge hedge
    simp only [List.mem_filter, decide_eq_true_eq] at hedge
    rw [getNode_RemoveNode, if_neg hedge.2]
    simp only [Option.isSome_map']
    exact hs.1 edge hedge.1

theorem lookupsSafe_MoveAllNodeOutputs (sub : G → Prop) (graph : Graph G) (src target : Nat)
    (htarget : ∀ t, graph.GetNode target = some t → t.OpType ≠ "Conv")
    (h : graph.LookupsSafe sub) : (MoveAllNodeOutputs graph src target).LookupsSafe sub := by
  unfold MoveAllNodeOutputs
  cases hsrc : graph.GetNode src with
  | none => exact h
  | some s =>
    dsimp only
    have hs := h src s hsrc
    have h1 : (graph.UpdateNode target fun t =>
        { t with OutputDefs := s.OutputDefs,
                 OutputEdges := t.OutputEdges ++ s.OutputEdges }).LookupsSafe sub := by
      refine lookupsSafe_UpdateNode sub graph target _ ?_ h
      intro t ht
      have hts := h target t ht
      refine ⟨?_, fun hc => absurd hc (htarget t ht), hts.2.2⟩
      intro edge hedge
      rcases List.mem_append.mp hedge with he | he
      · exact hts.1 edge he
      · exact hs.1 edge he
    refine lookupsSafe_UpdateNode sub _ src _ ?_ h1
    intro n hn
    have hns := h1 src n hn
    exact ⟨fun _ he => absurd he (List.not_mem_nil _), hns.2.1, hns.2.2⟩

theorem lookupsSafe_RemoveNodeOutputEdges (sub : G → Prop) (graph : Graph G) (index : Nat)
    (h : graph.LookupsSafe sub) : (RemoveNodeOutputEdges graph index).LookupsSafe sub := by
  refine lookupsSafe_UpdateNode sub graph index _ ?_ h
  intro n hn
  have hns := h index n hn
  exact ⟨fun _ he => absurd he (List.not_mem_nil _), hns.2.1, hns.2.2⟩

theorem lookupsSafe_removeNodes (sub : G → Prop) (nodes : List Nat) :
    ∀ graph : Graph G, graph.LookupsSafe sub →
      (nodes.foldl (fun g index => (RemoveNodeOutputEdges g index).RemoveNode index)
        graph).LookupsSafe sub := by
  induction nodes with
  | nil => intro graph h; exact h
  | cons m rest ih =>
    intro graph h
    simp only [List.foldl_cons]
    exact ih _ (lookupsSafe_RemoveNode sub _ m (lookupsSafe_RemoveNodeOutputEdges sub graph m h))

theorem lookupsSafe_FinalizeNodeFusion (sub : G → Prop) (graph : Graph G) (nodes : List Nat)
    (replacement : Nat) (t : Node G) (hrep : graph.GetNode replacement = some t)
    (hop : t.OpType ≠ "Conv") (h : graph.LookupsSafe sub) :
    (FinalizeNodeFusion graph nodes replacement).LookupsSafe sub := by
  unfold FinalizeNodeFusion
  dsimp only
  refine lookupsSafe_removeNodes sub nodes _ ?_
  have h1 : ∀ g1 : Graph G, g1.LookupsSafe sub →
      (∀ t1, g1.GetNode replacement = some t1 → t1.OpType ≠ "Conv") →
      (match nodes.getLast? with
        | none => g1
        | some last => MoveAllNodeOutputs g1 last replacement).LookupsSafe sub := by
    intro g1 hg1 ht1
    cases nodes.getLast? with
    | none => exact hg1
    | some last => exact lookupsSafe_MoveAllNodeOutputs sub g1 last replacement ht1 hg1
  cases nodes.head? with
  | none =>
    refine h1 graph h ?_
    intro t1 ht1
    rw [hrep] at ht1
    cases ht1
    exact hop
  | some first =>
    refine h1 _ (lookupsSafe_MoveAllNodeInputEdges sub graph first replacement
      (by rw [hrep]; rfl) h) ?_
    intro t1 ht1
    rw [getNode_MoveAllNodeInputEdges, hrep] at ht1
    simp only [Option.map_some', Option.some.injEq] at ht1
    subst ht1
    exact hop

theorem lookupsSafe_snoc (sub : G → Prop) (graph : Graph G) (fused : Node G)
    (hedges : fused.OutputEdges = []) (hop : fused.OpType ≠ "Conv") (hsub : fused.Subgraphs = [])
    (h : graph.LookupsSafe sub) :
    (Graph.mk (graph.nodes ++ [some fused]) graph.graph_outputs).LookupsSafe sub := by
  have hlive : ∀ j, (graph.GetNode j).isSome = true →
      ((Graph.mk (graph.nodes ++ [some fused]) graph.graph_outputs).GetNode j).isSome = true := by
    intro j hj
    cases hn : graph.GetNode j with
    | none => rw [hn] at hj; cases hj
    | some n =>
      rw [getNode_snoc_lt _ _ _ _ (getNode_lt _ _ _ hn)]
      exact hj
  intro k node hk
  by_cases hlt : k < graph.nodes.length
  · rw [getNode_snoc_lt _ _ _ _ hlt] at hk
    have hs := h k node hk
    exact ⟨fun edge hedge => hlive _ (hs.1 edge hedge), hs.2.1, hs.2.2⟩
  · have hk2 := getNode_lt _ _ _ hk
    simp only [List.length_append, List.length_singleton] at hk2
    have hke : k = graph.nodes.length := Nat.le_antisymm (Nat.lt_succ_iff.mp hk2) (Nat.not_lt.mp hlt)
    subst hke
    rw [getNode_snoc_length] at hk
    cases hk
    refine ⟨?_, fun hc => absurd hc hop, ?_⟩
    · rw [hedges]; intro _ he; exact absurd he (List.not_mem_nil _)
    · rw [hsub]; intro _ he; exact absurd he (List.not_mem_nil _)

theorem lookupsSafe_commit (sub : G → Prop) (graph : Graph G) (fused : Node G) (nodes : List Nat)
    (hedges : fused.OutputEdges = []) (hop : fused.OpType ≠ "Conv") (hsub : fused.Subgraphs = [])
    (h : graph.LookupsSafe sub) : (graph.commit fused nodes).LookupsSafe sub := by
  unfold Graph.commit
  exact lookupsSafe_FinalizeNodeFusion sub _ nodes graph.nodes.length fused
    (getNode_snoc_length _ _ _) hop (lookupsSafe_snoc sub graph fused hedges hop hsub h)

theorem lookupsSafe_SetSubgraphs (sub : G → Prop) (graph : Graph G) (index : Nat)
    (subgraphs : List (String × G)) (hsubs : ∀ entry ∈ subgraphs, sub entry.2)
    (h : graph.LookupsSafe sub) : (graph.SetSubgraphs index subgraphs).LookupsSafe sub := by
  refine lookupsSafe_UpdateNode sub graph index _ ?_ h
  intro n hn
  have hns := h index n hn
  exact ⟨hns.1, hns.2.1, hsubs⟩

theorem fuseAt_commit_fresh (env : Env) (graph graph' : Graph G) (r r' : Refs)
    (index : Nat) (node : Node G)
    (h : ApplyImpl.fuseAt env graph r index node = .ok (graph', r')) :
    graph' = graph ∨
    ∃ (fused : Node G) (ms : List Nat),
      graph' = graph.commit fused ms ∧
      fused.OpType = "FusedConv" ∧ fused.OutputEdges = [] ∧ fused.Subgraphs = [] := by
  rcases fuseAt_cases env graph graph' r r' index node h with hc | ⟨edge, next_node, ha, hp⟩
  · exact Or.inl hc.1
  have hnext := ha.2.2.2.1
  rcases hp with ⟨_, hp⟩ | ⟨_, hp⟩
  · rcases fuseCuda_cases env graph graph' r r' index node edge.node next_node hnext hp with
      hc | ⟨_, _, _, _, _, hc⟩
    · exact Or.inl hc.1
    rcases hc with ⟨_, hg, _⟩ | ⟨_, _, _, _, _, _, _, _, _, _, hg, _⟩
    · exact Or.inr ⟨_, _, hg, rfl, rfl, rfl⟩
    · exact Or.inr ⟨_, _, hg, rfl, rfl, rfl⟩
  · rcases fuseOther_cases env graph graph' r r' index node edge.node next_node hnext hp with
      hc | ⟨_, _, hg, _⟩
    · exact Or.inl hc.1
    · exact Or.inr ⟨_, _, hg, rfl, rfl, rfl⟩

theorem fuseAt_lookupsSafe (env : Env) (sub : G → Prop) (graph graph' : Graph G) (r r' : Refs)
    (index : Nat) (node : Node G) (hsafe : graph.LookupsSafe sub)
    (h : ApplyImpl.fuseAt env graph r index node = .ok (graph', r')) :
    graph'.LookupsSafe sub := by
  rcases fuseAt_commit_fresh env graph graph' r r' index node h with
    hg | ⟨fused, ms, hg, hop, hedges, hsub⟩
  · rw [hg]; exact hsafe
  · rw [hg]
    exact lookupsSafe_commit sub graph fused ms hedges (by rw [hop]; decide) hsub hsafe

theorem add_inputs_loop_isSome (conv_outputs add_inputs : List NodeArg)
    (h : conv_outputs ≠ []) :
    ∀ acc, (ApplyImpl.add_inputs_loop conv_outputs add_inputs acc).isSome = true := by
  induction add_inputs with
  | nil => intro acc; rfl
  | cons a rest ih =>
    intro acc
    obtain ⟨conv_inputs, dependent, independent⟩ := acc
    cases hco : conv_outputs with
    | nil => exact absurd hco h
    | cons c cs =>
      rw [hco] at ih
      simp only [ApplyImpl.add_inputs_loop, List.head?_cons]
      split
      · exact ih _
      · exact ih _

theorem fuseGeneric_no_fault (env : Env) (graph : Graph G) (r : Refs) (index : Nat)
    (node : Node G) (next_index : Nat) (next_node act_node : Node G) (params : List float)
    (hnext : graph.GetNode next_index = some act_node) (what : Fault) :
    ApplyImpl.fuseGeneric env graph r index node next_index next_node params ≠ .fault what := by
  unfold ApplyImpl.fuseGeneric
  rw [hnext]
  simp

theorem fuseOther_fault (env : Env) (graph : Graph G) (r : Refs) (index : Nat)
    (node : Node G) (next_index : Nat) (next_node : Node G)
    (hnext : graph.GetNode next_index = some next_node) (what : Fault)
    (h : ApplyImpl.fuseOther env graph r index node next_index next_node = .fault what) :
    what = .null_attribute := by
  unfold ApplyImpl.fuseOther at h
  repeat' split at h
  all_goals first
    | exact absurd h (fuseGeneric_no_fault env graph r index node next_index next_node
        next_node _ hnext what)
    | (injection h with h; exact h.symm)
    | exact absurd h (by simp)

theorem fuseCudaAdd_no_fault (env : Env) (graph : Graph G) (r : Refs) (index : Nat)
    (node : Node G) (next_index : Nat) (next_node : Node G)
    (hnext : graph.GetNode next_index = some next_node)
    (hlive : ∀ edge ∈ next_node.OutputEdges, (graph.GetNode edge.node).isSome = true)
    (hout : node.OutputDefs ≠ []) (what : Fault) :
    ApplyImpl.fuseCudaAdd env graph r index node next_index next_node ≠ .fault what := by
  intro h
  unfold ApplyImpl.fuseCudaAdd at h
  split at h
  · exact absurd h (by simp)
  rename_i hcount
  simp only [ne_eq, not_not] at hcount
  obtain ⟨last_edge, hedges⟩ := edges_of_count_one next_node hcount
  simp only [hedges, List.head?_cons] at h
  have hl := hlive last_edge (by rw [hedges]; exact List.mem_singleton.mpr rfl)
  cases hlast : graph.GetNode last_edge.node with
  | none => rw [hlast] at hl; cases hl
  | some last_node =>
    simp only [hlast, hnext] at h
    split at h
    · exact absurd h (by simp)
    split at h
    · have hs := add_inputs_loop_isSome node.OutputDefs next_node.InputDefs hout
        (node.InputDefs, 0, 0)
      cases hloop : ApplyImpl.add_inputs_loop node.OutputDefs next_node.InputDefs
          (node.InputDefs, 0, 0) with
      | none => rw [hloop] at hs; cases hs
      | some acc =>
        obtain ⟨conv_inputs, dependent, independent⟩ := acc
        simp only [hloop] at h
        split at h <;> exact absurd h (by simp)
    · exact absurd h (by simp)

theorem fuseCuda_fault (env : Env) (graph : Graph G) (r : Refs) (index : Nat)
    (node : Node G) (next_index : Nat) (next_node : Node G)
    (hnext : graph.GetNode next_index = some next_node)
    (hlive : ∀ edge ∈ next_node.OutputEdges, (graph.GetNode edge.node).isSome = true)
    (hin : node.InputDefs ≠ []) (hout : node.OutputDefs ≠ []) (what : Fault)
    (h : ApplyImpl.fuseCuda env graph r index node next_index next_node = .fault what) :
    what = .null_type := by
  unfold ApplyImpl.fuseCuda at h
  cases hhead : node.InputDefs.head? with
  | none =>
    rw [List.head?_eq_none_iff] at hhead
    exact absurd hhead hin
  | some input0 =>
    simp only [hhead] at h
    cases htp : input0.TypeAsProto with
    | none =>
      simp only [htp] at h
      injection h with h
      exact h.symm
    | some type_proto =>
      simp only [htp, hnext] at h
      split at h
      · exact absurd h (by simp)
      split at h
      · exact absurd h (by simp)
      split at h
      · exact absurd h (fuseCudaAdd_no_fault env graph r index node next_index next_node
          hnext hlive hout what)
      · exact absurd h (by simp)

theorem fuseAt_fault (env : Env) (sub : G → Prop) (graph : Graph G) (r : Refs) (index : Nat)
    (node : Node G) (hsafe : graph.LookupsSafe sub) (hnode : graph.GetNode index = some node)
    (what : Fault) (h : ApplyImpl.fuseAt env graph r index node = .fault what) :
    what.Other := by
  have hns := hsafe index node hnode
  unfold ApplyImpl.fuseAt at h
  split at h
  · exact absurd h (by simp)
  rename_i hanchor
  simp only [not_or, Bool.not_eq_false, ne_eq, not_not] at hanchor
  obtain ⟨hconv, _, hcount⟩ := hanchor
  obtain ⟨edge, hedges⟩ := edges_of_count_one node hcount
  simp only [hedges, List.head?_cons] at h
  have hl := hns.1 edge (by rw [hedges]; exact List.mem_singleton.mpr rfl)
  cases hnext : graph.GetNode edge.node with
  | none => rw [hnext] at hl; cases hl
  | some next_node =>
    simp only [hnext] at h
    have hnexts := hsafe edge.node next_node hnext
    obtain ⟨⟨input, hmem, _⟩, hout⟩ := hns.2.1 (optype_of_supported _ _ _ hconv)
    split at h
    · exact absurd h (by simp)
    split at h
    · exact absurd h (by simp)
    split at h
    · exact Or.inl (fuseCuda_fault env graph r index node edge.node next_node hnext hnexts.1
        (List.ne_nil_of_mem hmem) hout what h)
    · exact Or.inr (fuseOther_fault env graph r index node edge.node next_node hnext what h)

theorem Recurse_safe {sub : G → Prop} (apply : G → Refs → Outcome (G × Refs))
    (ha : SafeRun sub apply) :
    SafeRun (fun subgraphs : List (String × G) => ∀ entry ∈ subgraphs, sub entry.2)
      (Recurse apply) := by
  intro subs
  induction subs with
  | nil =>
    intro r _
    refine ⟨fun what h => ?_, fun s' r' h => ?_⟩
    · simp [Recurse] at h
    · simp only [Recurse] at h
      cases ok_inj h
      intro _ he
      exact absurd he (List.not_mem_nil _)
  | cons entry rest ih =>
    intro r hsafe
    obtain ⟨key, subgraph⟩ := entry
    have hhead : sub subgraph := hsafe (key, subgraph) (List.mem_cons_self _ _)
    have hrest : ∀ entry ∈ rest, sub entry.2 := fun e he => hsafe e (List.mem_cons_of_mem _ he)
    have hap := ha subgraph r hhead
    refine ⟨fun what h => ?_, fun s' r' h => ?_⟩
    · simp only [Recurse] at h
      cases h1 : apply subgraph r with
      | fault w =>
        rw [h1] at h
        injection h with h
        subst h
        exact hap.1 _ h1
      | error s1 msg =>
        rw [h1] at h
        exact absurd h (by simp)
      | ok s1 =>
        obtain ⟨subgraph1, r1⟩ := s1
        rw [h1] at h
        dsimp only at h
        cases h2 : Recurse apply rest r1 with
        | fault w =>
          rw [h2] at h
          injection h with h
          subst h
          exact (ih r1 hrest).1 _ h2
        | error s2 msg =>
          rw [h2] at h
          exact absurd h (by simp)
        | ok s2 =>
          rw [h2] at h
          exact absurd h (by simp)
    · simp only [Recurse] at h
      cases h1 : apply subgraph r with
      | fault w =>
        rw [h1] at h
        exact absurd h (by simp)
      | error s1 msg =>
        rw [h1] at h
        exact absurd h (by simp)
      | ok s1 =>
        obtain ⟨subgraph1, r1⟩ := s1
        rw [h1] at h
        dsimp only at h
        cases h2 : Recurse apply rest r1 with
        | fault w =>
          rw [h2] at h
          exact absurd h (by simp)
        | error s2 msg =>
          rw [h2] at h
          exact absurd h (by simp)
        | ok s2 =>
          obtain ⟨rest1, r2⟩ := s2
          rw [h2] at h
          dsimp only at h
          cases ok_inj h
          intro e he
          rcases List.mem_cons.mp he with rfl | he
          · exact hap.2 _ _ h1
          · exact (ih r1 hrest).2 _ _ h2 e he

theorem body_safe {sub : G → Prop} (env : Env) (apply : G → Refs → Outcome (G × Refs))
    (ha : SafeRun sub apply) (graph : Graph G) (r : Refs) (index : Nat)
    (hsafe : graph.LookupsSafe sub) :
    (∀ what, ApplyImpl.body env apply (graph, r) index = .fault what → what.Other) ∧
    (∀ graph' r', ApplyImpl.body env apply (graph, r) index = .ok (graph', r') →
      graph'.LookupsSafe sub) := by
  unfold ApplyImpl.body
  dsimp only
  cases hnode : graph.GetNode index with
  | none =>
    refine ⟨fun what h => absurd h (by simp), fun graph' r' h => ?_⟩
    cases ok_inj h
    exact hsafe
  | some node =>
    dsimp only
    have hns := hsafe index node hnode
    have hrec := Recurse_safe apply ha node.Subgraphs r hns.2.2
    cases hr : Recurse apply node.Subgraphs r with
    | fault w =>
      refine ⟨fun what h => ?_, fun graph' r' h => absurd h (by simp)⟩
      injection h with h
      subst h
      exact hrec.1 _ hr
    | error s1 msg =>
      exact ⟨fun what h => absurd h (by simp), fun graph' r' h => absurd h (by simp)⟩
    | ok s1 =>
      obtain ⟨subgraphs, r1⟩ := s1
      dsimp only
      have hsubs := hrec.2 _ _ hr
      have hg := lookupsSafe_SetSubgraphs sub graph index subgraphs hsubs hsafe
      have hnode2 : (graph.SetSubgraphs index subgraphs).GetNode index =
          some { node with Subgraphs := subgraphs } :=
        getNode_updateNode_same graph index node _ hnode
      exact ⟨fun what h => fuseAt_fault env sub _ r1 index _ hg hnode2 what h,
        fun graph' r' h => fuseAt_lookupsSafe env sub _ graph' r1 r' index _ hg h⟩

theorem loop_safe {sub : G → Prop} (env : Env) (apply : G → Refs → Outcome (G × Refs))
    (ha : SafeRun sub apply) (order : List Nat) :
    ∀ (graph : Graph G) (r : Refs), graph.LookupsSafe sub →
      (∀ what, ApplyImpl.loop env apply order (graph, r) = .fault what → what.Other) ∧
      (∀ graph' r', ApplyImpl.loop env apply order (graph, r) = .ok (graph', r') →
        graph'.LookupsSafe sub) := by
  induction order with
  | nil =>
    intro graph r hsafe
    refine ⟨fun what h => ?_, fun graph' r' h => ?_⟩
    · simp [ApplyImpl.loop] at h
    · simp only [ApplyImpl.loop] at h
      cases ok_inj h
      exact hsafe
  | cons index rest ih =>
    intro graph r hsafe
    have hb := body_safe env apply ha graph r index hsafe
    simp only [ApplyImpl.loop]
    cases h1 : ApplyImpl.body env apply (graph, r) index with
    | fault w =>
      refine ⟨fun what h => ?_, fun graph' r' h => absurd h (by simp)⟩
      injection h with h
      subst h
      exact hb.1 _ h1
    | error s1 msg =>
      exact ⟨fun what h => absurd h (by simp), fun graph' r' h => absurd h (by simp)⟩
    | ok s1 =>
      obtain ⟨graph1, r1⟩ := s1
      exact ih graph1 r1 (hb.2 _ _ h1)

theorem ApplyImpl_safe {sub : G → Prop} (env : Env) (apply : G → Refs → Outcome (G × Refs))
    (ha : SafeRun sub apply) : SafeRun (Graph.LookupsSafe sub) (ApplyImpl env apply) := by
  intro graph r hsafe
  exact loop_safe env apply ha _ graph r hsafe

theorem ApplyImplNested_safe (env : Env) :
    ∀ d : Nat, SafeRun (Subgraph.LookupsSafe d) (ApplyImplNested env d)
  | 0 => fun s => nomatch s
  | d + 1 => ApplyImpl_safe env _ (ApplyImplNested_safe env d)

theorem lookupsSafe_of_flat (sub : G → Prop) (graph : Graph G)
    (h : graph.lookupsSafeFlat = true) : graph.LookupsSafe sub := by
  intro k node hk
  rw [getNode_some_iff] at hk
  have hmem : some node ∈ graph.nodes := by
    obtain ⟨hlt, heq⟩ := List.getElem?_eq_some.mp hk
    rw [← heq]
    exact List.getElem_mem hlt
  have hslot := List.all_eq_true.mp h _ hmem
  simp only [Bool.and_eq_true, List.all_eq_true, Bool.or_eq_true, Bool.not_eq_true',
    decide_eq_false_iff_not, List.any_eq_true, List.isEmpty_iff] at hslot
  obtain ⟨⟨hedges, hconv⟩, hsub⟩ := hslot
  refine ⟨hedges, ?_, ?_⟩
  · intro hc
    rcases hconv with hn | ⟨hin, hout⟩
    · exact absurd hc hn
    · refine ⟨hin, ?_⟩
      intro he
      rw [he] at hout
      cases hout
  · rw [hsub]
    intro _ he
    exact absurd he (List.not_mem_nil _)

/-- C20: on a graph in which every consumer edge targets a node that is present
and every Conv has an input of known tensor type and at least one output (and
the same holds of the subgraphs its nodes own, at every depth), none of the
unchecked lookups of the pass fails. The pass as a whole never stops at taking
the first consumer edge (`no_consumer`), at resolving the consumer or the
consumer's consumer by index (`dangling_edge`, `null_node`), at indexing the
first input of the Conv (`no_input`) or at indexing its first output
(`no_output`); and the same holds of every single iteration, at any index,
after any sequence of earlier iterations, fusions included, because every
iteration leaves the graph in this form. The only undefined behaviour left on
such a graph is outside these lookups: reading the element type through a null
type pointer and reading an absent attribute. -/
theorem C20_lookups_succeed_on_well_formed_graph (env : Env) (d : Nat)
    (graph : Graph (Subgraph d)) (r : Refs)
    (hsafe : graph.LookupsSafe (Subgraph.LookupsSafe d)) :
    (∀ what, ConvActivationFusion.ApplyImpl env d graph r = .fault what →
      what ≠ .no_consumer ∧ what ≠ .dangling_edge ∧ what ≠ .null_node ∧
      what ≠ .no_input ∧ what ≠ .no_output) ∧
    (∀ graph' r', ConvActivationFusion.ApplyImpl env d graph r = .ok (graph', r') →
      graph'.LookupsSafe (Subgraph.LookupsSafe d)) ∧
    (∀ (earlier : List NodeIndex) (graph1 : Graph (Subgraph d)) (r1 : Refs) (index : NodeIndex),
      ApplyImpl.loop env (ApplyImplNested env d) earlier (graph, r) = .ok (graph1, r1) →
      graph1.LookupsSafe (Subgraph.LookupsSafe d) ∧
      ∀ what, ApplyImpl.body env (ApplyImplNested env d) (graph1, r1) index = .fault what →
        what ≠ .no_consumer ∧ what ≠ .dangling_edge ∧ what ≠ .null_node ∧
        what ≠ .no_input ∧ what ≠ .no_output) := by
  have hother : ∀ what : Fault, what.Other →
      what ≠ .no_consumer ∧ what ≠ .dangling_edge ∧ what ≠ .null_node ∧
      what ≠ .no_input ∧ what ≠ .no_output := by
    intro what hw
    rcases hw with rfl | rfl <;> exact ⟨by decide, by decide, by decide, by decide, by decide⟩
  have hnested := ApplyImplNested_safe env d
  have hpass := ApplyImpl_safe env _ hnested graph r hsafe
  refine ⟨fun what h => hother what (hpass.1 what h), fun graph' r' h => hpass.2 graph' r' h, ?_⟩
  intro earlier graph1 r1 index h
  have h1 := (loop_safe env _ hnested earlier graph r hsafe).2 graph1 r1 h
  exact ⟨h1, fun what hb => hother what ((body_safe env _ hnested graph1 r1 index h1).1 what hb)⟩

/-- C12 at `Conv -> Add(B, Y) -> Relu` on the CUDA provider: the three matched
nodes and the fused node are all assigned to the CUDA provider. -/
theorem C12_provider_agreement_witness :
    ∃ (fusion : Fusion) (fused : Node Empty),
      [(⟨[0, 1, 2], 3⟩ : Fusion)] = [] ++ [fusion] ∧
      fusion.nodes.head? = some 0 ∧
      (fusion.nodes.length = 2 ∨ fusion.nodes.length = 3) ∧
      (∀ m ∈ fusion.nodes, ∃ matched,
        (Example.convAddRelu ["B", "Y"]).GetNode m = some matched ∧
        matched.ExecutionProviderType = kCudaExecutionProvider) ∧
      fusion.replacement = 3 ∧
      Example.convAddReluFused.GetNode fusion.replacement = some fused ∧
      fused.ExecutionProviderType = kCudaExecutionProvider :=
  C12_provider_agreement Example.env Example.noSubgraphs
    (Example.convAddRelu ["B", "Y"]) Example.convAddReluFused
    ⟨false, []⟩ ⟨false, []⟩ ⟨true, [⟨[0, 1, 2], 3⟩]⟩ 0
    (Example.conv kCudaExecutionProvider [⟨1, 0, 1⟩]) []
    (by decide) (by decide) (by decide) (by decide)

/-- C14 at two `Conv -> Relu` pairs: after the first pair is fused at index 0,
the iterations at the indices 1 and 2 run (the second one fuses the other
pair); the matched nodes 0 and 1 are absent right after the commit and still
absent at the end, and an iteration at either index does nothing. -/
theorem C14_matched_nodes_stay_absent_witness :
    ∃ fusion : Fusion,
      [(⟨[0, 1], 4⟩ : Fusion)] = [] ++ [fusion] ∧
      0 ∈ fusion.nodes ∧
      ∀ m ∈ fusion.nodes,
        m < Example.twoConvReluAfterFirst.nodes.length ∧
        Example.twoConvReluAfterFirst.GetNode m = none ∧
        Example.twoConvReluAfterSecond.GetNode m = none ∧
        ApplyImpl.body Example.env Example.noSubgraphs
            (Example.twoConvReluAfterSecond, ⟨true, [⟨[0, 1], 4⟩, ⟨[2, 3], 5⟩]⟩) m =
          .ok (Example.twoConvReluAfterSecond, ⟨true, [⟨[0, 1], 4⟩, ⟨[2, 3], 5⟩]⟩) :=
  C14_matched_nodes_stay_absent Example.env Example.noSubgraphs
    Example.twoConvRelu Example.twoConvReluAfterFirst Example.twoConvReluAfterSecond
    ⟨false, []⟩ ⟨false, []⟩ ⟨true, [⟨[0, 1], 4⟩]⟩ ⟨true, [⟨[0, 1], 4⟩, ⟨[2, 3], 5⟩]⟩ 0
    (Example.conv kCpuExecutionProvider [⟨1, 0, 0⟩]) [] [1, 2]
    (by decide) (by decide) (by decide) (by decide) (by decide)

/-- C15 at an `If` node whose branch holds a `Conv -> Relu` pair: the invocation
reports a modification, the node count of the graph with its subgraph drops
from three to two while the top-level count stays at one, and no chain of
modifying invocations from this graph is longer than three. -/
theorem C15_node_count_and_termination_witness :
    ModifyingInvocation Example.env 1
      (Example.ifNode (Example.convAct kCpuExecutionProvider "Relu" 14 []))
      (Example.ifNode (Example.convActFused "Relu" [])) ∧
    (Example.ifNode (Example.convActFused "Relu" [])).TotalNodes (Subgraph.size 1) <
      (Example.ifNode (Example.convAct kCpuExecutionProvider "Relu" 14 [])).TotalNodes
        (Subgraph.size 1) ∧
    (Example.ifNode (Example.convAct kCpuExecutionProvider "Relu" 14 [])).TotalNodes
      (Subgraph.size 1) = 3 ∧
    (Example.ifNode (Example.convActFused "Relu" [])).NumberOfNodes =
      (Example.ifNode (Example.convAct kCpuExecutionProvider "Relu" 14 [])).NumberOfNodes :=
  ⟨⟨⟨false, []⟩, ⟨true, [⟨[0, 1], 2⟩]⟩, rfl, by decide, rfl⟩,
   (C15_node_count_and_termination Example.env 1).2.1 _ _
     ⟨⟨false, []⟩, ⟨true, [⟨[0, 1], 2⟩]⟩, rfl, by decide, rfl⟩,
   by decide, by decide⟩

/-- C16 at `Conv -> Relu` on the CUDA provider where the first input of the Conv
is a float16 tensor: nothing is fused although the consumer is a Relu, and the
graph is returned as it was. -/
theorem C16_fast_path_element_type_witness :
    ApplyImpl.body Example.env Example.noSubgraphs (Example.convHalfRelu, ⟨false, []⟩) 0 =
        .ok (Example.convHalfRelu.SetSubgraphs 0 [], ⟨false, []⟩) ∧
    ApplyImpl.body Example.env Example.noSubgraphs (Example.convHalfRelu, ⟨false, []⟩) 0 =
        .ok (Example.convHalfRelu, ⟨false, []⟩) :=
  ⟨((C16_fast_path_element_type Example.env Example.noSubgraphs Example.convHalfRelu
      ⟨false, []⟩ ⟨false, []⟩ 0
      { Example.conv kCudaExecutionProvider [⟨1, 0, 0⟩] with
          InputDefs := [⟨"X", some (.tensor_type 10)⟩, Example.arg "W"] } []
      ⟨"X", some (.tensor_type 10)⟩ (.tensor_type 10)
      (by decide) (by decide) (by decide) (by decide) (by decide) (by decide)).2.1
      (by decide)).1,
   by decide⟩

/-- C17 at `Conv -> Sigmoid` on the CUDA provider: the fast path commits nothing
for a Sigmoid consumer. -/
theorem C17_fast_path_grammar_closed_witness :
    ApplyImpl.body Example.env Example.noSubgraphs
        (Example.convAct kCudaExecutionProvider "Sigmoid" 13 [], ⟨false, []⟩) 0 =
      .ok ((Example.convAct kCudaExecutionProvider "Sigmoid" 13 []).SetSubgraphs 0 [],
        ⟨false, []⟩) :=
  ((C17_fast_path_grammar_closed Example.env Example.noSubgraphs
      (Example.convAct kCudaExecutionProvider "Sigmoid" 13 []) ⟨false, []⟩ ⟨false, []⟩ 0
      (Example.conv kCudaExecutionProvider [⟨1, 0, 0⟩]) []
      (by decide) (by decide) (by decide)).2 ⟨1, 0, 0⟩
      (Example.op "act" "Sigmoid" 13 kCudaExecutionProvider ["Y"] "Z" [] [])
      (by decide) (by decide) (by decide)).2
    (Example.arg "X") (.tensor_type TensorProto_DataType_FLOAT) (by decide) (by decide)

/-- C18 at `Conv -> LeakyRelu(alpha = 0.1f)` on the CPU provider: the fused node
is a `FusedConv` with the inputs of the Conv, `activation = "LeakyRelu"` and
`activation_params = [0.1f]`. -/
theorem C18_generic_fused_attributes_witness :
    ∃ (edge : EdgeEnd) (next_node : Node Empty) (params : List float) (fused : Node Empty),
      (Example.conv kCpuExecutionProvider [⟨1, 0, 0⟩]).OutputEdges = [edge] ∧
      next_node.OpType ∈ ["Relu", "Sigmoid", "Tanh", "LeakyRelu", "Clip", "HardSigmoid"] ∧
      (Example.convActFused "LeakyRelu" [0x3DCCCCCD]).GetNode 2 = some fused ∧
      fused.OpType = "FusedConv" ∧
      fused.InputDefs = [Example.arg "X", Example.arg "W"] ∧
      GetNodeAttribute fused "activation" = some (.s next_node.OpType) ∧
      GetNodeAttribute fused "activation_params" =
        (if params = [] then
          GetNodeAttribute (Example.conv kCpuExecutionProvider [⟨1, 0, 0⟩]) "activation_params"
         else some (.floats params)) := by
  obtain ⟨edge, next_node, params, fused, h1, _, _, h4, _, _, _, h8, h9, h10, _, h12, h13⟩ :=
    C18_generic_fused_attributes Example.env Example.noSubgraphs
      (Example.convAct kCpuExecutionProvider "LeakyRelu" 6 [("alpha", .f 0x3DCCCCCD)])
      (Example.convActFused "LeakyRelu" [0x3DCCCCCD])
      ⟨false, []⟩ ⟨false, []⟩ ⟨true, [⟨[0, 1], 2⟩]⟩ 0
      (Example.conv kCpuExecutionProvider [⟨1, 0, 0⟩]) []
      (by decide) (by decide) (by decide) (by decide) (by decide)
  exact ⟨edge, next_node, params, fused, h1, h4, h8, h9, h10, h12, h13⟩

/-- C19 at two `Conv -> Relu` pairs: the iterations at 0 and 1 fuse the first
pair into the new node 4; the fusion committed afterwards at index 2 matches
only the nodes 2 and 3 of the snapshot, and the nodes created meanwhile are
`FusedConv` nodes. -/
theorem C19_created_nodes_are_never_matched_witness :
    ∃ fusion : Fusion,
      [(⟨[0, 1], 4⟩ : Fusion), ⟨[2, 3], 5⟩] = [⟨[0, 1], 4⟩] ++ [fusion] ∧
      (∀ m ∈ fusion.nodes,
        m < Example.twoConvRelu.nodes.length ∧
        ∃ n, Example.twoConvReluAfterFirst.GetNode m = some n ∧ n.OpType ∈ matchedOpTypes ∧
          n.OpType ≠ "FusedConv" ∧ n.Domain = kOnnxDomain) ∧
      Example.twoConvRelu.nodes.length ≤ fusion.replacement ∧
      Example.twoConvReluAfterSecond.CreatedAreFused Example.twoConvRelu.nodes.length := by
  obtain ⟨fusion, h1, h2, h3, h4, _, _⟩ :=
    C19_created_nodes_are_never_matched Example.env Example.noSubgraphs
      Example.twoConvRelu Example.twoConvReluAfterFirst Example.twoConvReluAfterSecond
      ⟨false, []⟩ ⟨true, [⟨[0, 1], 4⟩]⟩ ⟨true, [⟨[0, 1], 4⟩]⟩
      ⟨true, [⟨[0, 1], 4⟩, ⟨[2, 3], 5⟩]⟩ [0, 1] 2
      (Example.op "conv2" "Conv" 11 kCpuExecutionProvider ["X2", "W2"] "Y2" [] [⟨3, 0, 0⟩]) []
      (by decide) (by decide) (by decide) (by decide) (by decide)
  exact ⟨fusion, h1, h2, h3, h4⟩

/-- C20 at two graphs whose edges all target present nodes and whose Convs have
typed inputs and an output. On `Conv -> Add(B, Y) -> Relu` (CUDA) the pass
performs every lookup of the three-node fusion, returns OK, and leaves a graph
that is again of this form. On `Conv -> Relu, Conv -> LeakyRelu` without `alpha`
the pass does stop, after the first fusion, but not at one of the lookups: it
stops at the read of the absent attribute. -/
theorem C20_lookups_succeed_on_well_formed_graph_witness :
    (Example.convAddRelu ["B", "Y"]).lookupsSafeFlat = true ∧
    ConvActivationFusion.ApplyImpl Example.env 0 (Example.convAddRelu ["B", "Y"])
        ⟨false, []⟩ =
      .ok (Example.convAddReluFused, ⟨true, [⟨[0, 1, 2], 3⟩]⟩) ∧
    Graph.LookupsSafe (Subgraph.LookupsSafe 0) Example.convAddReluFused ∧
    Example.reluThenLeakyNoAlpha.lookupsSafeFlat = true ∧
    ConvActivationFusion.ApplyImpl Example.env 0 Example.reluThenLeakyNoAlpha ⟨false, []⟩ =
      .fault .null_attribute ∧
    (Fault.null_attribute ≠ .no_consumer ∧ Fault.null_attribute ≠ .dangling_edge ∧
      Fault.null_attribute ≠ .null_node ∧ Fault.null_attribute ≠ .no_input ∧
      Fault.null_attribute ≠ .no_output) :=
  ⟨by decide, by decide,
   (C20_lookups_succeed_on_well_formed_graph Example.env 0 (Example.convAddRelu ["B", "Y"])
      ⟨false, []⟩ (lookupsSafe_of_flat _ _ (by decide))).2.1
      Example.convAddReluFused ⟨true, [⟨[0, 1, 2], 3⟩]⟩ (by decide),
   by decide, by decide,
   (C20_lookups_succeed_on_well_formed_graph Example.env 0 Example.reluThenLeakyNoAlpha
      ⟨false, []⟩ (lookupsSafe_of_flat _ _ (by decide))).1 .null_attribute (by decide)⟩

/-- C2 does not hold of the pass as a whole when the conditions are read in the
given graph. In `Example.twoConvAdd` the Conv `conv2` at index 1 is on the CUDA
provider with a float first input, one consumer edge and no graph output; its
sole consumer is the Add (version 14, same provider), whose one consumer edge
leads to the Relu (version 14, same provider); and the Add has exactly one input
named like the output `Y2` of `conv2` and one other input `Y`. Yet the pass fuses
the first Conv with the Add and the Relu and returns with that single fusion:
`conv2` is still a live Conv, now without a consumer. -/
theorem C2_second_conv_is_not_fused :
    Example.twoConvAdd.GetNode 1 =
      some (Example.op "conv2" "Conv" 11 kCudaExecutionProvider ["X2", "W2"] "Y2" []
        [⟨2, 0, 1⟩]) ∧
    IsSupportedOptypeVersionAndDomain
      (Example.op "conv2" "Conv" 11 kCudaExecutionProvider ["X2", "W2"] "Y2" [] [⟨2, 0, 1⟩])
      "Conv" [1, 11] = true ∧
    (Example.op "conv2" "Conv" 11 kCudaExecutionProvider ["X2", "W2"] "Y2" []
      [⟨2, 0, 1⟩]).InputDefs.head? =
      some ⟨"X2", some (.tensor_type TensorProto_DataType_FLOAT)⟩ ∧
    (Example.op "conv2" "Conv" 11 kCudaExecutionProvider ["X2", "W2"] "Y2" []
      [⟨2, 0, 1⟩]).GetOutputEdgesCount = 1 ∧
    Example.twoConvAdd.NodeProducesGraphOutput
      (Example.op "conv2" "Conv" 11 kCudaExecutionProvider ["X2", "W2"] "Y2" [] [⟨2, 0, 1⟩]) =
      false ∧
    Example.twoConvAdd.GetNode 2 =
      some (Example.op "add" "Add" 14 kCudaExecutionProvider ["Y", "Y2"] "S" [] [⟨3, 0, 0⟩]) ∧
    IsSupportedOptypeVersionAndDomain
      (Example.op "add" "Add" 14 kCudaExecutionProvider ["Y", "Y2"] "S" [] [⟨3, 0, 0⟩])
      "Add" [6, 7, 13, 14] = true ∧
    (Example.op "add" "Add" 14 kCudaExecutionProvider ["Y", "Y2"] "S" []
      [⟨3, 0, 0⟩]).InputDefs = [Example.arg "Y", Example.arg "Y2"] ∧
    Example.twoConvAdd.GetNode 3 =
      some (Example.op "relu" "Relu" 14 kCudaExecutionProvider ["S"] "Z" [] []) ∧
    IsSupportedOptypeVersionAndDomain
      (Example.op "relu" "Relu" 14 kCudaExecutionProvider ["S"] "Z" [] [])
      "Relu" [6, 13, 14] = true ∧
    (Example.op "conv2" "Conv" 11 kCudaExecutionProvider ["X2", "W2"] "Y2" []
      [⟨2, 0, 1⟩]).ExecutionProviderType = kCudaExecutionProvider ∧
    (Example.op "add" "Add" 14 kCudaExecutionProvider ["Y", "Y2"] "S" []
      [⟨3, 0, 0⟩]).ExecutionProviderType = kCudaExecutionProvider ∧
    (Example.op "add" "Add" 14 kCudaExecutionProvider ["Y", "Y2"] "S" []
      [⟨3, 0, 0⟩]).OutputEdges = [⟨3, 0, 0⟩] ∧
    (Example.op "relu" "Relu" 14 kCudaExecutionProvider ["S"] "Z" []
      []).ExecutionProviderType = kCudaExecutionProvider ∧
    (Example.op "conv2" "Conv" 11 kCudaExecutionProvider ["X2", "W2"] "Y2" []
      [⟨2, 0, 1⟩]).OutputDefs = [Example.arg "Y2"] ∧
    ConvActivationFusion.ApplyImpl Example.env 0 Example.twoConvAdd ⟨false, []⟩ =
      .ok (Example.twoConvAddAfter, ⟨true, [⟨[0, 2, 3], 4⟩]⟩) ∧
    Example.twoConvAddAfter.GetNode 1 =
      some (Example.op "conv2" "Conv" 11 kCudaExecutionProvider ["X2", "W2"] "Y2" [] []) ∧
    Example.twoConvAddAfter.NumberOfNodes = 2 := by
  decide

/-- C15 does not hold of the number of top-level nodes of a graph
(`Graph::NumberOfNodes()`). The graph `Example.ifNode Example.fanOutFirst` has
one node, an `If` whose branch holds five nodes. The first invocation commits a
fusion inside the branch and reports a modification, and returns a graph with
one node still; the second invocation, on that graph, commits another fusion
and reports a modification again: two modifying invocations on a graph of one
node. The count that includes the nodes of the branch goes from 6 to 4 to 3. -/
theorem C15_top_level_count_does_not_bound :
    (Example.ifNode Example.fanOutFirst).NumberOfNodes = 1 ∧
    ConvActivationFusion.ApplyImpl Example.env 1 (Example.ifNode Example.fanOutFirst)
        ⟨false, []⟩ =
      .ok (Example.ifNode Example.fanOutFirstAfterOne, ⟨true, [⟨[1, 2, 3], 5⟩]⟩) ∧
    (Example.ifNode Example.fanOutFirstAfterOne).NumberOfNodes = 1 ∧
    ConvActivationFusion.ApplyImpl Example.env 1 (Example.ifNode Example.fanOutFirstAfterOne)
        ⟨false, []⟩ =
      .ok (Example.ifNode Example.fanOutFirstAfterTwo, ⟨true, [⟨[0, 4], 6⟩]⟩) ∧
    (Example.ifNode Example.fanOutFirstAfterTwo).NumberOfNodes = 1 ∧
    List.Chain (ModifyingInvocation Example.env 1) (Example.ifNode Example.fanOutFirst)
      [Example.ifNode Example.fanOutFirstAfterOne, Example.ifNode Example.fanOutFirstAfterTwo] ∧
    ¬ ([Example.ifNode Example.fanOutFirstAfterOne,
        Example.ifNode Example.fanOutFirstAfterTwo].length ≤
      (Example.ifNode Example.fanOutFirst).NumberOfNodes) ∧
    (Example.ifNode Example.fanOutFirst).TotalNodes (Subgraph.size 1) = 6 ∧
    (Example.ifNode Example.fanOutFirstAfterOne).TotalNodes (Subgraph.size 1) = 4 ∧
    (Example.ifNode Example.fanOutFirstAfterTwo).TotalNodes (Subgraph.size 1) = 3 :=
  ⟨by decide, by decide, by decide, by decide, by decide,
   List.Chain.cons ⟨⟨false, []⟩, ⟨true, [⟨[1, 2, 3], 5⟩]⟩, rfl, by decide, rfl⟩
     (List.Chain.cons ⟨⟨false, []⟩, ⟨true, [⟨[0, 4], 6⟩]⟩, rfl, by decide, rfl⟩ List.Chain.nil),
   by decide, by decide, by decide, by decide⟩

end onnxruntime
